import Mathlib

/-!
Sensor_4_20mA_RK : 4-20 mA current-loop sensor library

A shallow embedding of `src/Sensor_4_20mA_RK.h` and `src/Sensor_4_20mA_RK.cpp`.

Conventions of the embedding

* A C++ `int` is an `Int` that lies in the 32-bit range. The two subtractions of `convert_mA`
  are reduced to that range by `wrapInt32` (the two's complement result), and the value that
  `convert_mA` returns lies in it.
* A `float` is an IEEE 754 binary32 value and a `double` a binary64 value. Both are elements
  of `Fp`: a rational number, plus or minus infinity, or the not-a-number value. Every
  arithmetic operation is computed exactly and then rounded to nearest, ties to even, in the
  format of its C++ result type (`Format.round`, with gradual underflow and overflow to
  infinity). The promotion of a `float` operand to `double` is exact and is not written. The
  two zeros are one value: no operation of the library tells them apart (the only division by
  zero is by `delta`, an `int` converted to `double`, which is never the negative zero).
* `convert_mA` is declared `int convert_mA(int)`: its `double` result is converted to `int`,
  which discards the fractional part. C++ leaves the conversion undefined when the result does
  not fit an `int` or is not a number; `Platform` supplies the `int` that the target produces
  in those cases.
* Reading hardware is an effect. The device state is an abstract type `σ` that every hardware
  access takes and returns; `readPin` and `init` of a provider are the virtual methods of
  `SensorVirtualPinBase`.
-/

namespace Sensor_4_20mA_RK

/-! Numbers -/

/-- The value of a `float` or `double`: a number, or one of the three values that are not. -/
inductive Fp where
  | num (q : ℚ)
  | posInf
  | negInf
  | nan
  deriving DecidableEq

instance (n : Nat) : OfNat Fp n := ⟨Fp.num n⟩

/-- A binary floating-point format: the number of significand bits and the exponents of the
smallest and the largest normal binade. -/
structure Format where
  prec : ℕ
  emin : ℤ
  emax : ℤ

/-- The format of `float`. -/
def binary32 : Format := { prec := 24, emin := -126, emax := 127 }

/-- The format of `double`. -/
def binary64 : Format := { prec := 53, emin := -1022, emax := 1023 }

/-- Rounding of a rational to the nearest integer, a tie going to the even one. -/
def roundHalfEven (k : ℚ) : ℤ :=
  if k - ⌊k⌋ < 1 / 2 then ⌊k⌋
  else if 1 / 2 < k - ⌊k⌋ then ⌊k⌋ + 1
  else if ⌊k⌋ % 2 = 0 then ⌊k⌋ else ⌊k⌋ + 1

/-- The unit in the last place of the binade of `q`; below the smallest normal binade the unit
of that binade (gradual underflow). -/
def Format.ulp (f : Format) (q : ℚ) : ℚ :=
  (2 : ℚ) ^ (max (Int.log 2 q) f.emin - ((f.prec : ℤ) - 1))

/-- Rounding of a number that is not negative to the nearest multiple of its unit in the last
place. -/
def Format.roundMag (f : Format) (q : ℚ) : ℚ :=
  roundHalfEven (q / f.ulp q) * f.ulp q

/-- Rounding to nearest, ties to even, with an unbounded exponent. -/
def Format.roundRaw (f : Format) (q : ℚ) : ℚ :=
  if q < 0 then -(f.roundMag (-q)) else f.roundMag q

/-- Rounding to nearest, ties to even: a result beyond the largest binade is an infinity. -/
def Format.round (f : Format) (q : ℚ) : Fp :=
  if (2 : ℚ) ^ (f.emax + 1) ≤ |f.roundRaw q| then
    if 0 < q then Fp.posInf else Fp.negInf
  else Fp.num (f.roundRaw q)

/-- The sum of two values, a sum of numbers rounded by `rnd`. -/
def Fp.add (rnd : ℚ → Fp) : Fp → Fp → Fp
  | .num a, .num b => rnd (a + b)
  | .nan, _ => .nan
  | _, .nan => .nan
  | .posInf, .negInf => .nan
  | .negInf, .posInf => .nan
  | .posInf, _ => .posInf
  | .negInf, _ => .negInf
  | _, .posInf => .posInf
  | _, .negInf => .negInf

/-- The opposite of a value. -/
def Fp.neg : Fp → Fp
  | .num a => .num (-a)
  | .posInf => .negInf
  | .negInf => .posInf
  | .nan => .nan

/-- The difference of two values, a difference of numbers rounded by `rnd`. -/
def Fp.sub (rnd : ℚ → Fp) (x y : Fp) : Fp :=
  Fp.add rnd x (Fp.neg y)

/-- The product of two values, a product of numbers rounded by `rnd`. -/
def Fp.mul (rnd : ℚ → Fp) : Fp → Fp → Fp
  | .num a, .num b => rnd (a * b)
  | .nan, _ => .nan
  | _, .nan => .nan
  | .posInf, .num b => if b = 0 then .nan else if 0 < b then .posInf else .negInf
  | .negInf, .num b => if b = 0 then .nan else if 0 < b then .negInf else .posInf
  | .num a, .posInf => if a = 0 then .nan else if 0 < a then .posInf else .negInf
  | .num a, .negInf => if a = 0 then .nan else if 0 < a then .negInf else .posInf
  | .posInf, .posInf => .posInf
  | .posInf, .negInf => .negInf
  | .negInf, .posInf => .negInf
  | .negInf, .negInf => .posInf

/-- The quotient of two values, a quotient of numbers rounded by `rnd`; the zero divisor is
the positive zero. -/
def Fp.div (rnd : ℚ → Fp) : Fp → Fp → Fp
  | .num a, .num b =>
    if b = 0 then (if a = 0 then .nan else if 0 < a then .posInf else .negInf)
    else rnd (a / b)
  | .nan, _ => .nan
  | _, .nan => .nan
  | .num _, .posInf => .num 0
  | .num _, .negInf => .num 0
  | .posInf, .num b => if 0 ≤ b then .posInf else .negInf
  | .negInf, .num b => if 0 ≤ b then .negInf else .posInf
  | .posInf, .posInf => .nan
  | .posInf, .negInf => .nan
  | .negInf, .posInf => .nan
  | .negInf, .negInf => .nan

/-- The operator `+` on two `float` operands. -/
def Fp.addF (x y : Fp) : Fp := Fp.add binary32.round x y

/-- The operator `-` on two `float` operands. -/
def Fp.subF (x y : Fp) : Fp := Fp.sub binary32.round x y

/-- The operator `*` on two `float` operands. -/
def Fp.mulF (x y : Fp) : Fp := Fp.mul binary32.round x y

/-- The operator `+` when an operand is a `double`. -/
def Fp.addD (x y : Fp) : Fp := Fp.add binary64.round x y

/-- The operator `-` when an operand is a `double`. -/
def Fp.subD (x y : Fp) : Fp := Fp.sub binary64.round x y

/-- The operator `*` when an operand is a `double`. -/
def Fp.mulD (x y : Fp) : Fp := Fp.mul binary64.round x y

/-- The operator `/` when an operand is a `double`. -/
def Fp.divD (x y : Fp) : Fp := Fp.div binary64.round x y

/-- The conversion of a `double` to `float`, as in the assignment to a `float` member. -/
def Fp.toFloat : Fp → Fp
  | .num q => binary32.round q
  | .posInf => .posInf
  | .negInf => .negInf
  | .nan => .nan

/-- The conversion `(float)n` of an `int`. -/
def intToFloat (n : Int) : Fp := binary32.round n

/-- The conversion of an `int` to `double`, which is exact. -/
def intToDouble (n : Int) : Fp := Fp.num n

/-- The test `isnan(x)`. -/
def isnan : Fp → Bool
  | .nan => true
  | _ => false

/-- The two's complement reduction of an integer to the range of a 32-bit `int`. -/
def wrapInt32 (x : Int) : Int :=
  (x + 2147483648) % 4294967296 - 2147483648

/-- The `int` a target produces when it converts a `double` that does not fit an `int`
(above or below the range) or that is not a number. -/
structure Platform where
  aboveToInt : Int
  belowToInt : Int
  posInfToInt : Int
  negInfToInt : Int
  nanToInt : Int

/-- Conversion of a number to an integer: the fractional part is discarded (rounding toward
zero). -/
def truncToInt (q : ℚ) : Int :=
  if 0 ≤ q then ⌊q⌋ else ⌈q⌉

/-- The implicit conversion `double → int` of a `return` statement in a function returning
`int`. -/
def Fp.toInt (pf : Platform) : Fp → Int
  | .num q =>
    if truncToInt q < -2147483648 then wrapInt32 pf.belowToInt
    else if 2147483647 < truncToInt q then wrapInt32 pf.aboveToInt
    else truncToInt q
  | .posInf => wrapInt32 pf.posInfToInt
  | .negInf => wrapInt32 pf.negInfToInt
  | .nan => wrapInt32 pf.nanToInt

/-! Data model -/

/-- The struct `SensorConfig`, with the default member initialisers of the header. -/
structure SensorConfig where
  virtualPin : Int := 0
  name : String
  valueLow : Fp := 4
  value20mA : Fp := 20
  valueLowIs4mA : Bool := true
  offset : Fp := 0
  multiplier : Fp := 1
  deriving DecidableEq

/-- The struct `SensorValue`. -/
structure SensorValue where
  adcValue : Int
  mA : Fp
  value : Fp
  deriving DecidableEq

/-- The class `SensorVirtualPinBase`: the four data members and the two virtual methods that
subclasses override, acting on the device state `σ`. The third virtual method, `convert_mA`,
is overridden by no class of the library and is the function `convert_mA` below. -/
structure SensorVirtualPinBase (σ : Type) where
  virtualPinStart : Int
  numVirtualPins : Int
  adcValue4mA : Int
  adcValue20mA : Int
  init : σ → Bool × σ
  readPin : Int → σ → Int × σ

/-- The class `Sensor_4_20mA`: the vector of providers in insertion order, and the config
array, `none` for the `NULL` pointer. -/
structure Sensor_4_20mA (σ : Type) where
  virtualPins : List (SensorVirtualPinBase σ)
  config : Option (List SensorConfig)

variable {σ : Type}

/-! SensorVirtualPinBase -/

/-- The method `SensorVirtualPinBase::init`, the default of the virtual method. -/
def SensorVirtualPinBase.baseInit (s : σ) : Bool × σ :=
  (true, s)

/-- The method `SensorVirtualPinBase::isInRange`. -/
def SensorVirtualPinBase.isInRange (p : SensorVirtualPinBase σ) (virtualPin : Int) : Bool :=
  decide (virtualPin ≥ p.virtualPinStart) &&
    decide (virtualPin < p.virtualPinStart + p.numVirtualPins)

/-- The method `SensorVirtualPinBase::convert_mA`:
`adcValue -= adcValue4mA; int delta = adcValue20mA - adcValue4mA;`
`return (float)adcValue * 16.0 / delta + 4.0;` with return type `int`. The cast is to
`float`; the product, the quotient and the sum have a `double` operand and are `double`. -/
def SensorVirtualPinBase.convert_mA (pf : Platform) (p : SensorVirtualPinBase σ)
    (adcValue : Int) : Int :=
  let adcValue := wrapInt32 (adcValue - p.adcValue4mA)
  let delta := wrapInt32 (p.adcValue20mA - p.adcValue4mA)
  Fp.toInt pf (Fp.addD (Fp.divD (Fp.mulD (intToFloat adcValue) 16) (intToDouble delta)) 4)

/-- The class `SensorVirtualPinNative`: pins 0..99, codes 491 and 2469, `readPin` is
`analogRead(virtualPin)`. -/
def SensorVirtualPinNative (analogRead : Int → σ → Int × σ) : SensorVirtualPinBase σ where
  virtualPinStart := 0
  numVirtualPins := 100
  adcValue4mA := 491
  adcValue20mA := 2469
  init := SensorVirtualPinBase.baseInit
  readPin := fun virtualPin s => analogRead virtualPin s

/-- The external converter object `ADS1015 adc` of the SparkFun library, bound to its address
and bus, and the log sink used when its start-up fails. -/
structure ADS1015 (σ : Type) where
  begin : σ → Bool × σ
  setGain : σ → σ
  getSingleEnded : Int → σ → Int × σ
  logError : σ → σ

/-- The class `SensorVirtualPinADS1015`: four pins from `virtualPinStart`, codes 199 and
1004, `readPin` is `adc.getSingleEnded(virtualPin - virtualPinStart)`. -/
def SensorVirtualPinADS1015 (adc : ADS1015 σ) (virtualPinStart : Int) :
    SensorVirtualPinBase σ where
  virtualPinStart := virtualPinStart
  numVirtualPins := 4
  adcValue4mA := 199
  adcValue20mA := 1004
  init := fun s =>
    let (bResult, s) := adc.begin s
    if bResult then (bResult, adc.setGain s) else (bResult, adc.logError s)
  readPin := fun virtualPin s => adc.getSingleEnded (virtualPin - virtualPinStart) s

/-! Sensor_4_20mA -/

/-- The constructor `Sensor_4_20mA::Sensor_4_20mA`: no provider, `config = NULL`. -/
def Sensor_4_20mA.new : Sensor_4_20mA σ :=
  { virtualPins := [], config := none }

/-- The method `Sensor_4_20mA::withNativeADC`. -/
def Sensor_4_20mA.withNativeADC (reg : Sensor_4_20mA σ) (analogRead : Int → σ → Int × σ) :
    Sensor_4_20mA σ :=
  { reg with virtualPins := reg.virtualPins ++ [SensorVirtualPinNative analogRead] }

/-- The method `Sensor_4_20mA::withADS1015`. -/
def Sensor_4_20mA.withADS1015 (reg : Sensor_4_20mA σ) (adc : ADS1015 σ)
    (virtualPinStart : Int) : Sensor_4_20mA σ :=
  { reg with virtualPins := reg.virtualPins ++ [SensorVirtualPinADS1015 adc virtualPinStart] }

/-- The method `Sensor_4_20mA::withConfig`: the array `config[0 .. numConfig)`. -/
def Sensor_4_20mA.withConfig (reg : Sensor_4_20mA σ) (config : List SensorConfig) :
    Sensor_4_20mA σ :=
  { reg with config := some config }

/-- The loop of `Sensor_4_20mA::readPin` over `virtualPins`. -/
def readPinLoop (pin : Int) : List (SensorVirtualPinBase σ) → σ → Int × σ
  | [], s => (0, s)
  | p :: rest, s =>
    if p.isInRange pin then p.readPin pin s
    else readPinLoop pin rest s

/-- The method `Sensor_4_20mA::readPin`. -/
def Sensor_4_20mA.readPin (reg : Sensor_4_20mA σ) (pin : Int) (s : σ) : Int × σ :=
  readPinLoop pin reg.virtualPins s

/-- The inner loop of `Sensor_4_20mA::readPinValue` over the config array: the first record
with `virtualPin == pin` sets `result.value`, then the loop is left. In
`(result.mA - 4.0) * (value20mA - valueLow) / 16.0 + valueLow` the difference of the two
`float` members is a `float` and the other operations are `double`; in
`result.mA * (value20mA - valueLow) / 20.0` the difference and the product are `float` and
the quotient is `double`; both are stored in the `float` member `value`, and `+=` and `*=`
are `float` operations. -/
def applyConfig (pin : Int) (result : SensorValue) : List SensorConfig → SensorValue
  | [] => result
  | c :: rest =>
    if c.virtualPin == pin then
      let value :=
        if c.valueLowIs4mA then
          Fp.toFloat (Fp.addD (Fp.divD (Fp.mulD (Fp.subD result.mA 4)
            (Fp.subF c.value20mA c.valueLow)) 16) c.valueLow)
        else
          Fp.toFloat (Fp.divD (Fp.mulF result.mA (Fp.subF c.value20mA c.valueLow)) 20)
      let value := Fp.addF value c.offset
      let value := Fp.mulF value c.multiplier
      { result with value := value }
    else applyConfig pin result rest

/-- The outer loop of `Sensor_4_20mA::readPinValue` over `virtualPins`, entered with the
zero `result`. The `int` that `convert_mA` returns is stored in the `float` members `value`
and `mA`. -/
def readPinValueLoop (pf : Platform) (config : Option (List SensorConfig)) (pin : Int) :
    List (SensorVirtualPinBase σ) → σ → SensorValue × σ
  | [], s => ({ adcValue := 0, mA := 0, value := 0 }, s)
  | p :: rest, s =>
    if p.isInRange pin then
      let (adcValue, s) := p.readPin pin s
      let mA : Fp := intToFloat (p.convert_mA pf adcValue)
      let result : SensorValue := { adcValue := adcValue, mA := mA, value := mA }
      match config with
      | some records =>
        if !isnan result.mA then (applyConfig pin result records, s) else (result, s)
      | none => (result, s)
    else readPinValueLoop pf config pin rest s

/-- The method `Sensor_4_20mA::readPinValue`. -/
def Sensor_4_20mA.readPinValue (pf : Platform) (reg : Sensor_4_20mA σ) (pin : Int) (s : σ) :
    SensorValue × σ :=
  readPinValueLoop pf reg.config pin reg.virtualPins s

/-- The loop of `Sensor_4_20mA::init` over `virtualPins`: it is left at the first provider
whose `init` fails. -/
def initLoop : List (SensorVirtualPinBase σ) → σ → Bool × σ
  | [], s => (true, s)
  | p :: rest, s =>
    let (bResult, s) := p.init s
    if !bResult then (false, s) else initLoop rest s

/-- The method `Sensor_4_20mA::init`. -/
def Sensor_4_20mA.init (reg : Sensor_4_20mA σ) (s : σ) : Bool × σ :=
  initLoop reg.virtualPins s

/-- The loop of `Sensor_4_20mA::writeJSON` over the config array. The `JSONWriter` is the
list of the pairs written so far; `writer.name(n).value(v)` appends `(n, v)`. -/
def writeJSONLoop (pf : Platform) (reg : Sensor_4_20mA σ) :
    List SensorConfig → σ → List (String × Fp) → σ × List (String × Fp)
  | [], s, writer => (s, writer)
  | c :: rest, s, writer =>
    let (value, s) := reg.readPinValue pf c.virtualPin s
    if !isnan value.value then
      writeJSONLoop pf reg rest s (writer ++ [(c.name, value.value)])
    else writeJSONLoop pf reg rest s writer

/-- The method `Sensor_4_20mA::writeJSON`. Without `withConfig` the member `numConfig` is
the 0 of the static storage in which the object is documented to live, and the loop body is
not entered. -/
def Sensor_4_20mA.writeJSON (pf : Platform) (reg : Sensor_4_20mA σ) (s : σ)
    (writer : List (String × Fp)) : σ × List (String × Fp) :=
  match reg.config with
  | some records => writeJSONLoop pf reg records s writer
  | none => (s, writer)

/-! Vocabulary of the statements -/

/-- The number `q` is a finite value of the format: a significand of at most `prec` bits
times a power of two not below the smallest of the format, within the largest binade. -/
def Format.Rep (f : Format) (q : ℚ) : Prop :=
  ∃ k j : ℤ, q = k * (2 : ℚ) ^ j ∧ |k| < 2 ^ f.prec ∧ f.emin - ((f.prec : ℤ) - 1) ≤ j ∧
    |q| < (2 : ℚ) ^ (f.emax + 1)

/-- The device after `init()` has been called on each provider of `ps`, in list order,
whatever the calls return. -/
def initCalledOn (ps : List (SensorVirtualPinBase σ)) (s : σ) : σ :=
  ps.foldl (fun s q => (q.init s).2) s

/-- The device after `readPinValue` has been called for the pin of each record of `records`,
in array order. -/
def readCalledOn (pf : Platform) (reg : Sensor_4_20mA σ) (records : List SensorConfig)
    (s : σ) : σ :=
  records.foldl (fun s c => (reg.readPinValue pf c.virtualPin s).2) s

/-- The pairs that the specification of `writeJSON` asks for: for every config record, in
array order, whose `value` of `readPinValue` for its pin is a number, the record's name with
that value, each read made on the device as the reads before it left it. -/
def namedValues (pf : Platform) (reg : Sensor_4_20mA σ) :
    List SensorConfig → σ → List (String × Fp)
  | [], _ => []
  | c :: rest, s =>
    (if isnan (reg.readPinValue pf c.virtualPin s).1.value then []
      else [(c.name, (reg.readPinValue pf c.virtualPin s).1.value)]) ++
      namedValues pf reg rest (reg.readPinValue pf c.virtualPin s).2

/-! Fixtures for the examples -/

/-- An external converter for the examples whose start-up returns `ok` and logs `i2cAddr`;
nothing else is logged. -/
def probedADS1015 (i2cAddr : Int) (ok : Bool) : ADS1015 (List Int) :=
  { begin := fun log => (ok, log ++ [i2cAddr]), setGain := fun log => log,
    getSingleEnded := fun _ log => (0, log), logError := fun log => log }

/-- A device for the examples: its state is the list of the pins sampled so far, and a
sample of pin `p` reads `table p`. -/
def loggedRead (table : Int → Int) (pin : Int) (log : List Int) : Int × List Int :=
  (table pin, log ++ [pin])

/-- A registry for the examples, built as in `examples/1-simple`: the native provider on the
logged device, then `withConfig`. -/
def nativeRegistry (table : Int → Int) (config : List SensorConfig) :
    Sensor_4_20mA (List Int) :=
  (Sensor_4_20mA.new.withNativeADC (loggedRead table)).withConfig config

/-- An external converter on the logged device: start-up succeeds, channel `ch` reads
`table ch`. -/
def loggedADS1015 (table : Int → Int) : ADS1015 (List Int) :=
  { begin := fun log => (true, log), setGain := fun log => log,
    getSingleEnded := loggedRead table, logError := fun log => log }

/-- A registry for the examples, built as in `more-examples/1-ADS1015`: an external converter
from pin 100, then `withConfig`. -/
def ads1015Registry (table : Int → Int) (config : List SensorConfig) :
    Sensor_4_20mA (List Int) :=
  (Sensor_4_20mA.new.withADS1015 (loggedADS1015 table) 100).withConfig config

/-- A provider for the examples with calibration codes of its own: a subclass built with
`SensorVirtualPinBase(0, 4, adcValue4mA, adcValue20mA)` that samples the logged device. -/
def customProvider (adcValue4mA adcValue20mA : Int) (table : Int → Int) :
    SensorVirtualPinBase (List Int) :=
  { virtualPinStart := 0, numVirtualPins := 4, adcValue4mA := adcValue4mA,
    adcValue20mA := adcValue20mA, init := SensorVirtualPinBase.baseInit,
    readPin := loggedRead table }

/-- A registry for the examples with the one provider `customProvider`, then `withConfig`. -/
def customRegistry (adcValue4mA adcValue20mA : Int) (table : Int → Int)
    (config : List SensorConfig) : Sensor_4_20mA (List Int) :=
  (({ virtualPins := [customProvider adcValue4mA adcValue20mA table], config := none } :
      Sensor_4_20mA (List Int)).withConfig config)

/-- A target that converts every value that does not fit or is not a number to 0. -/
def zeroPlatform : Platform :=
  { aboveToInt := 0, belowToInt := 0, posInfToInt := 0, negInfToInt := 0, nanToInt := 0 }

/-- A target that converts every value that does not fit or is not a number to the smallest
`int`, as the x86 conversion instruction does. -/
def x86Platform : Platform :=
  { aboveToInt := -2147483648, belowToInt := -2147483648, posInfToInt := -2147483648,
    negInfToInt := -2147483648, nanToInt := -2147483648 }

/-! Lemmas on rounding -/

theorem roundHalfEven_intCast (n : ℤ) : roundHalfEven (n : ℚ) = n := by
  simp [roundHalfEven]

theorem roundHalfEven_mono {k l : ℚ} (h : k ≤ l) : roundHalfEven k ≤ roundHalfEven l := by
  have hf : ⌊k⌋ ≤ ⌊l⌋ := Int.floor_mono h
  have hk1 : roundHalfEven k ≤ ⌊k⌋ + 1 := by
    unfold roundHalfEven; split_ifs <;> omega
  have hl0 : ⌊l⌋ ≤ roundHalfEven l := by
    unfold roundHalfEven; split_ifs <;> omega
  rcases lt_or_eq_of_le hf with hlt | heq
  · omega
  · unfold roundHalfEven
    rw [heq]
    have hd : k - (⌊l⌋ : ℚ) ≤ l - (⌊l⌋ : ℚ) := by linarith
    split_ifs <;> first | omega | (exfalso; linarith)

theorem roundHalfEven_err (k : ℚ) : |(roundHalfEven k : ℚ) - k| ≤ 1 / 2 := by
  have h1 : (⌊k⌋ : ℚ) ≤ k := Int.floor_le k
  have h2 : k < ⌊k⌋ + 1 := Int.lt_floor_add_one k
  unfold roundHalfEven
  rw [abs_le]
  split_ifs <;> push_cast <;> constructor <;> linarith

theorem Format.ulp_pos (f : Format) (q : ℚ) : 0 < f.ulp q := by
  unfold Format.ulp
  positivity

theorem Format.roundMag_zero (f : Format) : f.roundMag 0 = 0 := by
  simp [Format.roundMag, roundHalfEven]

theorem Format.roundMag_nonneg (f : Format) {q : ℚ} (hq : 0 ≤ q) : 0 ≤ f.roundMag q := by
  unfold Format.roundMag
  have h0 : (0 : ℚ) ≤ q / f.ulp q := div_nonneg hq (le_of_lt (f.ulp_pos q))
  have h1 : roundHalfEven 0 ≤ roundHalfEven (q / f.ulp q) := roundHalfEven_mono h0
  have h2 : roundHalfEven 0 = 0 := by simpa using roundHalfEven_intCast 0
  rw [h2] at h1
  have h3 : (0 : ℚ) ≤ (roundHalfEven (q / f.ulp q) : ℚ) := by exact_mod_cast h1
  exact mul_nonneg h3 (le_of_lt (f.ulp_pos q))

/-- A number below the next power of two of its binade. -/
theorem Format.lt_binade (f : Format) (q : ℚ) :
    q < (2 : ℚ) ^ (max (Int.log 2 q) f.emin + 1) := by
  have h1 : q < ((2 : ℕ) : ℚ) ^ (Int.log 2 q + 1) := Int.lt_zpow_succ_log_self (by norm_num) q
  have h2 : ((2 : ℕ) : ℚ) ^ (Int.log 2 q + 1) ≤ (2 : ℚ) ^ (max (Int.log 2 q) f.emin + 1) := by
    push_cast
    exact zpow_le_zpow_right₀ (by norm_num) (by have := le_max_left (Int.log 2 q) f.emin; omega)
  exact lt_of_lt_of_le h1 h2

theorem Format.roundMag_exact (f : Format) (k j : ℤ) (hk0 : 0 ≤ k) (hk : k < 2 ^ f.prec)
    (hj : f.emin - ((f.prec : ℤ) - 1) ≤ j) :
    f.roundMag (k * (2 : ℚ) ^ j) = k * (2 : ℚ) ^ j := by
  rcases eq_or_lt_of_le hk0 with h0 | hpos
  · rw [← h0]
    simp [Format.roundMag_zero]
  · have h2pos : (0 : ℚ) < (2 : ℚ) ^ j := by positivity
    have hq : (0 : ℚ) < k * (2 : ℚ) ^ j := mul_pos (by exact_mod_cast hpos) h2pos
    have hlt : (k : ℚ) * (2 : ℚ) ^ j < ((2 : ℕ) : ℚ) ^ (j + f.prec) := by
      push_cast
      rw [zpow_add₀ (by norm_num : (2 : ℚ) ≠ 0), zpow_natCast, mul_comm]
      have : (k : ℚ) < (2 : ℚ) ^ f.prec := by exact_mod_cast hk
      exact mul_lt_mul_of_pos_left this h2pos
    have hlog : Int.log 2 ((k : ℚ) * (2 : ℚ) ^ j) < j + f.prec :=
      (Int.lt_zpow_iff_log_lt (by norm_num) hq).mp hlt
    have hE : max (Int.log 2 ((k : ℚ) * (2 : ℚ) ^ j)) f.emin - ((f.prec : ℤ) - 1) ≤ j := by
      have := max_le (a := Int.log 2 ((k : ℚ) * (2 : ℚ) ^ j)) (b := f.emin)
        (c := j + f.prec - 1) (by omega) (by omega)
      omega
    obtain ⟨n, hn⟩ := Int.eq_ofNat_of_zero_le (sub_nonneg.mpr hE)
    have hu : f.ulp ((k : ℚ) * (2 : ℚ) ^ j) * (2 : ℚ) ^ n = (2 : ℚ) ^ j := by
      unfold Format.ulp
      rw [← zpow_natCast, ← zpow_add₀ (by norm_num : (2 : ℚ) ≠ 0)]
      congr 1
      omega
    have hupos := f.ulp_pos ((k : ℚ) * (2 : ℚ) ^ j)
    unfold Format.roundMag
    generalize f.ulp ((k : ℚ) * (2 : ℚ) ^ j) = u at hu hupos
    have hdiv : (k : ℚ) * (2 : ℚ) ^ j / u = ((k * 2 ^ n : ℤ) : ℚ) := by
      rw [div_eq_iff (ne_of_gt hupos)]
      push_cast
      linear_combination (k : ℚ) * hu.symm
    rw [hdiv, roundHalfEven_intCast]
    push_cast
    linear_combination (k : ℚ) * hu

theorem Format.ulp_mul_top (f : Format) (q : ℚ) :
    f.ulp q * (((2 : ℤ) ^ f.prec : ℤ) : ℚ) = (2 : ℚ) ^ (max (Int.log 2 q) f.emin + 1) := by
  unfold Format.ulp
  push_cast
  rw [← zpow_natCast, ← zpow_add₀ (by norm_num : (2 : ℚ) ≠ 0)]
  congr 1
  omega

theorem Format.ulp_mul_bot (f : Format) (hp : 1 ≤ f.prec) (q : ℚ) :
    f.ulp q * (((2 : ℤ) ^ (f.prec - 1) : ℤ) : ℚ) = (2 : ℚ) ^ (max (Int.log 2 q) f.emin) := by
  unfold Format.ulp
  push_cast
  rw [← zpow_natCast, ← zpow_add₀ (by norm_num : (2 : ℚ) ≠ 0)]
  congr 1
  have : ((f.prec - 1 : ℕ) : ℤ) = (f.prec : ℤ) - 1 := by omega
  omega

/-- Rounding never leaves the binade upward. -/
theorem Format.roundMag_le_top (f : Format) (q : ℚ) :
    f.roundMag q ≤ (2 : ℚ) ^ (max (Int.log 2 q) f.emin + 1) := by
  have hu := f.ulp_pos q
  have h1 : q / f.ulp q ≤ (((2 : ℤ) ^ f.prec : ℤ) : ℚ) := by
    rw [div_le_iff₀ hu, mul_comm, f.ulp_mul_top q]
    exact le_of_lt (f.lt_binade q)
  have h2 := roundHalfEven_mono h1
  rw [roundHalfEven_intCast] at h2
  have h3 : (roundHalfEven (q / f.ulp q) : ℚ) ≤ (((2 : ℤ) ^ f.prec : ℤ) : ℚ) := by
    exact_mod_cast h2
  calc f.roundMag q = roundHalfEven (q / f.ulp q) * f.ulp q := rfl
    _ ≤ (((2 : ℤ) ^ f.prec : ℤ) : ℚ) * f.ulp q := mul_le_mul_of_nonneg_right h3 (le_of_lt hu)
    _ = (2 : ℚ) ^ (max (Int.log 2 q) f.emin + 1) := by rw [mul_comm, f.ulp_mul_top q]

/-- Rounding never leaves a normal binade downward. -/
theorem Format.roundMag_ge_bot (f : Format) (hp : 1 ≤ f.prec) {q : ℚ} (hq : 0 < q)
    (hn : f.emin ≤ Int.log 2 q) :
    (2 : ℚ) ^ (max (Int.log 2 q) f.emin) ≤ f.roundMag q := by
  have hu := f.ulp_pos q
  have hmax : max (Int.log 2 q) f.emin = Int.log 2 q := max_eq_left hn
  have hle : (2 : ℚ) ^ (max (Int.log 2 q) f.emin) ≤ q := by
    rw [hmax]
    have := Int.zpow_log_le_self (b := 2) (by norm_num) hq
    simpa using this
  have h1 : (((2 : ℤ) ^ (f.prec - 1) : ℤ) : ℚ) ≤ q / f.ulp q := by
    rw [le_div_iff₀ hu, mul_comm, f.ulp_mul_bot hp q]
    exact hle
  have h2 := roundHalfEven_mono h1
  rw [roundHalfEven_intCast] at h2
  have h3 : (((2 : ℤ) ^ (f.prec - 1) : ℤ) : ℚ) ≤ (roundHalfEven (q / f.ulp q) : ℚ) := by
    exact_mod_cast h2
  calc (2 : ℚ) ^ (max (Int.log 2 q) f.emin)
      = (((2 : ℤ) ^ (f.prec - 1) : ℤ) : ℚ) * f.ulp q := by rw [mul_comm, f.ulp_mul_bot hp q]
    _ ≤ roundHalfEven (q / f.ulp q) * f.ulp q := mul_le_mul_of_nonneg_right h3 (le_of_lt hu)
    _ = f.roundMag q := rfl

theorem Format.roundMag_mono (f : Format) (hp : 1 ≤ f.prec) {q r : ℚ} (hq : 0 ≤ q)
    (h : q ≤ r) : f.roundMag q ≤ f.roundMag r := by
  rcases eq_or_lt_of_le hq with h0 | hpos
  · rw [← h0, f.roundMag_zero]
    exact f.roundMag_nonneg (le_trans hq h)
  · have hr : 0 < r := lt_of_lt_of_le hpos h
    have hlog : Int.log 2 q ≤ Int.log 2 r := Int.log_mono_right hpos h
    have hE : max (Int.log 2 q) f.emin ≤ max (Int.log 2 r) f.emin := max_le_max hlog le_rfl
    rcases eq_or_lt_of_le hE with heq | hlt
    · have hu : f.ulp q = f.ulp r := by
        unfold Format.ulp
        rw [heq]
      have hur := f.ulp_pos r
      have h1 : q / f.ulp r ≤ r / f.ulp r := div_le_div_of_nonneg_right h (le_of_lt hur)
      have h2 := roundHalfEven_mono h1
      have h3 : (roundHalfEven (q / f.ulp r) : ℚ) ≤ (roundHalfEven (r / f.ulp r) : ℚ) := by
        exact_mod_cast h2
      unfold Format.roundMag
      rw [hu]
      exact mul_le_mul_of_nonneg_right h3 (le_of_lt hur)
    · have hn : f.emin ≤ Int.log 2 r := by
        by_contra hcon
        have h1 : max (Int.log 2 r) f.emin = f.emin := max_eq_right (by omega)
        have h2 : f.emin ≤ max (Int.log 2 q) f.emin := le_max_right _ _
        omega
      have h1 := f.roundMag_le_top q
      have h2 := f.roundMag_ge_bot hp hr hn
      have h3 : (2 : ℚ) ^ (max (Int.log 2 q) f.emin + 1) ≤
          (2 : ℚ) ^ (max (Int.log 2 r) f.emin) :=
        zpow_le_zpow_right₀ (by norm_num) (by omega)
      linarith

theorem Format.roundRaw_mono (f : Format) (hp : 1 ≤ f.prec) {q r : ℚ} (h : q ≤ r) :
    f.roundRaw q ≤ f.roundRaw r := by
  unfold Format.roundRaw
  by_cases hq : q < 0
  · by_cases hr : r < 0
    · rw [if_pos hq, if_pos hr]
      have := f.roundMag_mono hp (q := -r) (r := -q) (by linarith) (by linarith)
      linarith
    · rw [if_pos hq, if_neg hr]
      have h1 := f.roundMag_nonneg (q := -q) (by linarith)
      have h2 := f.roundMag_nonneg (q := r) (by linarith)
      linarith
  · have hr : ¬ r < 0 := by linarith
    rw [if_neg hq, if_neg hr]
    exact f.roundMag_mono hp (by linarith) h

theorem Format.roundRaw_exact (f : Format) {q : ℚ} (h : f.Rep q) : f.roundRaw q = q := by
  obtain ⟨k, j, hq, hk, hj, _⟩ := h
  have hk' := abs_lt.mp hk
  have h2pos : (0 : ℚ) < (2 : ℚ) ^ j := by positivity
  unfold Format.roundRaw
  by_cases hneg : q < 0
  · rw [if_pos hneg]
    have hkneg : k < 0 := by
      by_contra hcon
      have : (0 : ℚ) ≤ k := by exact_mod_cast (not_lt.mp hcon)
      have : 0 ≤ q := by rw [hq]; exact mul_nonneg this (le_of_lt h2pos)
      linarith
    have hq2 : -q = ((-k : ℤ) : ℚ) * (2 : ℚ) ^ j := by rw [hq]; push_cast; ring
    rw [hq2, f.roundMag_exact (-k) j (by omega) (by omega) hj, hq]
    push_cast
    ring
  · rw [if_neg hneg]
    have hk0 : 0 ≤ k := by
      by_contra hcon
      have : (k : ℚ) < 0 := by exact_mod_cast (not_le.mp hcon)
      have : q < 0 := by rw [hq]; exact mul_neg_of_neg_of_pos this h2pos
      exact hneg this
    rw [hq, f.roundMag_exact k j hk0 (by omega) hj]

/-- A number between two representable numbers is rounded to a number between them. -/
theorem Format.round_between (f : Format) (hp : 1 ≤ f.prec) {a b q : ℚ} (ha : f.Rep a)
    (hb : f.Rep b) (h1 : a ≤ q) (h2 : q ≤ b) :
    f.round q = Fp.num (f.roundRaw q) ∧ a ≤ f.roundRaw q ∧ f.roundRaw q ≤ b := by
  have hra := f.roundRaw_mono hp h1
  have hrb := f.roundRaw_mono hp h2
  rw [f.roundRaw_exact ha] at hra
  rw [f.roundRaw_exact hb] at hrb
  obtain ⟨_, _, _, _, _, hafin⟩ := ha
  obtain ⟨_, _, _, _, _, hbfin⟩ := hb
  have habs : |f.roundRaw q| < (2 : ℚ) ^ (f.emax + 1) := by
    rw [abs_lt] at hafin hbfin ⊢
    constructor <;> linarith [hafin.1, hbfin.2]
  refine ⟨?_, hra, hrb⟩
  unfold Format.round
  rw [if_neg (not_le.mpr habs)]

theorem Format.round_exact (f : Format) (hp : 1 ≤ f.prec) {q : ℚ} (h : f.Rep q) :
    f.round q = Fp.num q := by
  have := (f.round_between hp h h le_rfl le_rfl).1
  rwa [f.roundRaw_exact h] at this

/-- The significand that rounding produces lies between 0 and 2 ^ prec. -/
theorem Format.significand_bounds (f : Format) {q : ℚ} (hq : 0 ≤ q) :
    0 ≤ roundHalfEven (q / f.ulp q) ∧ roundHalfEven (q / f.ulp q) ≤ 2 ^ f.prec := by
  have hu := f.ulp_pos q
  constructor
  · have h0 : (0 : ℚ) ≤ q / f.ulp q := div_nonneg hq (le_of_lt hu)
    have h1 := roundHalfEven_mono h0
    have h2 : roundHalfEven 0 = 0 := by simpa using roundHalfEven_intCast 0
    rwa [h2] at h1
  · have h1 : q / f.ulp q ≤ (((2 : ℤ) ^ f.prec : ℤ) : ℚ) := by
      rw [div_le_iff₀ hu, mul_comm, f.ulp_mul_top q]
      exact le_of_lt (f.lt_binade q)
    have h2 := roundHalfEven_mono h1
    rwa [roundHalfEven_intCast] at h2

/-- What magnitude rounding returns is a significand of at most `prec` bits times a power of
two that is at least the smallest one of the format. -/
theorem Format.roundMag_form (f : Format) (hp : 1 ≤ f.prec) {q : ℚ} (hq : 0 ≤ q) :
    ∃ k j : ℤ, f.roundMag q = k * (2 : ℚ) ^ j ∧ 0 ≤ k ∧ k < 2 ^ f.prec ∧
      f.emin - ((f.prec : ℤ) - 1) ≤ j := by
  obtain ⟨h0, h1⟩ := f.significand_bounds hq
  have hE : f.emin ≤ max (Int.log 2 q) f.emin := le_max_right _ _
  rcases lt_or_eq_of_le h1 with hlt | heq
  · exact ⟨roundHalfEven (q / f.ulp q), max (Int.log 2 q) f.emin - ((f.prec : ℤ) - 1), rfl,
      h0, hlt, by omega⟩
  · refine ⟨2 ^ (f.prec - 1), max (Int.log 2 q) f.emin - ((f.prec : ℤ) - 1) + 1, ?_,
      by positivity, ?_, by omega⟩
    · unfold Format.roundMag
      rw [heq]
      have h2 : ((2 ^ f.prec : ℤ) : ℚ) = ((2 ^ (f.prec - 1) : ℤ) : ℚ) * 2 := by
        have : f.prec = (f.prec - 1) + 1 := by omega
        conv_lhs => rw [this, pow_succ]
        push_cast
        ring
      rw [h2, zpow_add₀ (by norm_num : (2 : ℚ) ≠ 0)]
      unfold Format.ulp
      simp only [zpow_one]
      ring
    · exact pow_lt_pow_right₀ (by norm_num) (by omega)

theorem Format.roundRaw_rep (f : Format) (hp : 1 ≤ f.prec) (q : ℚ)
    (hfin : |f.roundRaw q| < (2 : ℚ) ^ (f.emax + 1)) : f.Rep (f.roundRaw q) := by
  unfold Format.roundRaw at hfin ⊢
  by_cases hneg : q < 0
  · rw [if_pos hneg] at hfin ⊢
    obtain ⟨k, j, hkj, hk0, hk, hj⟩ := f.roundMag_form hp (q := -q) (by linarith)
    refine ⟨-k, j, ?_, ?_, hj, hfin⟩
    · rw [hkj]
      push_cast
      ring
    · rw [abs_neg, abs_of_nonneg hk0]
      exact hk
  · rw [if_neg hneg] at hfin ⊢
    obtain ⟨k, j, hkj, hk0, hk, hj⟩ := f.roundMag_form hp (q := q) (by linarith)
    exact ⟨k, j, hkj, by rw [abs_of_nonneg hk0]; exact hk, hj, hfin⟩

/-- A number that rounding returns is representable. -/
theorem Format.rep_of_round (f : Format) (hp : 1 ≤ f.prec) {q r : ℚ}
    (h : f.round q = Fp.num r) : f.Rep r := by
  unfold Format.round at h
  by_cases hov : (2 : ℚ) ^ (f.emax + 1) ≤ |f.roundRaw q|
  · rw [if_pos hov] at h
    split_ifs at h
  · rw [if_neg hov] at h
    have hr : f.roundRaw q = r := Fp.num.inj h
    rw [← hr]
    exact f.roundRaw_rep hp q (not_le.mp hov)

/-- The rounding error is at most half a unit in the last place. -/
theorem Format.roundMag_err (f : Format) (q : ℚ) : |f.roundMag q - q| ≤ f.ulp q / 2 := by
  have hu := f.ulp_pos q
  have h := roundHalfEven_err (q / f.ulp q)
  have heq : f.roundMag q - q = ((roundHalfEven (q / f.ulp q) : ℚ) - q / f.ulp q) * f.ulp q := by
    unfold Format.roundMag
    field_simp
  rw [heq, abs_mul, abs_of_pos hu]
  calc |(roundHalfEven (q / f.ulp q) : ℚ) - q / f.ulp q| * f.ulp q ≤ 1 / 2 * f.ulp q :=
        mul_le_mul_of_nonneg_right h (le_of_lt hu)
    _ = f.ulp q / 2 := by ring

theorem Fp.ofNat_eq (n : ℕ) : (OfNat.ofNat n : Fp) = Fp.num (n : ℚ) := rfl

theorem wrapInt32_range (x : Int) : -2147483648 ≤ wrapInt32 x ∧ wrapInt32 x ≤ 2147483647 := by
  unfold wrapInt32
  omega

theorem wrapInt32_of_range {x : Int} (h1 : -2147483648 ≤ x) (h2 : x ≤ 2147483647) :
    wrapInt32 x = x := by
  unfold wrapInt32
  omega

theorem Fp.toInt_range (pf : Platform) (x : Fp) :
    -2147483648 ≤ Fp.toInt pf x ∧ Fp.toInt pf x ≤ 2147483647 := by
  cases x with
  | num q =>
    simp only [Fp.toInt]
    split_ifs
    · exact wrapInt32_range _
    · exact wrapInt32_range _
    · omega
  | posInf => exact wrapInt32_range _
  | negInf => exact wrapInt32_range _
  | nan => exact wrapInt32_range _

theorem binary32_prec : (1 : ℕ) ≤ binary32.prec := by decide
theorem binary64_prec : (1 : ℕ) ≤ binary64.prec := by decide

/-- An integer of at most 24 bits is a float. -/
theorem rep32_int (n : ℤ) (h : |n| ≤ 16777216) : binary32.Rep (n : ℚ) := by
  have hfin : |(n : ℚ)| < (2 : ℚ) ^ (binary32.emax + 1) := by
    have h1 : |(n : ℚ)| ≤ 16777216 := by exact_mod_cast h
    have h2 : (16777216 : ℚ) < (2 : ℚ) ^ (binary32.emax + 1) := by norm_num [binary32]
    linarith
  rcases lt_or_eq_of_le h with hlt | heq
  · exact ⟨n, 0, by simp, by simpa [binary32] using hlt, by simp [binary32], hfin⟩
  · have hn := abs_le.mp h
    rcases abs_eq (by norm_num : (0 : ℤ) ≤ 16777216) |>.mp heq with h1 | h1
    · exact ⟨8388608, 1, by rw [h1]; norm_num, by norm_num [binary32], by simp [binary32], hfin⟩
    · exact ⟨-8388608, 1, by rw [h1]; norm_num, by norm_num [binary32], by simp [binary32],
        hfin⟩

/-- An integer of at most 53 bits is a double. -/
theorem rep64_int (n : ℤ) (h : |n| < 9007199254740992) : binary64.Rep (n : ℚ) := by
  have hfin : |(n : ℚ)| < (2 : ℚ) ^ (binary64.emax + 1) := by
    have h1 : |(n : ℚ)| < 9007199254740992 := by exact_mod_cast h
    have h2 : (9007199254740992 : ℚ) < (2 : ℚ) ^ (binary64.emax + 1) := by
      have : (2 : ℚ) ^ (54 : ℤ) ≤ (2 : ℚ) ^ (binary64.emax + 1) :=
        zpow_le_zpow_right₀ (by norm_num) (by decide)
      have h54 : (2 : ℚ) ^ (54 : ℤ) = 18014398509481984 := by norm_num
      linarith
    linarith
  exact ⟨n, 0, by simp, by simpa [binary64] using h, by simp [binary64], hfin⟩

/-- Every float is a double. -/
theorem rep64_of_rep32 {q : ℚ} (h : binary32.Rep q) : binary64.Rep q := by
  obtain ⟨k, j, hq, hk, hj, hfin⟩ := h
  refine ⟨k, j, hq, ?_, ?_, ?_⟩
  · have : (2 : ℤ) ^ binary32.prec ≤ 2 ^ binary64.prec :=
      pow_le_pow_right₀ (by norm_num) (by decide)
    omega
  · simp only [binary32, binary64] at hj ⊢
    omega
  · have : (2 : ℚ) ^ (binary32.emax + 1) ≤ (2 : ℚ) ^ (binary64.emax + 1) :=
      zpow_le_zpow_right₀ (by norm_num) (by decide)
    linarith

/-- An integer over a power of two is a double when the integer has at most 53 bits. -/
theorem rep64_frac (A : ℤ) (k : ℕ) (hA : |A| < 9007199254740992) (hk : k ≤ 1074) :
    binary64.Rep ((A : ℚ) / (2 : ℚ) ^ k) := by
  have hpow : (1 : ℚ) ≤ (2 : ℚ) ^ k := one_le_pow₀ (by norm_num)
  have hfin : |(A : ℚ) / (2 : ℚ) ^ k| < (2 : ℚ) ^ (binary64.emax + 1) := by
    have h1 : |(A : ℚ)| < 9007199254740992 := by exact_mod_cast hA
    have h2 : (2 : ℚ) ^ (54 : ℤ) ≤ (2 : ℚ) ^ (binary64.emax + 1) :=
      zpow_le_zpow_right₀ (by norm_num) (by decide)
    have h54 : (2 : ℚ) ^ (54 : ℤ) = 18014398509481984 := by norm_num
    have h3 : |(A : ℚ) / (2 : ℚ) ^ k| ≤ |(A : ℚ)| := by
      rw [abs_div, abs_of_pos (by positivity : (0 : ℚ) < (2 : ℚ) ^ k)]
      exact div_le_self (abs_nonneg _) hpow
    linarith
  refine ⟨A, -(k : ℤ), ?_, by simpa [binary64] using hA, ?_, hfin⟩
  · rw [zpow_neg, zpow_natCast, div_eq_mul_inv]
  · simp only [binary64]
    omega

theorem exists_pow_two (D : ℕ) (h1 : 1 ≤ D) (h2 : D ≤ 2147483648) :
    ∃ k : ℕ, k ≤ 31 ∧ D ≤ 2 ^ k ∧ 2 ^ k < 2 * D := by
  refine ⟨Nat.clog 2 D, ?_, Nat.le_pow_clog (by norm_num) D, ?_⟩
  · exact (Nat.le_pow_iff_clog_le (by norm_num)).mp (by norm_num; exact h2)
  · rcases Nat.lt_or_ge 1 D with hD | hD
    · have hpos : 0 < Nat.clog 2 D := Nat.clog_pos (by norm_num) hD
      have hlt := Nat.pow_pred_clog_lt_self (b := 2) (by norm_num) hD
      have : 2 ^ Nat.clog 2 D = 2 * 2 ^ (Nat.clog 2 D).pred := by
        conv_lhs => rw [← Nat.succ_pred_eq_of_pos hpos, pow_succ]
        ring
      omega
    · have : D = 1 := by omega
      subst this
      simp

theorem truncToInt_between (m : ℤ) {q : ℚ} (h1 : (m : ℚ) < q) (h2 : q < m + 1) :
    truncToInt q = if 0 ≤ m then m else m + 1 := by
  unfold truncToInt
  by_cases hm : 0 ≤ m
  · have hq : 0 ≤ q := by
      have : (0 : ℚ) ≤ m := by exact_mod_cast hm
      linarith
    rw [if_pos hq, if_pos hm]
    exact Int.floor_eq_iff.mpr ⟨le_of_lt h1, h2⟩
  · have hm1 : m + 1 ≤ 0 := by omega
    have hq : ¬ 0 ≤ q := by
      have : ((m + 1 : ℤ) : ℚ) ≤ 0 := by exact_mod_cast hm1
      push_cast at this
      linarith
    rw [if_neg hq, if_neg hm]
    exact Int.ceil_eq_iff.mpr ⟨by push_cast; linarith, by push_cast; linarith⟩

/-- The quotient of two ints and the sum with 4, both rounded to double, have the integer
part of the exact value. -/
theorem double_quotient_trunc (N : ℤ) (D : ℕ) (hD0 : 1 ≤ D) (hD : D ≤ 2147483648)
    (hN : |N| ≤ 34359738368) :
    ∃ t r : ℚ, binary64.round ((N : ℚ) / D) = Fp.num t ∧
      binary64.round (t + 4) = Fp.num r ∧
      truncToInt r = truncToInt ((N : ℚ) / D + 4) := by
  have hDq : (0 : ℚ) < (D : ℚ) := by exact_mod_cast hD0
  have hDz : (0 : ℤ) < (D : ℤ) := by exact_mod_cast hD0
  obtain ⟨n0, e, hdecomp, he0, heD⟩ : ∃ n0 e : ℤ, N = D * n0 + e ∧ 0 ≤ e ∧ e < D :=
    ⟨N / D, N % D, (Int.ediv_add_emod N D).symm, Int.emod_nonneg _ (by omega),
      Int.emod_lt_of_pos _ hDz⟩
  have hy : (N : ℚ) / D = n0 + (e : ℚ) / D := by
    rw [hdecomp]
    push_cast
    field_simp
    ring
  have hNabs := abs_le.mp hN
  have hn0D : |n0 * (D : ℤ)| ≤ 34359738368 + 2147483648 := by
    have h1 : n0 * (D : ℤ) = N - e := by rw [hdecomp]; ring
    rw [h1, abs_le]
    constructor <;> omega
  have hn0 : |n0| ≤ 34359738368 + 2147483648 := by
    have h1 : |n0| * 1 ≤ |n0| * (D : ℤ) :=
      mul_le_mul_of_nonneg_left (by omega) (abs_nonneg _)
    have h2 : |n0 * (D : ℤ)| = |n0| * (D : ℤ) := by
      rw [abs_mul, abs_of_pos hDz]
    omega
  by_cases hez : e = 0
  · have hyint : (N : ℚ) / D = n0 := by
      rw [hy, hez]
      simp
    have hn0' := abs_le.mp hn0
    refine ⟨n0, n0 + 4, ?_, ?_, ?_⟩
    · rw [hyint]
      exact binary64.round_exact binary64_prec (rep64_int n0 (by rw [abs_lt]; omega))
    · have := binary64.round_exact binary64_prec
        (rep64_int (n0 + 4) (by rw [abs_lt]; omega))
      push_cast at this
      exact this
    · rw [hyint]
  · obtain ⟨k, hk, hDK, hKD⟩ := exists_pow_two D hD0 hD
    have he1 : 1 ≤ e := by omega
    have hKq : (0 : ℚ) < (2 : ℚ) ^ k := by positivity
    have hDKq : (D : ℚ) ≤ (2 : ℚ) ^ k := by exact_mod_cast hDK
    -- size of n0 * 2 ^ k
    have hn0K : |n0 * (2 : ℤ) ^ k| ≤ 2 * (34359738368 + 2147483648) := by
      have h2K : ((2 : ℤ) ^ k) ≤ 2 * (D : ℤ) := by
        have : ((2 ^ k : ℕ) : ℤ) < ((2 * D : ℕ) : ℤ) := by exact_mod_cast hKD
        push_cast at this
        omega
      have h1 : |n0| * (2 : ℤ) ^ k ≤ |n0| * (2 * (D : ℤ)) :=
        mul_le_mul_of_nonneg_left h2K (abs_nonneg _)
      have h2 : |n0 * (2 : ℤ) ^ k| = |n0| * (2 : ℤ) ^ k := by
        rw [abs_mul, abs_of_pos (by positivity : (0 : ℤ) < (2 : ℤ) ^ k)]
      have h3 : |n0 * (D : ℤ)| = |n0| * (D : ℤ) := by
        rw [abs_mul, abs_of_pos hDz]
      rw [h2]
      calc |n0| * (2 : ℤ) ^ k ≤ |n0| * (2 * (D : ℤ)) := h1
        _ = 2 * (|n0| * (D : ℤ)) := by ring
        _ ≤ 2 * (34359738368 + 2147483648) := by rw [← h3]; omega
    have hKle : ((2 : ℤ) ^ k) ≤ 2147483648 := by
      have : (2 : ℤ) ^ k ≤ 2 ^ 31 := pow_le_pow_right₀ (by norm_num) hk
      simpa using this
    have hKpos : (0 : ℤ) < (2 : ℤ) ^ k := by positivity
    have hn0K' := abs_le.mp hn0K
    -- the four fences
    have hrep : ∀ c : ℤ, 0 ≤ c → c ≤ 5 → ∀ s : ℤ, -1 ≤ s → s ≤ 1 →
        binary64.Rep ((((n0 + c) * (2 : ℤ) ^ k + s : ℤ) : ℚ) / (2 : ℚ) ^ k) := by
      intro c hc0 hc5 s hs0 hs1
      apply rep64_frac _ k _ (by omega)
      have hcK : c * (2 : ℤ) ^ k ≤ 5 * 2147483648 := by
        calc c * (2 : ℤ) ^ k ≤ 5 * (2 : ℤ) ^ k :=
              mul_le_mul_of_nonneg_right hc5 (le_of_lt hKpos)
          _ ≤ 5 * 2147483648 := by omega
      have hcK0 : 0 ≤ c * (2 : ℤ) ^ k := mul_nonneg hc0 (le_of_lt hKpos)
      have : (n0 + c) * (2 : ℤ) ^ k = n0 * (2 : ℤ) ^ k + c * (2 : ℤ) ^ k := by ring
      rw [this, abs_lt]
      constructor <;> omega
    have hfence : ∀ c s : ℤ, (((n0 + c) * (2 : ℤ) ^ k + s : ℤ) : ℚ) / (2 : ℚ) ^ k =
        n0 + c + s * (1 / (2 : ℚ) ^ k) := by
      intro c s
      push_cast
      field_simp
    have hfrac1 : 1 / (2 : ℚ) ^ k ≤ (e : ℚ) / D := by
      rw [div_le_div_iff₀ hKq hDq]
      have : (1 : ℚ) ≤ e := by exact_mod_cast he1
      nlinarith
    have hfrac2 : (e : ℚ) / D ≤ 1 - 1 / (2 : ℚ) ^ k := by
      have h1 : (e : ℚ) ≤ D - 1 := by
        have : e ≤ (D : ℤ) - 1 := by omega
        exact_mod_cast this
      have h2 : (e : ℚ) / D ≤ 1 - 1 / D := by
        rw [div_le_iff₀ hDq]
        field_simp
        linarith
      have h3 : 1 / (2 : ℚ) ^ k ≤ 1 / (D : ℚ) := one_div_le_one_div_of_le hDq hDKq
      linarith
    have hpos1 : (0 : ℚ) < 1 / (2 : ℚ) ^ k := by positivity
    have ha := hrep 0 (by norm_num) (by norm_num) 1 (by norm_num) (by norm_num)
    have hb := hrep 1 (by norm_num) (by norm_num) (-1) (by norm_num) (by norm_num)
    have ha4 := hrep 4 (by norm_num) (by norm_num) 1 (by norm_num) (by norm_num)
    have hb4 := hrep 5 (by norm_num) (by norm_num) (-1) (by norm_num) (by norm_num)
    rw [hfence] at ha hb ha4 hb4
    push_cast at ha hb ha4 hb4
    obtain ⟨ht, ht1, ht2⟩ := binary64.round_between binary64_prec ha hb
      (q := (N : ℚ) / D) (by rw [hy]; linarith) (by rw [hy]; linarith)
    obtain ⟨hr, hr1, hr2⟩ := binary64.round_between binary64_prec ha4 hb4
      (q := binary64.roundRaw ((N : ℚ) / D) + 4) (by linarith) (by linarith)
    refine ⟨_, _, ht, hr, ?_⟩
    have hm1 : (((n0 + 4 : ℤ)) : ℚ) < binary64.roundRaw (binary64.roundRaw ((N : ℚ) / D) + 4) := by
      push_cast
      linarith
    have hm2 : binary64.roundRaw (binary64.roundRaw ((N : ℚ) / D) + 4) < ((n0 + 4 : ℤ) : ℚ) + 1 := by
      push_cast
      linarith
    have hy1 : (((n0 + 4 : ℤ)) : ℚ) < (N : ℚ) / D + 4 := by
      push_cast
      rw [hy]
      linarith
    have hy2 : (N : ℚ) / D + 4 < ((n0 + 4 : ℤ) : ℚ) + 1 := by
      push_cast
      rw [hy]
      linarith
    rw [truncToInt_between (n0 + 4) hm1 hm2, truncToInt_between (n0 + 4) hy1 hy2]

/-- A number of at least `2 ^ (prec - 1)` is rounded to a whole number. -/
theorem Format.roundMag_whole (f : Format) {q : ℚ} (hq : 0 < q)
    (h : (2 : ℚ) ^ ((f.prec : ℤ) - 1) ≤ q) : ∃ m : ℤ, f.roundMag q = m := by
  have hlog : (f.prec : ℤ) - 1 ≤ Int.log 2 q :=
    (Int.zpow_le_iff_le_log (b := 2) (by norm_num) hq).mp (by simpa using h)
  have hE : 0 ≤ max (Int.log 2 q) f.emin - ((f.prec : ℤ) - 1) := by
    have := le_max_left (Int.log 2 q) f.emin
    omega
  obtain ⟨n, hn⟩ := Int.eq_ofNat_of_zero_le hE
  refine ⟨roundHalfEven (q / f.ulp q) * 2 ^ n, ?_⟩
  unfold Format.roundMag
  have hu : f.ulp q = (2 : ℚ) ^ n := by
    unfold Format.ulp
    rw [hn, zpow_natCast]
  rw [hu]
  push_cast
  ring

theorem rep32_pow31 : binary32.Rep 2147483648 ∧ binary32.Rep (-2147483648) := by
  constructor
  · exact ⟨1, 31, by norm_num, by norm_num [binary32], by simp [binary32],
      by norm_num [binary32]⟩
  · exact ⟨-1, 31, by norm_num, by norm_num [binary32], by simp [binary32],
      by norm_num [binary32]⟩

/-- The conversion of an `int` to `float`: a whole number, equal to the int when it has at
most 24 bits. -/
theorem intToFloat_spec (n : ℤ) (h1 : -2147483648 ≤ n) (h2 : n ≤ 2147483647) :
    ∃ m : ℤ, binary32.round n = Fp.num m ∧ binary32.roundRaw n = m ∧
      -2147483648 ≤ m ∧ m ≤ 2147483648 ∧ (|n| ≤ 16777216 → m = n) := by
  obtain ⟨hr, hlo, hhi⟩ := binary32.round_between binary32_prec rep32_pow31.2 rep32_pow31.1
    (q := (n : ℚ)) (by exact_mod_cast (by omega : (-2147483648 : ℤ) ≤ n))
    (by exact_mod_cast (by omega : n ≤ (2147483648 : ℤ)))
  have hwhole : ∃ m : ℤ, binary32.roundRaw n = m ∧ (|n| ≤ 16777216 → m = n) := by
    by_cases hsmall : |n| ≤ 16777216
    · exact ⟨n, binary32.roundRaw_exact (rep32_int n hsmall), fun _ => rfl⟩
    · have hbig : 16777216 < |n| := not_le.mp hsmall
      unfold Format.roundRaw
      by_cases hneg : (n : ℚ) < 0
      · rw [if_pos hneg]
        have hn0 : n < 0 := by exact_mod_cast hneg
        have hq : (0 : ℚ) < -(n : ℚ) := by linarith
        have hge : (2 : ℚ) ^ ((binary32.prec : ℤ) - 1) ≤ -(n : ℚ) := by
          have : (8388608 : ℤ) ≤ -n := by rw [abs_of_neg hn0] at hbig; omega
          have h3 : ((8388608 : ℤ) : ℚ) ≤ ((-n : ℤ) : ℚ) := by exact_mod_cast this
          norm_num [binary32] at h3 ⊢
          linarith
        obtain ⟨m, hm⟩ := binary32.roundMag_whole hq hge
        exact ⟨-m, by rw [hm]; push_cast; ring, fun h => absurd h hsmall⟩
      · rw [if_neg hneg]
        have hn0 : 0 ≤ n := by exact_mod_cast (not_lt.mp hneg)
        have hbig2 : 16777216 < n := by rwa [abs_of_nonneg hn0] at hbig
        have hq : (0 : ℚ) < (n : ℚ) := by exact_mod_cast (by omega : 0 < n)
        have hge : (2 : ℚ) ^ ((binary32.prec : ℤ) - 1) ≤ (n : ℚ) := by
          have h3 : ((8388608 : ℤ) : ℚ) ≤ (n : ℚ) := by exact_mod_cast (by omega : 8388608 ≤ n)
          norm_num [binary32] at h3 ⊢
          linarith
        obtain ⟨m, hm⟩ := binary32.roundMag_whole hq hge
        exact ⟨m, hm, fun h => absurd h hsmall⟩
  obtain ⟨m, hm, hsm⟩ := hwhole
  refine ⟨m, by rw [hr, hm], hm, ?_, ?_, hsm⟩
  · rw [hm] at hlo
    exact_mod_cast hlo
  · rw [hm] at hhi
    exact_mod_cast hhi

/-- Evaluation of magnitude rounding once the binade of the number is known. -/
theorem Format.roundMag_eval (f : Format) {q : ℚ} (E : ℤ) (h1 : (2 : ℚ) ^ E ≤ q)
    (h2 : q < (2 : ℚ) ^ (E + 1)) (hE : f.emin ≤ E) :
    f.roundMag q = roundHalfEven (q / (2 : ℚ) ^ (E - ((f.prec : ℤ) - 1))) *
      (2 : ℚ) ^ (E - ((f.prec : ℤ) - 1)) := by
  have hq : 0 < q := lt_of_lt_of_le (by positivity) h1
  have hl1 : E ≤ Int.log 2 q :=
    (Int.zpow_le_iff_le_log (b := 2) (by norm_num) hq).mp (by simpa using h1)
  have hl2 : Int.log 2 q < E + 1 :=
    (Int.lt_zpow_iff_log_lt (b := 2) (by norm_num) hq).mp (by simpa using h2)
  have hlog : Int.log 2 q = E := by omega
  have hu : f.ulp q = (2 : ℚ) ^ (E - ((f.prec : ℤ) - 1)) := by
    unfold Format.ulp
    rw [hlog, max_eq_left hE]
  unfold Format.roundMag
  rw [hu]

/-! Lemmas on `convert_mA` -/

theorem truncToInt_intCast (n : Int) : truncToInt (n : ℚ) = n := by
  unfold truncToInt
  split <;> simp

/-- The conversion to `int` depends on the integer part only. -/
theorem Fp.toInt_congr (pf : Platform) {q r : ℚ} (h : truncToInt q = truncToInt r) :
    Fp.toInt pf (Fp.num q) = Fp.toInt pf (Fp.num r) := by
  simp only [Fp.toInt, h]

/-- The value of `convert_mA` when the two calibration codes differ: the `float` of the
difference to the 4 mA code is a whole number `m`, and the result is the conversion to `int`
of the exact value of `m * 16 / delta + 4`: the two roundings to `double` do not change the
integer part. -/
theorem convert_mA_eq (pf : Platform) (p : SensorVirtualPinBase σ) (raw : Int)
    (hd : wrapInt32 (p.adcValue20mA - p.adcValue4mA) ≠ 0) :
    ∃ m : ℤ, intToFloat (wrapInt32 (raw - p.adcValue4mA)) = Fp.num m ∧
      binary32.roundRaw (wrapInt32 (raw - p.adcValue4mA) : ℤ) = m ∧
      -2147483648 ≤ m ∧ m ≤ 2147483648 ∧
      (|wrapInt32 (raw - p.adcValue4mA)| ≤ 16777216 → m = wrapInt32 (raw - p.adcValue4mA)) ∧
      p.convert_mA pf raw =
        Fp.toInt pf (Fp.num ((m : ℚ) * 16 /
          (wrapInt32 (p.adcValue20mA - p.adcValue4mA) : ℤ) + 4)) := by
  obtain ⟨hx1, hx2⟩ := wrapInt32_range (raw - p.adcValue4mA)
  obtain ⟨hd1, hd2⟩ := wrapInt32_range (p.adcValue20mA - p.adcValue4mA)
  obtain ⟨m, hm, hraw, hm1, hm2, hsmall⟩ :=
    intToFloat_spec (wrapInt32 (raw - p.adcValue4mA)) hx1 hx2
  refine ⟨m, hm, hraw, hm1, hm2, hsmall, ?_⟩
  have hm' : intToFloat (wrapInt32 (raw - p.adcValue4mA)) = Fp.num m := hm
  simp only [SensorVirtualPinBase.convert_mA]
  rw [hm']
  generalize wrapInt32 (p.adcValue20mA - p.adcValue4mA) = d at hd hd1 hd2 ⊢
  have hdq : (d : ℚ) ≠ 0 := by exact_mod_cast hd
  have hmul : Fp.mulD (Fp.num m) 16 = Fp.num ((m : ℚ) * 16) := by
    have h := binary64.round_exact binary64_prec (rep64_int (m * 16) (by rw [abs_lt]; omega))
    push_cast at h
    simpa [Fp.mulD, Fp.mul, Fp.ofNat_eq] using h
  -- the quotient as a quotient by a positive divisor
  obtain ⟨N, D, hD0, hD, hN, hND⟩ : ∃ (N : ℤ) (D : ℕ), 1 ≤ D ∧ D ≤ 2147483648 ∧
      |N| ≤ 34359738368 ∧ (N : ℚ) / D = (m : ℚ) * 16 / d := by
    rcases lt_or_gt_of_ne hd with hneg | hpos
    · refine ⟨-(m * 16), d.natAbs, by omega, by omega, by rw [abs_le]; omega, ?_⟩
      have : ((d.natAbs : ℤ) : ℚ) = -(d : ℚ) := by
        have : (d.natAbs : ℤ) = -d := by omega
        exact_mod_cast this
      rw [Int.cast_natCast] at this
      rw [this]
      push_cast
      field_simp
    · refine ⟨m * 16, d.natAbs, by omega, by omega, by rw [abs_le]; omega, ?_⟩
      have : ((d.natAbs : ℤ) : ℚ) = (d : ℚ) := by
        have : (d.natAbs : ℤ) = d := by omega
        exact_mod_cast this
      rw [Int.cast_natCast] at this
      rw [this]
      push_cast
      rfl
  obtain ⟨t, r, ht, hr, htr⟩ := double_quotient_trunc N D hD0 hD hN
  rw [hND] at ht htr
  have hdiv : Fp.divD (Fp.num ((m : ℚ) * 16)) (intToDouble d) = Fp.num t := by
    simp only [Fp.divD, Fp.div, intToDouble, if_neg hdq]
    exact ht
  have hadd : Fp.addD (Fp.num t) 4 = Fp.num r := by
    simpa [Fp.addD, Fp.add, Fp.ofNat_eq] using hr
  rw [hmul, hdiv, hadd]
  exact Fp.toInt_congr pf htr

/-- Discarding the fractional part keeps the order. -/
theorem truncToInt_mono {q r : ℚ} (h : q ≤ r) : truncToInt q ≤ truncToInt r := by
  unfold truncToInt
  by_cases hq : 0 ≤ q
  · have hr : 0 ≤ r := le_trans hq h
    rw [if_pos hq, if_pos hr]
    exact Int.floor_mono h
  · rw [if_neg hq]
    by_cases hr : 0 ≤ r
    · rw [if_pos hr]
      have h1 : ⌈q⌉ ≤ 0 := Int.ceil_le.mpr (by push_cast; exact le_of_lt (not_le.mp hq))
      have h2 : (0 : Int) ≤ ⌊r⌋ := Int.floor_nonneg.mpr hr
      exact le_trans h1 h2
    · rw [if_neg hr]
      exact Int.ceil_mono h

/-- The result of `convert_mA` is a 32-bit `int`. -/
theorem convert_mA_range (pf : Platform) (p : SensorVirtualPinBase σ) (raw : Int) :
    -2147483648 ≤ p.convert_mA pf raw ∧ p.convert_mA pf raw ≤ 2147483647 :=
  Fp.toInt_range pf _

/-- An `int` of at most 24 bits is stored in a `float` as it is. -/
theorem intToFloat_small (n : Int) (h : |n| ≤ 16777216) : intToFloat n = Fp.num n :=
  binary32.round_exact binary32_prec (rep32_int n h)

/-- The `float` that holds an `int` is a number. -/
theorem isnan_intToFloat (n : Int) (h1 : -2147483648 ≤ n) (h2 : n ≤ 2147483647) :
    isnan (intToFloat n) = false := by
  obtain ⟨m, hm, _⟩ := intToFloat_spec n h1 h2
  have hm' : intToFloat n = Fp.num m := hm
  rw [hm']
  rfl

/-! Lemmas on the two loops -/

/-- The value that the matching record `c` gives to the reading `result`. -/
theorem applyConfig_of_find (pin : Int) (result : SensorValue) (records : List SensorConfig)
    (c : SensorConfig) (h : records.find? (fun c => c.virtualPin == pin) = some c) :
    applyConfig pin result records =
      { result with
        value :=
          Fp.mulF (Fp.addF
            (if c.valueLowIs4mA then
              Fp.toFloat (Fp.addD (Fp.divD (Fp.mulD (Fp.subD result.mA 4)
                (Fp.subF c.value20mA c.valueLow)) 16) c.valueLow)
            else
              Fp.toFloat (Fp.divD (Fp.mulF result.mA (Fp.subF c.value20mA c.valueLow)) 20))
            c.offset) c.multiplier } := by
  induction records with
  | nil => simp at h
  | cons d rest ih =>
    by_cases hd : d.virtualPin = pin
    · have hb : (d.virtualPin == pin) = true := by simpa using hd
      have hdc : d = c := by
        rw [List.find?_cons, hb] at h
        exact Option.some.inj h
      subst hdc
      simp [applyConfig, hd]
    · have hb : (d.virtualPin == pin) = false := by simpa using hd
      have hrest : rest.find? (fun c => c.virtualPin == pin) = some c := by
        rw [List.find?_cons, hb] at h
        exact h
      simp [applyConfig, hd, ih hrest]

/-- Without a record for the pin the reading is left as it is. -/
theorem applyConfig_of_no_record (pin : Int) (result : SensorValue)
    (records : List SensorConfig) (h : ∀ c ∈ records, c.virtualPin ≠ pin) :
    applyConfig pin result records = result := by
  induction records with
  | nil => rfl
  | cons d rest ih =>
    have hd : d.virtualPin ≠ pin := h d (List.mem_cons_self _ _)
    have hrest : ∀ c ∈ rest, c.virtualPin ≠ pin := fun c hc => h c (List.mem_cons_of_mem _ hc)
    simp [applyConfig, hd, ih hrest]

/-- The record scan never touches `adcValue` and `mA`. -/
theorem applyConfig_keeps (pin : Int) (result : SensorValue) (records : List SensorConfig) :
    (applyConfig pin result records).adcValue = result.adcValue ∧
      (applyConfig pin result records).mA = result.mA := by
  induction records with
  | nil => exact ⟨rfl, rfl⟩
  | cons d rest ih =>
    by_cases hd : d.virtualPin = pin
    · simp [applyConfig, hd]
    · simpa [applyConfig, hd] using ih

/-- No provider claims the pin: the loop ends with the zero record and the device as it was. -/
theorem readPinValueLoop_of_unclaimed (pf : Platform) (config : Option (List SensorConfig))
    (pin : Int) (ps : List (SensorVirtualPinBase σ)) (s : σ)
    (h : ∀ p ∈ ps, p.isInRange pin = false) :
    readPinValueLoop pf config pin ps s = ({ adcValue := 0, mA := 0, value := 0 }, s) := by
  induction ps with
  | nil => rfl
  | cons q rest ih =>
    have hq : q.isInRange pin = false := h q (List.mem_cons_self _ _)
    have hrest : ∀ p ∈ rest, p.isInRange pin = false :=
      fun p hp => h p (List.mem_cons_of_mem _ hp)
    simp [readPinValueLoop, hq, ih hrest]

/-- The loop reads the first provider that claims the pin, once, and scales its reading. -/
theorem readPinValueLoop_of_find (pf : Platform) (config : Option (List SensorConfig))
    (pin : Int) (ps : List (SensorVirtualPinBase σ)) (s : σ) (p : SensorVirtualPinBase σ)
    (h : ps.find? (fun p => p.isInRange pin) = some p) :
    readPinValueLoop pf config pin ps s =
      (match config with
        | some records =>
          applyConfig pin
            { adcValue := (p.readPin pin s).1,
              mA := intToFloat (p.convert_mA pf (p.readPin pin s).1),
              value := intToFloat (p.convert_mA pf (p.readPin pin s).1) } records
        | none =>
          { adcValue := (p.readPin pin s).1,
            mA := intToFloat (p.convert_mA pf (p.readPin pin s).1),
            value := intToFloat (p.convert_mA pf (p.readPin pin s).1) },
        (p.readPin pin s).2) := by
  induction ps with
  | nil => simp at h
  | cons q rest ih =>
    by_cases hq : q.isInRange pin = true
    · have hqp : q = p := by
        rw [List.find?_cons, hq] at h
        exact Option.some.inj h
      subst hqp
      have hnan := isnan_intToFloat (q.convert_mA pf (q.readPin pin s).1)
        (convert_mA_range pf q _).1 (convert_mA_range pf q _).2
      cases config <;> simp [readPinValueLoop, hq, hnan]
    · have hq2 : q.isInRange pin = false := by simpa using hq
      have hrest : rest.find? (fun p => p.isInRange pin) = some p := by
        rw [List.find?_cons, hq2] at h
        exact h
      simp [readPinValueLoop, hq2, ih hrest]

/-- A claimed pin has a first provider that claims it. -/
theorem exists_find_of_claimed (pin : Int) (ps : List (SensorVirtualPinBase σ))
    (h : ∃ p ∈ ps, p.isInRange pin = true) :
    ∃ p, ps.find? (fun p => p.isInRange pin) = some p := by
  obtain ⟨q, hq, hr⟩ := h
  cases hf : ps.find? (fun p => p.isInRange pin) with
  | some p => exact ⟨p, rfl⟩
  | none =>
    have := List.find?_eq_none.mp hf q hq
    simp [hr] at this

/-- The `adcValue`, the `mA` and the device state that `readPinValue` returns for a claimed
pin, config or not. -/
theorem readPinValue_reading (pf : Platform) (reg : Sensor_4_20mA σ) (pin : Int) (s : σ)
    (p : SensorVirtualPinBase σ) (h : reg.virtualPins.find? (fun p => p.isInRange pin) = some p) :
    (reg.readPinValue pf pin s).1.adcValue = (p.readPin pin s).1 ∧
      (reg.readPinValue pf pin s).1.mA = intToFloat (p.convert_mA pf (p.readPin pin s).1) ∧
      (reg.readPinValue pf pin s).2 = (p.readPin pin s).2 := by
  unfold Sensor_4_20mA.readPinValue
  rw [readPinValueLoop_of_find pf _ pin _ s p h]
  cases reg.config with
  | none => exact ⟨rfl, rfl, rfl⟩
  | some records => exact ⟨(applyConfig_keeps _ _ _).1, (applyConfig_keeps _ _ _).2, rfl⟩

/-- The value of `convert_mA` when the difference to the 4 mA code has at most 24 bits and
the exact value fits an `int`: the exact value without its fractional part. -/
theorem convert_mA_of_small (pf : Platform) (p : SensorVirtualPinBase σ) (raw : Int)
    (hd : wrapInt32 (p.adcValue20mA - p.adcValue4mA) ≠ 0)
    (hx : |wrapInt32 (raw - p.adcValue4mA)| ≤ 16777216) :
    p.convert_mA pf raw =
      truncToInt (((wrapInt32 (raw - p.adcValue4mA) : ℤ) : ℚ) * 16 /
        (wrapInt32 (p.adcValue20mA - p.adcValue4mA) : ℤ) + 4) := by
  obtain ⟨m, _, _, _, _, hsmall, hconv⟩ := convert_mA_eq pf p raw hd
  rw [hconv, hsmall hx]
  generalize wrapInt32 (raw - p.adcValue4mA) = x at hx
  generalize wrapInt32 (p.adcValue20mA - p.adcValue4mA) = d at hd
  have hdq : (d : ℚ) ≠ 0 := by exact_mod_cast hd
  have hxq : |(x : ℚ)| ≤ 16777216 := by exact_mod_cast hx
  have hd1 : (1 : ℚ) ≤ |(d : ℚ)| := by
    have : (1 : ℤ) ≤ |d| := Int.one_le_abs hd
    exact_mod_cast this
  have hquot : |(x : ℚ) * 16 / d| ≤ 268435456 := by
    rw [abs_div, abs_mul, div_le_iff₀ (by linarith)]
    have : |(16 : ℚ)| = 16 := abs_of_pos (by norm_num)
    rw [this]
    nlinarith
  have hq := abs_le.mp hquot
  have h1 : (-268435452 : ℚ) ≤ (x : ℚ) * 16 / d + 4 := by linarith
  have h2 : (x : ℚ) * 16 / d + 4 ≤ 268435460 := by linarith
  have ht1 : truncToInt ((-268435452 : ℤ) : ℚ) ≤ truncToInt ((x : ℚ) * 16 / d + 4) :=
    truncToInt_mono (by push_cast; exact h1)
  have ht2 : truncToInt ((x : ℚ) * 16 / d + 4) ≤ truncToInt ((268435460 : ℤ) : ℚ) :=
    truncToInt_mono (by push_cast; exact h2)
  rw [truncToInt_intCast] at ht1 ht2
  simp only [Fp.toInt]
  rw [if_neg (by omega), if_neg (by omega)]

/-! Lemmas on the arithmetic of the scaling -/

theorem Fp.addF_num (a b : ℚ) : Fp.addF (Fp.num a) (Fp.num b) = binary32.round (a + b) := rfl

theorem Fp.subF_num (a b : ℚ) : Fp.subF (Fp.num a) (Fp.num b) = binary32.round (a - b) := by
  simp [Fp.subF, Fp.sub, Fp.add, Fp.neg, sub_eq_add_neg]

theorem Fp.mulF_num (a b : ℚ) : Fp.mulF (Fp.num a) (Fp.num b) = binary32.round (a * b) := rfl

theorem Fp.addD_num (a b : ℚ) : Fp.addD (Fp.num a) (Fp.num b) = binary64.round (a + b) := rfl

theorem Fp.subD_num (a b : ℚ) : Fp.subD (Fp.num a) (Fp.num b) = binary64.round (a - b) := by
  simp [Fp.subD, Fp.sub, Fp.add, Fp.neg, sub_eq_add_neg]

theorem Fp.mulD_num (a b : ℚ) : Fp.mulD (Fp.num a) (Fp.num b) = binary64.round (a * b) := rfl

theorem Fp.divD_num (a b : ℚ) (hb : b ≠ 0) :
    Fp.divD (Fp.num a) (Fp.num b) = binary64.round (a / b) := by
  simp [Fp.divD, Fp.div, hb]

theorem Fp.toFloat_num (a : ℚ) : Fp.toFloat (Fp.num a) = binary32.round a := rfl

theorem round32_rep {q : ℚ} (h : binary32.Rep q) : binary32.round q = Fp.num q :=
  binary32.round_exact binary32_prec h

theorem round64_rep {q : ℚ} (h : binary64.Rep q) : binary64.round q = Fp.num q :=
  binary64.round_exact binary64_prec h

theorem rep32_zero : binary32.Rep 0 := by
  simpa using rep32_int 0 (by norm_num)

/-- A float times an int of at most 20 bits, over a power of two up to `2 ^ 10`, is a
double. -/
theorem rep64_scale (c : ℤ) (hc : |c| ≤ 1048576) {d : ℚ} (hd : binary32.Rep d) (e : ℕ)
    (he : e ≤ 10) : binary64.Rep ((c : ℚ) * d / (2 : ℚ) ^ e) := by
  obtain ⟨k, j, hq, hk, hj, hfin⟩ := hd
  have hk' : |k| < 16777216 := by simpa [binary32] using hk
  have hck : |c * k| < 9007199254740992 := by
    rw [abs_mul]
    have h1 : |c| * |k| ≤ 1048576 * |k| := mul_le_mul_of_nonneg_right hc (abs_nonneg _)
    omega
  have hpow : (1 : ℚ) ≤ (2 : ℚ) ^ e := one_le_pow₀ (by norm_num)
  refine ⟨c * k, j - e, ?_, by simpa [binary64] using hck, ?_, ?_⟩
  · rw [hq, zpow_sub₀ (by norm_num : (2 : ℚ) ≠ 0), zpow_natCast]
    push_cast
    ring
  · simp only [binary32, binary64] at hj ⊢
    omega
  · have h1 : |(c : ℚ) * d / (2 : ℚ) ^ e| ≤ |(c : ℚ) * d| := by
      rw [abs_div, abs_of_pos (by positivity : (0 : ℚ) < (2 : ℚ) ^ e)]
      exact div_le_self (abs_nonneg _) hpow
    have h2 : |(c : ℚ) * d| ≤ 1048576 * |d| := by
      rw [abs_mul]
      have : |(c : ℚ)| ≤ 1048576 := by exact_mod_cast hc
      exact mul_le_mul_of_nonneg_right this (abs_nonneg _)
    have h3 : (1048576 : ℚ) * (2 : ℚ) ^ (binary32.emax + 1) ≤ (2 : ℚ) ^ (binary64.emax + 1) := by
      have : (1048576 : ℚ) * (2 : ℚ) ^ (binary32.emax + 1) = (2 : ℚ) ^ (148 : ℤ) := by
        norm_num [binary32]
      rw [this]
      exact zpow_le_zpow_right₀ (by norm_num) (by decide)
    nlinarith [abs_nonneg d]

theorem rep64_mul_int (c : ℤ) (hc : |c| ≤ 1048576) {d : ℚ} (hd : binary32.Rep d) :
    binary64.Rep ((c : ℚ) * d) := by
  simpa using rep64_scale c hc hd 0 (by norm_num)

theorem rep64_mul_int_div16 (c : ℤ) (hc : |c| ≤ 1048576) {d : ℚ} (hd : binary32.Rep d) :
    binary64.Rep ((c : ℚ) * d / 16) := by
  have := rep64_scale c hc hd 4 (by norm_num)
  norm_num at this
  exact this

/-- Adding the offset 0 and multiplying by 1 leaves a float as it is. -/
theorem offset_zero_multiplier_one {w : ℚ} (h : binary32.Rep w) :
    Fp.mulF (Fp.addF (Fp.num w) 0) 1 = Fp.num w := by
  simp only [Fp.ofNat_eq, Nat.cast_zero, Nat.cast_one, Fp.addF_num, add_zero, round32_rep h,
    Fp.mulF_num, mul_one]

/-- The range scaling with the fields 4 and 20 returns the `mA` it is given. -/
theorem scale_default (m : ℤ) (hrep : binary32.Rep (m : ℚ)) (h1 : -2147483648 ≤ m)
    (h2 : m ≤ 2147483648) :
    Fp.toFloat (Fp.addD (Fp.divD (Fp.mulD (Fp.subD (Fp.num m) 4) (Fp.subF 20 4)) 16) 4) =
      Fp.num m := by
  have e1 : Fp.subF 20 4 = Fp.num 16 := by
    have := round32_rep (rep32_int 16 (by norm_num))
    simp only [Fp.ofNat_eq, Fp.subF_num]
    norm_num at this ⊢
    exact this
  have e2 : Fp.subD (Fp.num m) 4 = Fp.num ((m : ℚ) - 4) := by
    have := round64_rep (rep64_int (m - 4) (by rw [abs_lt]; omega))
    simp only [Fp.ofNat_eq, Fp.subD_num]
    push_cast at this ⊢
    exact this
  have e3 : Fp.mulD (Fp.num ((m : ℚ) - 4)) (Fp.num 16) = Fp.num (((m : ℚ) - 4) * 16) := by
    have := round64_rep (rep64_int ((m - 4) * 16) (by rw [abs_lt]; omega))
    rw [Fp.mulD_num]
    push_cast at this ⊢
    exact this
  have e4 : Fp.divD (Fp.num (((m : ℚ) - 4) * 16)) 16 = Fp.num ((m : ℚ) - 4) := by
    have := round64_rep (rep64_int (m - 4) (by rw [abs_lt]; omega))
    simp only [Fp.ofNat_eq, Nat.cast_ofNat]
    rw [Fp.divD_num _ _ (by norm_num)]
    push_cast at this
    rw [mul_div_assoc]
    norm_num
    exact this
  have e5 : Fp.addD (Fp.num ((m : ℚ) - 4)) 4 = Fp.num (m : ℚ) := by
    have := round64_rep (rep64_int m (by rw [abs_lt]; omega))
    simp only [Fp.ofNat_eq, Fp.addD_num]
    norm_num
    exact this
  rw [e1, e2, e3, e4, e5, Fp.toFloat_num, round32_rep hrep]

/-- The range scaling of the 4 mA branch at `mA = 4` and at `mA = 20`, for finite `float`
fields whose `float` difference is exact. -/
theorem scale_4mA_ends {lo hi : ℚ} (hlo : binary32.Rep lo) (hhi : binary32.Rep hi)
    (hd : binary32.Rep (hi - lo)) :
    Fp.toFloat (Fp.addD (Fp.divD (Fp.mulD (Fp.subD 4 4) (Fp.subF (Fp.num hi) (Fp.num lo))) 16)
        (Fp.num lo)) = Fp.num lo ∧
      Fp.toFloat (Fp.addD (Fp.divD (Fp.mulD (Fp.subD 20 4) (Fp.subF (Fp.num hi) (Fp.num lo)))
        16) (Fp.num lo)) = Fp.num hi := by
  have e1 : Fp.subF (Fp.num hi) (Fp.num lo) = Fp.num (hi - lo) := by
    rw [Fp.subF_num, round32_rep hd]
  have z44 : Fp.subD 4 4 = Fp.num 0 := by
    have := round64_rep (rep64_int 0 (by norm_num))
    simp only [Fp.ofNat_eq, Fp.subD_num]
    norm_num at this ⊢
    exact this
  have z204 : Fp.subD 20 4 = Fp.num 16 := by
    have := round64_rep (rep64_int 16 (by norm_num))
    simp only [Fp.ofNat_eq, Fp.subD_num]
    norm_num at this ⊢
    exact this
  have r0 : binary64.round 0 = Fp.num 0 := by
    have := round64_rep (rep64_int 0 (by norm_num))
    simpa using this
  constructor
  · rw [e1, z44, Fp.mulD_num, zero_mul, r0]
    simp only [Fp.ofNat_eq, Nat.cast_ofNat]
    rw [Fp.divD_num _ _ (by norm_num), zero_div, r0, Fp.addD_num, zero_add,
      round64_rep (rep64_of_rep32 hlo), Fp.toFloat_num, round32_rep hlo]
  · have h16 := rep64_mul_int 16 (by norm_num) hd
    have h1 := rep64_of_rep32 hd
    push_cast at h16
    rw [e1, z204, Fp.mulD_num, round64_rep h16]
    simp only [Fp.ofNat_eq, Nat.cast_ofNat]
    rw [Fp.divD_num _ _ (by norm_num)]
    have : (16 : ℚ) * (hi - lo) / 16 = hi - lo := by ring
    rw [this, round64_rep h1, Fp.addD_num]
    have : hi - lo + lo = hi := by ring
    rw [this, round64_rep (rep64_of_rep32 hhi), Fp.toFloat_num, round32_rep hhi]

/-- The range scaling of the 4 mA branch for a whole `mA` between 4 and 20, with finite
`float` fields in increasing order whose `float` difference is exact: a float between the
two fields. -/
theorem scale_4mA_band {lo hi : ℚ} (hlo : binary32.Rep lo) (hhi : binary32.Rep hi)
    (hd : binary32.Rep (hi - lo)) (hle : lo ≤ hi) (m : ℤ) (h4 : 4 ≤ m) (h20 : m ≤ 20) :
    ∃ w : ℚ, Fp.toFloat (Fp.addD (Fp.divD (Fp.mulD (Fp.subD (Fp.num m) 4)
        (Fp.subF (Fp.num hi) (Fp.num lo))) 16) (Fp.num lo)) = Fp.num w ∧
      binary32.Rep w ∧ lo ≤ w ∧ w ≤ hi := by
  have e1 : Fp.subF (Fp.num hi) (Fp.num lo) = Fp.num (hi - lo) := by
    rw [Fp.subF_num, round32_rep hd]
  have e2 : Fp.subD (Fp.num m) 4 = Fp.num ((m - 4 : ℤ) : ℚ) := by
    have := round64_rep (rep64_int (m - 4) (by rw [abs_lt]; omega))
    simp only [Fp.ofNat_eq, Fp.subD_num]
    push_cast at this ⊢
    exact this
  have hc : |m - 4| ≤ 1048576 := by rw [abs_le]; omega
  have h3 := rep64_mul_int (m - 4) hc hd
  have h4' := rep64_mul_int_div16 (m - 4) hc hd
  have hm0 : (0 : ℚ) ≤ ((m - 4 : ℤ) : ℚ) := by exact_mod_cast (by omega : 0 ≤ m - 4)
  have hm16 : ((m - 4 : ℤ) : ℚ) ≤ 16 := by exact_mod_cast (by omega : m - 4 ≤ 16)
  have hdiff : 0 ≤ hi - lo := by linarith
  have hb1 : lo ≤ ((m - 4 : ℤ) : ℚ) * (hi - lo) / 16 + lo := by
    have : 0 ≤ ((m - 4 : ℤ) : ℚ) * (hi - lo) / 16 :=
      div_nonneg (mul_nonneg hm0 hdiff) (by norm_num)
    linarith
  have hb2 : ((m - 4 : ℤ) : ℚ) * (hi - lo) / 16 + lo ≤ hi := by
    have : ((m - 4 : ℤ) : ℚ) * (hi - lo) ≤ 16 * (hi - lo) :=
      mul_le_mul_of_nonneg_right hm16 hdiff
    linarith
  obtain ⟨hr64, hr64lo, hr64hi⟩ := binary64.round_between binary64_prec (rep64_of_rep32 hlo)
    (rep64_of_rep32 hhi) hb1 hb2
  obtain ⟨hr32, hr32lo, hr32hi⟩ := binary32.round_between binary32_prec hlo hhi hr64lo hr64hi
  refine ⟨_, ?_, binary32.rep_of_round binary32_prec hr32, hr32lo, hr32hi⟩
  rw [e1, e2, Fp.mulD_num, round64_rep h3]
  simp only [Fp.ofNat_eq, Nat.cast_ofNat]
  rw [Fp.divD_num _ _ (by norm_num), round64_rep h4', Fp.addD_num, hr64, Fp.toFloat_num, hr32]

/-- The range scaling of the 0 mA branch at `mA = 0` and at `mA = 20`, for finite `float`
fields whose `float` difference is exact: 0, and the difference when 20 times the difference
is a float. -/
theorem scale_0mA_ends {lo hi : ℚ} (hd : binary32.Rep (hi - lo)) :
    Fp.toFloat (Fp.divD (Fp.mulF 0 (Fp.subF (Fp.num hi) (Fp.num lo))) 20) = Fp.num 0 ∧
      (binary32.Rep (20 * (hi - lo)) →
        Fp.toFloat (Fp.divD (Fp.mulF 20 (Fp.subF (Fp.num hi) (Fp.num lo))) 20) =
          Fp.num (hi - lo)) := by
  have e1 : Fp.subF (Fp.num hi) (Fp.num lo) = Fp.num (hi - lo) := by
    rw [Fp.subF_num, round32_rep hd]
  have r0 : binary64.round 0 = Fp.num 0 := by
    have := round64_rep (rep64_int 0 (by norm_num))
    simpa using this
  constructor
  · rw [e1]
    simp only [Fp.ofNat_eq, Nat.cast_ofNat, Nat.cast_zero, Fp.mulF_num, zero_mul,
      round32_rep rep32_zero]
    rw [Fp.divD_num _ _ (by norm_num), zero_div, r0, Fp.toFloat_num, round32_rep rep32_zero]
  · intro h20
    rw [e1]
    simp only [Fp.ofNat_eq, Nat.cast_ofNat, Fp.mulF_num, round32_rep h20]
    rw [Fp.divD_num _ _ (by norm_num)]
    have : (20 : ℚ) * (hi - lo) / 20 = hi - lo := by ring
    rw [this, round64_rep (rep64_of_rep32 hd), Fp.toFloat_num, round32_rep hd]

/-! Lemmas that evaluate a rounding -/

/-- Evaluation of the rounding of a positive number whose binade is known. -/
theorem Format.round_eval (f : Format) {q : ℚ} (E : ℤ) (h1 : (2 : ℚ) ^ E ≤ q)
    (h2 : q < (2 : ℚ) ^ (E + 1)) (hE : f.emin ≤ E) {r : ℚ}
    (hr : roundHalfEven (q / (2 : ℚ) ^ (E - ((f.prec : ℤ) - 1))) *
      (2 : ℚ) ^ (E - ((f.prec : ℤ) - 1)) = r)
    (hfin : r < (2 : ℚ) ^ (f.emax + 1)) :
    f.round q = Fp.num r ∧ f.roundRaw q = r ∧ f.round (-q) = Fp.num (-r) ∧
      f.roundRaw (-q) = -r := by
  have hq : 0 < q := lt_of_lt_of_le (by positivity) h1
  have hmag : f.roundMag q = r := by rw [f.roundMag_eval E h1 h2 hE, hr]
  have hr0 : 0 ≤ r := by rw [← hmag]; exact f.roundMag_nonneg (le_of_lt hq)
  have hraw : f.roundRaw q = r := by
    unfold Format.roundRaw
    rw [if_neg (by linarith), hmag]
  have hrawn : f.roundRaw (-q) = -r := by
    unfold Format.roundRaw
    rw [if_pos (by linarith), neg_neg, hmag]
  refine ⟨?_, hraw, ?_, hrawn⟩
  · unfold Format.round
    rw [hraw, abs_of_nonneg hr0, if_neg (not_le.mpr hfin)]
  · unfold Format.round
    rw [hrawn, abs_neg, abs_of_nonneg hr0, if_neg (not_le.mpr hfin)]

/-- The `float` nearest to 16777217 is 16777216. -/
theorem round32_16777217 :
    binary32.round 16777217 = Fp.num 16777216 ∧ binary32.roundRaw 16777217 = 16777216 := by
  have h := binary32.round_eval (q := 16777217) 24 (by norm_num) (by norm_num) (by decide)
    (r := 16777216) (by norm_num [binary32, roundHalfEven]) (by norm_num [binary32])
  exact ⟨h.1, h.2.1⟩

theorem intToFloat_lit :
    intToFloat 0 = 0 ∧ intToFloat 4 = 4 ∧ intToFloat 12 = 12 ∧ intToFloat 20 = 20 := by
  refine ⟨?_, ?_, ?_, ?_⟩
  · simpa [Fp.ofNat_eq] using intToFloat_small 0 (by norm_num)
  · simpa [Fp.ofNat_eq] using intToFloat_small 4 (by norm_num)
  · simpa [Fp.ofNat_eq] using intToFloat_small 12 (by norm_num)
  · simpa [Fp.ofNat_eq] using intToFloat_small 20 (by norm_num)

/-- A `double` whose integer part fits an `int` is converted to that integer part. -/
theorem Fp.toInt_of_range (pf : Platform) {q : ℚ} (h1 : -2147483648 ≤ truncToInt q)
    (h2 : truncToInt q ≤ 2147483647) : Fp.toInt pf (Fp.num q) = truncToInt q := by
  simp only [Fp.toInt]
  rw [if_neg (by omega), if_neg (by omega)]

/-! Lemmas on the example registries -/

/-- The native provider converts the codes 491, 2469, 1480, 0 and 492 to 4, 20, 12, 0 and
4. -/
theorem native_conversions (pf : Platform) (analogRead : Int → σ → Int × σ) :
    (SensorVirtualPinNative analogRead).convert_mA pf 491 = 4 ∧
      (SensorVirtualPinNative analogRead).convert_mA pf 2469 = 20 ∧
      (SensorVirtualPinNative analogRead).convert_mA pf 1480 = 12 ∧
      (SensorVirtualPinNative analogRead).convert_mA pf 0 = 0 ∧
      (SensorVirtualPinNative analogRead).convert_mA pf 492 = 4 := by
  have hd : wrapInt32 ((SensorVirtualPinNative analogRead).adcValue20mA -
      (SensorVirtualPinNative analogRead).adcValue4mA) ≠ 0 := by
    simp [SensorVirtualPinNative, wrapInt32]
  refine ⟨?_, ?_, ?_, ?_, ?_⟩ <;>
    rw [convert_mA_of_small pf _ _ hd (by simp [SensorVirtualPinNative, wrapInt32])] <;>
    norm_num [SensorVirtualPinNative, wrapInt32, truncToInt]

/-- On the example registry, the whole result of reading a pin from 0 to 99, from any log. -/
theorem nativeRegistry_read_at (pf : Platform) (table : Int → Int)
    (config : List SensorConfig) (pin : Int) (log : List Int) (h0 : 0 ≤ pin) (h1 : pin < 100) :
    (nativeRegistry table config).readPinValue pf pin log =
      (applyConfig pin
        { adcValue := table pin,
          mA := intToFloat ((SensorVirtualPinNative (loggedRead table)).convert_mA pf (table pin)),
          value :=
            intToFloat ((SensorVirtualPinNative (loggedRead table)).convert_mA pf (table pin)) }
        config, log ++ [pin]) := by
  have hf : (nativeRegistry table config).virtualPins.find? (fun p => p.isInRange pin)
      = some (SensorVirtualPinNative (loggedRead table)) := by
    simp [nativeRegistry, Sensor_4_20mA.withConfig, Sensor_4_20mA.withNativeADC,
      Sensor_4_20mA.new, List.find?_cons, SensorVirtualPinBase.isInRange,
      SensorVirtualPinNative, h0, h1]
  unfold Sensor_4_20mA.readPinValue
  rw [readPinValueLoop_of_find pf _ pin _ log _ hf]
  rfl

/-- On the example registry, a pin from 0 to 99 is read from the logged device, once. -/
theorem nativeRegistry_reading (pf : Platform) (table : Int → Int)
    (config : List SensorConfig) (pin : Int) (h0 : 0 ≤ pin) (h1 : pin < 100) :
    ((nativeRegistry table config).readPinValue pf pin []).1.adcValue = table pin ∧
      ((nativeRegistry table config).readPinValue pf pin []).1.mA =
        intToFloat ((SensorVirtualPinNative (loggedRead table)).convert_mA pf (table pin)) ∧
      ((nativeRegistry table config).readPinValue pf pin []).2 = [pin] := by
  rw [nativeRegistry_read_at pf table config pin [] h0 h1]
  exact ⟨(applyConfig_keeps _ _ _).1, (applyConfig_keeps _ _ _).2, rfl⟩

/-- The native provider claims pin 0 on the example registry. -/
theorem nativeRegistry_claims (table : Int → Int) (config : List SensorConfig) :
    ∃ p ∈ (nativeRegistry table config).virtualPins, p.isInRange 0 = true :=
  ⟨SensorVirtualPinNative (loggedRead table), by
    simp [nativeRegistry, Sensor_4_20mA.withConfig, Sensor_4_20mA.withNativeADC,
      Sensor_4_20mA.new], by simp [SensorVirtualPinBase.isInRange, SensorVirtualPinNative]⟩

/-- The `mA` that the example registry reports for the readings 491, 2469, 1480 and 0 on
pin 0. -/
theorem nativeRegistry_mA (pf : Platform) (config : List SensorConfig) :
    ((nativeRegistry (fun _ => 491) config).readPinValue pf 0 []).1.mA = 4 ∧
      ((nativeRegistry (fun _ => 2469) config).readPinValue pf 0 []).1.mA = 20 ∧
      ((nativeRegistry (fun _ => 1480) config).readPinValue pf 0 []).1.mA = 12 ∧
      ((nativeRegistry (fun _ => 0) config).readPinValue pf 0 []).1.mA = 0 := by
  refine ⟨?_, ?_, ?_, ?_⟩
  · rw [(nativeRegistry_reading pf _ config 0 (by decide) (by decide)).2.1,
      (native_conversions pf _).1, intToFloat_lit.2.1]
  · rw [(nativeRegistry_reading pf _ config 0 (by decide) (by decide)).2.1,
      (native_conversions pf _).2.1, intToFloat_lit.2.2.2]
  · rw [(nativeRegistry_reading pf _ config 0 (by decide) (by decide)).2.1,
      (native_conversions pf _).2.2.1, intToFloat_lit.2.2.1]
  · rw [(nativeRegistry_reading pf _ config 0 (by decide) (by decide)).2.1,
      (native_conversions pf _).2.2.2.1, intToFloat_lit.1]

/-- The `value` of `readPinValue` for a claimed pin with a matching record, in terms of the
`mA` of the same result. -/
theorem value_of_matching_record (pf : Platform) (reg : Sensor_4_20mA σ) (pin : Int) (s : σ)
    (records : List SensorConfig) (c : SensorConfig)
    (hpin : ∃ p ∈ reg.virtualPins, p.isInRange pin = true)
    (hcfg : reg.config = some records)
    (hc : records.find? (fun c => c.virtualPin == pin) = some c) :
    (reg.readPinValue pf pin s).1.value =
      Fp.mulF (Fp.addF
        (if c.valueLowIs4mA then
          Fp.toFloat (Fp.addD (Fp.divD (Fp.mulD (Fp.subD (reg.readPinValue pf pin s).1.mA 4)
            (Fp.subF c.value20mA c.valueLow)) 16) c.valueLow)
        else
          Fp.toFloat (Fp.divD (Fp.mulF (reg.readPinValue pf pin s).1.mA
            (Fp.subF c.value20mA c.valueLow)) 20))
        c.offset) c.multiplier := by
  obtain ⟨p, hp⟩ := exists_find_of_claimed pin reg.virtualPins hpin
  simp only [Sensor_4_20mA.readPinValue, hcfg, readPinValueLoop_of_find pf _ pin _ s p hp,
    applyConfig_of_find pin _ records c hc, (applyConfig_keeps _ _ _).2]

/-- The range scaling of the 4 mA branch at `mA = 20`, for `float` fields whose `float`
difference is `d`, when the `double` sum of `d` and the low field is exact: the `float`
nearest to that sum. -/
theorem scale_4mA_at_20 {lo hi d : ℚ} (hsub : binary32.round (hi - lo) = Fp.num d)
    (hs : binary64.Rep (d + lo)) :
    Fp.toFloat (Fp.addD (Fp.divD (Fp.mulD (Fp.subD 20 4) (Fp.subF (Fp.num hi) (Fp.num lo)))
        16) (Fp.num lo)) = binary32.round (d + lo) := by
  have hd : binary32.Rep d := binary32.rep_of_round binary32_prec hsub
  have e1 : Fp.subF (Fp.num hi) (Fp.num lo) = Fp.num d := by rw [Fp.subF_num, hsub]
  have z204 : Fp.subD 20 4 = Fp.num 16 := by
    have := round64_rep (rep64_int 16 (by norm_num))
    simp only [Fp.ofNat_eq, Fp.subD_num]
    norm_num at this ⊢
    exact this
  have h16 := rep64_mul_int 16 (by norm_num) hd
  have h1 := rep64_of_rep32 hd
  push_cast at h16
  rw [e1, z204, Fp.mulD_num, round64_rep h16]
  simp only [Fp.ofNat_eq, Nat.cast_ofNat]
  rw [Fp.divD_num _ _ (by norm_num)]
  have : (16 : ℚ) * d / 16 = d := by ring
  rw [this, round64_rep h1, Fp.addD_num, round64_rep hs, Fp.toFloat_num]

/-- The range scaling of the 4 mA branch at `mA = 4`, for a finite `float` low field and a
`float` difference of the two fields that is finite: the low field. -/
theorem scale_4mA_at_4 {lo hi d : ℚ} (hsub : binary32.round (hi - lo) = Fp.num d)
    (hlo : binary32.Rep lo) :
    Fp.toFloat (Fp.addD (Fp.divD (Fp.mulD (Fp.subD 4 4) (Fp.subF (Fp.num hi) (Fp.num lo)))
        16) (Fp.num lo)) = Fp.num lo := by
  have e1 : Fp.subF (Fp.num hi) (Fp.num lo) = Fp.num d := by rw [Fp.subF_num, hsub]
  have z44 : Fp.subD 4 4 = Fp.num 0 := by
    have := round64_rep (rep64_int 0 (by norm_num))
    simp only [Fp.ofNat_eq, Fp.subD_num]
    norm_num at this ⊢
    exact this
  have r0 : binary64.round 0 = Fp.num 0 := by
    have := round64_rep (rep64_int 0 (by norm_num))
    simpa using this
  rw [e1, z44, Fp.mulD_num, zero_mul, r0]
  simp only [Fp.ofNat_eq, Nat.cast_ofNat]
  rw [Fp.divD_num _ _ (by norm_num), zero_div, r0, Fp.addD_num, zero_add,
    round64_rep (rep64_of_rep32 hlo), Fp.toFloat_num, round32_rep hlo]

/-- The range scaling of the 0 mA branch at `mA = 20`, for `float` fields whose `float`
difference is `d` and with `e` the `float` product of 20 and `d`: the `float` nearest to the
`double` quotient of `e` by 20. -/
theorem scale_0mA_at_20 {lo hi d e : ℚ} (hsub : binary32.round (hi - lo) = Fp.num d)
    (hmul : binary32.round (20 * d) = Fp.num e) :
    Fp.toFloat (Fp.divD (Fp.mulF 20 (Fp.subF (Fp.num hi) (Fp.num lo))) 20) =
      Fp.toFloat (binary64.round (e / 20)) := by
  have e1 : Fp.subF (Fp.num hi) (Fp.num lo) = Fp.num d := by rw [Fp.subF_num, hsub]
  rw [e1]
  simp only [Fp.ofNat_eq, Nat.cast_ofNat, Fp.mulF_num, hmul]
  rw [Fp.divD_num _ _ (by norm_num)]

/-- The value that a record of the 4 mA kind with offset 0 and multiplier 1 gives at 4 mA and
at 20 mA, when its two fields are finite floats whose `float` difference is exact. -/
theorem value_4mA_ends (pf : Platform) (reg : Sensor_4_20mA σ) (pin : Int) (s : σ)
    (records : List SensorConfig) (c : SensorConfig) (lo hi : ℚ)
    (hpin : ∃ p ∈ reg.virtualPins, p.isInRange pin = true)
    (hcfg : reg.config = some records)
    (hc : records.find? (fun c => c.virtualPin == pin) = some c)
    (hflag : c.valueLowIs4mA = true) (hoff : c.offset = 0) (hmul : c.multiplier = 1)
    (hlow : c.valueLow = Fp.num lo) (hhigh : c.value20mA = Fp.num hi)
    (hlo : binary32.Rep lo) (hhi : binary32.Rep hi) (hd : binary32.Rep (hi - lo)) :
    ((reg.readPinValue pf pin s).1.mA = 4 → (reg.readPinValue pf pin s).1.value = c.valueLow) ∧
      ((reg.readPinValue pf pin s).1.mA = 20 →
        (reg.readPinValue pf pin s).1.value = c.value20mA) := by
  have hv := value_of_matching_record pf reg pin s records c hpin hcfg hc
  rw [hflag, hoff, hmul, hlow, hhigh, if_pos rfl] at hv
  obtain ⟨h4, h20⟩ := scale_4mA_ends hlo hhi hd
  constructor
  · intro hm
    rw [hv, hm, h4, offset_zero_multiplier_one hlo, hlow]
  · intro hm
    rw [hv, hm, h20, offset_zero_multiplier_one hhi, hhigh]

/-- The value that a record of the 4 mA kind with offset 0 and multiplier 1 gives at 4 mA,
when its low field is a finite float and the `float` difference of its fields is finite. -/
theorem value_4mA_at_4 (pf : Platform) (reg : Sensor_4_20mA σ) (pin : Int) (s : σ)
    (records : List SensorConfig) (c : SensorConfig) (lo hi : ℚ)
    (hpin : ∃ p ∈ reg.virtualPins, p.isInRange pin = true)
    (hcfg : reg.config = some records)
    (hc : records.find? (fun c => c.virtualPin == pin) = some c)
    (hflag : c.valueLowIs4mA = true) (hoff : c.offset = 0) (hmul : c.multiplier = 1)
    (hlow : c.valueLow = Fp.num lo) (hhigh : c.value20mA = Fp.num hi)
    (hlo : binary32.Rep lo) (hm : (reg.readPinValue pf pin s).1.mA = 4)
    (hfin : ∃ d : ℚ, Fp.subF c.value20mA c.valueLow = Fp.num d) :
    (reg.readPinValue pf pin s).1.value = c.valueLow := by
  obtain ⟨d, hd⟩ := hfin
  rw [hlow, hhigh, Fp.subF_num] at hd
  have hv := value_of_matching_record pf reg pin s records c hpin hcfg hc
  rw [hflag, hoff, hmul, hlow, hhigh, if_pos rfl] at hv
  rw [hv, hm, scale_4mA_at_4 hd hlo, offset_zero_multiplier_one hlo, hlow]

/-- The value that a record of the 0 mA kind with offset 0 and multiplier 1 gives at 0 mA and
at 20 mA, when its two fields are finite floats whose `float` difference `d` is exact:
0, and `d` when `20 * d` is a float. -/
theorem value_0mA_ends (pf : Platform) (reg : Sensor_4_20mA σ) (pin : Int) (s : σ)
    (records : List SensorConfig) (c : SensorConfig) (lo hi : ℚ)
    (hpin : ∃ p ∈ reg.virtualPins, p.isInRange pin = true)
    (hcfg : reg.config = some records)
    (hc : records.find? (fun c => c.virtualPin == pin) = some c)
    (hflag : c.valueLowIs4mA = false) (hoff : c.offset = 0) (hmul : c.multiplier = 1)
    (hlow : c.valueLow = Fp.num lo) (hhigh : c.value20mA = Fp.num hi)
    (hd : binary32.Rep (hi - lo)) :
    ((reg.readPinValue pf pin s).1.mA = 0 → (reg.readPinValue pf pin s).1.value = 0) ∧
      ((reg.readPinValue pf pin s).1.mA = 20 → binary32.Rep (20 * (hi - lo)) →
        (reg.readPinValue pf pin s).1.value = Fp.num (hi - lo)) := by
  have hv := value_of_matching_record pf reg pin s records c hpin hcfg hc
  rw [hflag, hoff, hmul, hlow, hhigh, if_neg (by decide)] at hv
  obtain ⟨h0, h20⟩ := @scale_0mA_ends lo hi hd
  constructor
  · intro hm
    rw [hv, hm, h0, offset_zero_multiplier_one rep32_zero]
    rfl
  · intro hm hrep
    rw [hv, hm, h20 hrep, offset_zero_multiplier_one hd]

/-- The whole numbers 10, 50, 100 and 110 are floats. -/
theorem rep32_lit : binary32.Rep 10 ∧ binary32.Rep 50 ∧ binary32.Rep 100 ∧
    binary32.Rep 110 ∧ binary32.Rep 2000 := by
  refine ⟨?_, ?_, ?_, ?_, ?_⟩
  · simpa using rep32_int 10 (by norm_num)
  · simpa using rep32_int 50 (by norm_num)
  · simpa using rep32_int 100 (by norm_num)
  · simpa using rep32_int 110 (by norm_num)
  · simpa using rep32_int 2000 (by norm_num)

/-! Claims -/

/-- C1: `convert_mA` is not the exact linear mapping. For the native provider, codes
(491, 2469), the raw code 492 is converted to 4, while the linear mapping
`(492 - 491) * 16 / (2469 - 491) + 4` is not 4; at the raw code 1480 the two agree on 12. -/
theorem convert_mA_native_492_drops_fraction (pf : Platform)
    (analogRead : Int → σ → Int × σ) :
    (SensorVirtualPinNative analogRead).adcValue20mA ≠
        (SensorVirtualPinNative analogRead).adcValue4mA ∧
      (SensorVirtualPinNative analogRead).convert_mA pf 492 = 4 ∧
      (((SensorVirtualPinNative analogRead).convert_mA pf 492 : Int) : ℚ) ≠
        (((492 : Int) : ℚ) - (SensorVirtualPinNative analogRead).adcValue4mA) * 16 /
          ((SensorVirtualPinNative analogRead).adcValue20mA -
            (SensorVirtualPinNative analogRead).adcValue4mA) + 4 ∧
      (((SensorVirtualPinNative analogRead).convert_mA pf 1480 : Int) : ℚ) =
        (((1480 : Int) : ℚ) - (SensorVirtualPinNative analogRead).adcValue4mA) * 16 /
          ((SensorVirtualPinNative analogRead).adcValue20mA -
            (SensorVirtualPinNative analogRead).adcValue4mA) + 4 := by
  have hne : (SensorVirtualPinNative analogRead).adcValue20mA ≠
      (SensorVirtualPinNative analogRead).adcValue4mA := by
    simp [SensorVirtualPinNative]
  have h492 := (native_conversions pf analogRead).2.2.2.2
  have h1480 := (native_conversions pf analogRead).2.2.1
  refine ⟨hne, h492, ?_, ?_⟩
  · rw [h492]
    norm_num [SensorVirtualPinNative]
  · rw [h1480]
    norm_num [SensorVirtualPinNative]

/-- C2 fails for calibration codes that the `(float)` cast rounds: with the codes 0 and
16777217, `convert_mA` at the 20 mA code is 19, since `(float)16777217` is 16777216. -/
theorem convert_mA_calibration_points_counterexample :
    (customProvider 0 16777217 fun _ => 0).adcValue20mA ≠
        (customProvider 0 16777217 fun _ => 0).adcValue4mA ∧
      (customProvider 0 16777217 fun _ => 0).convert_mA x86Platform 16777217 = 19 ∧
      (customProvider 0 16777217 fun _ => 0).convert_mA x86Platform
        (customProvider 0 16777217 fun _ => 0).adcValue20mA ≠ 20 := by
  have hconv : (customProvider 0 16777217 fun _ => 0).convert_mA x86Platform 16777217 = 19 := by
    obtain ⟨m, _, hraw, _, _, _, hconv⟩ := convert_mA_eq x86Platform
      (customProvider 0 16777217 fun _ => 0) 16777217 (by decide)
    have hx : wrapInt32 (16777217 - (customProvider 0 16777217 fun _ => 0).adcValue4mA) =
        16777217 := by decide
    have hd : wrapInt32 ((customProvider 0 16777217 fun _ => 0).adcValue20mA -
        (customProvider 0 16777217 fun _ => 0).adcValue4mA) = 16777217 := by decide
    rw [hx] at hraw
    rw [hd] at hconv
    have hm : m = 16777216 := by
      have h := round32_16777217.2
      have h2 : ((16777217 : ℤ) : ℚ) = 16777217 := by norm_num
      rw [h2, h] at hraw
      exact_mod_cast hraw.symm
    rw [hconv, hm]
    norm_num [Fp.toInt, truncToInt]
  refine ⟨by decide, hconv, ?_⟩
  have h20 : (customProvider 0 16777217 fun _ => 0).adcValue20mA = 16777217 := rfl
  rw [h20, hconv]
  decide

/-- C2, amended: with distinct calibration codes, both 32-bit ints, `convert_mA` gives exactly
4 at the 4 mA code, and gives exactly 20 at the 20 mA code whenever the `(float)` cast of the
difference of the codes is exact, in particular when the codes differ by at most 2 ^ 24. -/
theorem convert_mA_calibration_points (pf : Platform) (p : SensorVirtualPinBase σ)
    (h4 : -2147483648 ≤ p.adcValue4mA ∧ p.adcValue4mA ≤ 2147483647)
    (h20 : -2147483648 ≤ p.adcValue20mA ∧ p.adcValue20mA ≤ 2147483647)
    (h : p.adcValue20mA ≠ p.adcValue4mA) :
    p.convert_mA pf p.adcValue4mA = 4 ∧
      (intToFloat (wrapInt32 (p.adcValue20mA - p.adcValue4mA)) =
          Fp.num (wrapInt32 (p.adcValue20mA - p.adcValue4mA) : ℤ) →
        p.convert_mA pf p.adcValue20mA = 20) ∧
      (|p.adcValue20mA - p.adcValue4mA| ≤ 16777216 → p.convert_mA pf p.adcValue20mA = 20) := by
  have hd : wrapInt32 (p.adcValue20mA - p.adcValue4mA) ≠ 0 := by
    unfold wrapInt32
    omega
  have hdq : ((wrapInt32 (p.adcValue20mA - p.adcValue4mA) : ℤ) : ℚ) ≠ 0 := by
    exact_mod_cast hd
  have hexact : intToFloat (wrapInt32 (p.adcValue20mA - p.adcValue4mA)) =
      Fp.num (wrapInt32 (p.adcValue20mA - p.adcValue4mA) : ℤ) →
      p.convert_mA pf p.adcValue20mA = 20 := by
    intro hcast
    obtain ⟨m, hm, _, _, _, _, hconv⟩ := convert_mA_eq pf p p.adcValue20mA hd
    rw [hcast] at hm
    have hmq : ((wrapInt32 (p.adcValue20mA - p.adcValue4mA) : ℤ) : ℚ) = m := Fp.num.inj hm
    rw [hconv, ← hmq]
    have : ((wrapInt32 (p.adcValue20mA - p.adcValue4mA) : ℤ) : ℚ) * 16 /
        (wrapInt32 (p.adcValue20mA - p.adcValue4mA) : ℤ) + 4 = ((20 : ℤ) : ℚ) := by
      field_simp
      ring
    rw [this, Fp.toInt_of_range pf (by rw [truncToInt_intCast]; norm_num)
      (by rw [truncToInt_intCast]; norm_num), truncToInt_intCast]
  refine ⟨?_, hexact, ?_⟩
  · rw [convert_mA_of_small pf p _ hd (by simp [wrapInt32])]
    have : ((wrapInt32 (p.adcValue4mA - p.adcValue4mA) : ℤ) : ℚ) * 16 /
        (wrapInt32 (p.adcValue20mA - p.adcValue4mA) : ℤ) + 4 = ((4 : ℤ) : ℚ) := by
      simp [wrapInt32]
    rw [this, truncToInt_intCast]
  · intro hsmall
    apply hexact
    have hw : wrapInt32 (p.adcValue20mA - p.adcValue4mA) = p.adcValue20mA - p.adcValue4mA := by
      have := abs_le.mp hsmall
      exact wrapInt32_of_range (by omega) (by omega)
    rw [hw]
    exact intToFloat_small _ hsmall

/-- C2, amended, at the native provider, codes 491 and 2469. -/
theorem convert_mA_calibration_points_witness :
    (SensorVirtualPinNative (loggedRead fun _ => 0)).convert_mA zeroPlatform 491 = 4 ∧
      (SensorVirtualPinNative (loggedRead fun _ => 0)).convert_mA zeroPlatform 2469 = 20 :=
  ⟨(convert_mA_calibration_points zeroPlatform (SensorVirtualPinNative (loggedRead fun _ => 0))
      (by decide) (by decide) (by decide)).1,
    (convert_mA_calibration_points zeroPlatform (SensorVirtualPinNative (loggedRead fun _ => 0))
      (by decide) (by decide) (by decide)).2.2 (by decide)⟩

/-- The float 0.1f is the number 13421773 / 2 ^ 27. -/
theorem rep32_tenth : binary32.Rep (13421773 / 134217728) :=
  ⟨13421773, -27, by norm_num, by norm_num [binary32], by simp [binary32],
    by norm_num [binary32, abs_of_pos]⟩

/-- C3 fails on an ordinary record, because the sum with the offset is rounded to `float`:
on the native provider reading 2469 on pin 0 (20 mA) with the record
`{ 0, "t", 0, 100, true, 0.1f, 1 }`, the range-scaled value is 100 and `value` is the float
13120307 / 2 ^ 17 = 100.09999847..., not `(100 + 0.1f) * 1`. -/
theorem readPinValue_scaling_counterexample :
    binary32.Rep (13421773 / 134217728) ∧
      ((nativeRegistry (fun _ => 2469)
        [{ virtualPin := 0, name := "t", valueLow := 0, value20mA := 100,
            offset := Fp.num (13421773 / 134217728) }]).readPinValue x86Platform 0 []).1.mA
        = 20 ∧
      ((nativeRegistry (fun _ => 2469)
        [{ virtualPin := 0, name := "t", valueLow := 0, value20mA := 100,
            offset := Fp.num (13421773 / 134217728) }]).readPinValue x86Platform 0 []).1.value
        = Fp.num (13120307 / 131072) ∧
      (13120307 / 131072 : ℚ) ≠
        ((20 - 4) * (100 - 0) / 16 + 0 + 13421773 / 134217728) * 1 := by
  have hm := (nativeRegistry_mA x86Platform
    [{ virtualPin := 0, name := "t", valueLow := 0, value20mA := 100,
        offset := Fp.num (13421773 / 134217728) }]).2.1
  have hv := value_of_matching_record x86Platform
    (nativeRegistry (fun _ => 2469)
      [{ virtualPin := 0, name := "t", valueLow := 0, value20mA := 100,
          offset := Fp.num (13421773 / 134217728) }]) 0 []
    [{ virtualPin := 0, name := "t", valueLow := 0, value20mA := 100,
        offset := Fp.num (13421773 / 134217728) }]
    { virtualPin := 0, name := "t", valueLow := 0, value20mA := 100,
      offset := Fp.num (13421773 / 134217728) }
    (nativeRegistry_claims _ _) rfl rfl
  have hscale := (@scale_4mA_ends 0 100 rep32_zero
    (by simpa using rep32_int 100 (by norm_num))
    (by simpa using rep32_int 100 (by norm_num))).2
  have hsum := (binary32.round_eval (q := 100 + 13421773 / 134217728) 6 (by norm_num)
    (by norm_num) (by decide) (r := 13120307 / 131072)
    (by norm_num [binary32, roundHalfEven]) (by norm_num [binary32])).1
  have hrep : binary32.Rep (13120307 / 131072) := binary32.rep_of_round binary32_prec hsum
  refine ⟨rep32_tenth, hm, ?_, by norm_num⟩
  rw [hv, hm]
  simp only [Fp.ofNat_eq, Nat.cast_ofNat, Nat.cast_zero, Nat.cast_one, if_true] at hscale ⊢
  rw [hscale, Fp.addF_num, hsum, Fp.mulF_num, mul_one, round32_rep hrep]

/-- C3, amended: for a pin claimed by a provider and a config array whose first record for
the pin is `c`, `readPinValue` returns `value = float(float(r + c.offset) * c.multiplier)`:
the offset is added before the multiplier is applied and each of the two is a `float`
operation, rounded to nearest. `r` is the `float` of the `double` expression
`(mA - 4.0) * (c.value20mA - c.valueLow) / 16.0 + c.valueLow` if `c.valueLowIs4mA` and of
`mA * (c.value20mA - c.valueLow) / 20.0` otherwise, in which the difference of the two fields
is a `float` operation, as is the product of the second expression; `mA` is the `mA` of the
same result. -/
theorem readPinValue_scaling (pf : Platform) (reg : Sensor_4_20mA σ) (pin : Int) (s : σ)
    (records : List SensorConfig) (c : SensorConfig)
    (hpin : ∃ p ∈ reg.virtualPins, p.isInRange pin = true)
    (hcfg : reg.config = some records)
    (hc : records.find? (fun c => c.virtualPin == pin) = some c) :
    (reg.readPinValue pf pin s).1.value =
      Fp.mulF (Fp.addF
        (if c.valueLowIs4mA then
          Fp.toFloat (Fp.addD (Fp.divD (Fp.mulD (Fp.subD (reg.readPinValue pf pin s).1.mA 4)
            (Fp.subF c.value20mA c.valueLow)) 16) c.valueLow)
        else
          Fp.toFloat (Fp.divD (Fp.mulF (reg.readPinValue pf pin s).1.mA
            (Fp.subF c.value20mA c.valueLow)) 20))
        c.offset) c.multiplier :=
  value_of_matching_record pf reg pin s records c hpin hcfg hc

/-- C3, amended, on the native provider reading 2469 on pin 0 (20 mA), record
`{ 0, "t", 0, 100, true, 1, 2 }`: the value is `(100 + 1) * 2 = 202`. -/
theorem readPinValue_scaling_witness :
    ((nativeRegistry (fun _ => 2469)
        [{ virtualPin := 0, name := "t", valueLow := 0, value20mA := 100, offset := 1,
            multiplier := 2 }]).readPinValue zeroPlatform 0 []).1.value = 202 := by
  have h := readPinValue_scaling zeroPlatform
    (nativeRegistry (fun _ => 2469)
      [{ virtualPin := 0, name := "t", valueLow := 0, value20mA := 100, offset := 1,
          multiplier := 2 }]) 0 []
    [{ virtualPin := 0, name := "t", valueLow := 0, value20mA := 100, offset := 1,
        multiplier := 2 }]
    { virtualPin := 0, name := "t", valueLow := 0, value20mA := 100, offset := 1,
      multiplier := 2 }
    (nativeRegistry_claims _ _) rfl rfl
  have hm := (nativeRegistry_mA zeroPlatform
    [{ virtualPin := 0, name := "t", valueLow := 0, value20mA := 100, offset := 1,
        multiplier := 2 }]).2.1
  have hscale := (@scale_4mA_ends 0 100 rep32_zero
    (by simpa using rep32_int 100 (by norm_num))
    (by simpa using rep32_int 100 (by norm_num))).2
  have h101 : binary32.round (100 + 1) = Fp.num 101 := by
    have := round32_rep (rep32_int 101 (by norm_num))
    norm_num at this ⊢
    exact this
  have h202 : binary32.round (101 * 2) = Fp.num 202 := by
    have := round32_rep (rep32_int 202 (by norm_num))
    norm_num at this ⊢
    exact this
  rw [h, hm]
  simp only [Fp.ofNat_eq, Nat.cast_ofNat, Nat.cast_zero, Nat.cast_one, if_true] at hscale ⊢
  rw [hscale, Fp.addF_num, h101, Fp.mulF_num, h202]

/-- The one provider of the example registry `customRegistry` claims pin 0. -/
theorem customRegistry_find (a4 a20 : Int) (table : Int → Int) (config : List SensorConfig) :
    (customRegistry a4 a20 table config).virtualPins.find? (fun p => p.isInRange 0) =
      some (customProvider a4 a20 table) := by
  simp [customRegistry, Sensor_4_20mA.withConfig, List.find?_cons,
    SensorVirtualPinBase.isInRange, customProvider]

/-- The reading of pin 0 on the example registry `customRegistry`, before the scaling. -/
theorem customRegistry_reading (pf : Platform) (a4 a20 : Int) (table : Int → Int)
    (config : List SensorConfig) :
    ((customRegistry a4 a20 table config).readPinValue pf 0 []).1.adcValue = table 0 ∧
      ((customRegistry a4 a20 table config).readPinValue pf 0 []).1.mA =
        intToFloat ((customProvider a4 a20 table).convert_mA pf (table 0)) ∧
      ((customRegistry a4 a20 table config).readPinValue pf 0 []).2 = [0] :=
  readPinValue_reading pf _ 0 [] _ (customRegistry_find a4 a20 table config)

/-- The value of a reading for which there is no record. -/
theorem value_without_record (pf : Platform) (reg : Sensor_4_20mA σ) (pin : Int)
    (s : σ) (p : SensorVirtualPinBase σ)
    (hp : reg.virtualPins.find? (fun p => p.isInRange pin) = some p)
    (hcfg : reg.config = none ∨
      ∃ records, reg.config = some records ∧ ∀ c ∈ records, c.virtualPin ≠ pin) :
    (reg.readPinValue pf pin s).1.value = (reg.readPinValue pf pin s).1.mA := by
  unfold Sensor_4_20mA.readPinValue
  rw [readPinValueLoop_of_find pf _ pin _ s p hp]
  rcases hcfg with hnone | ⟨records, hsome, hrec⟩
  · simp [hnone]
  · simp [hsome, applyConfig_of_no_record pin _ records hrec]

/-- C4: for a pin that lies in no provider's range, whatever the providers and the config
array, `readPinValue` returns the zero record and the device state it was given: no provider
is read. -/
theorem readPinValue_unclaimed (pf : Platform) (reg : Sensor_4_20mA σ) (pin : Int) (s : σ)
    (h : ∀ p ∈ reg.virtualPins, p.isInRange pin = false) :
    reg.readPinValue pf pin s = ({ adcValue := 0, mA := 0, value := 0 }, s) :=
  readPinValueLoop_of_unclaimed pf reg.config pin reg.virtualPins s h

/-- C4 on the native provider (pins 0..99) with a config record for pin 100: reading pin 100
gives the zero record and the log of sampled pins stays empty. -/
theorem readPinValue_unclaimed_witness :
    (nativeRegistry (fun _ => 2469)
        [{ virtualPin := 100, name := "t", valueLow := 0, value20mA := 100 }]).readPinValue
        zeroPlatform 100 [] = ({ adcValue := 0, mA := 0, value := 0 }, []) :=
  readPinValue_unclaimed zeroPlatform _ 100 [] (by
    intro p hp
    have hp2 : p = SensorVirtualPinNative (loggedRead fun _ => 2469) := by
      simpa [nativeRegistry, Sensor_4_20mA.withConfig, Sensor_4_20mA.withNativeADC,
        Sensor_4_20mA.new] using hp
    subst hp2
    decide)

/-- C5: `readPin` returns what the first provider in insertion order that claims the pin
reads, with the device state that this single read leaves, and returns 0 with the device
untouched if no provider claims the pin. -/
theorem readPin_first_provider (reg : Sensor_4_20mA σ) (pin : Int) (s : σ) :
    reg.readPin pin s =
      match reg.virtualPins.find? (fun p => p.isInRange pin) with
      | some p => p.readPin pin s
      | none => (0, s) := by
  unfold Sensor_4_20mA.readPin
  induction reg.virtualPins with
  | nil => rfl
  | cons q rest ih =>
    by_cases hq : q.isInRange pin = true
    · simp [readPinLoop, List.find?_cons, hq]
    · have hq2 : q.isInRange pin = false := by simpa using hq
      simp [readPinLoop, List.find?_cons, hq2, ih]

/-- C6 fails where the `int` of `convert_mA` has more than 24 bits, because it is stored in
the `float` member `mA`: a provider with the codes 0 and 16 that reads 16777213 on pin 0,
with a config array that has a record for pin 1 only, has `convert_mA` = 16777217, and
`readPinValue` returns `mA` = `value` = 16777216. -/
theorem readPinValue_without_record_counterexample :
    (customRegistry 0 16 (fun _ => 16777213) [{ virtualPin := 1, name := "t" }]).virtualPins.find?
        (fun p => p.isInRange 0) = some (customProvider 0 16 (fun _ => 16777213)) ∧
      (customProvider 0 16 (fun _ => 16777213)).convert_mA x86Platform
        ((customProvider 0 16 (fun _ => 16777213)).readPin 0 []).1 = 16777217 ∧
      ((customRegistry 0 16 (fun _ => 16777213) [{ virtualPin := 1, name := "t" }]).readPinValue
        x86Platform 0 []).1.mA = Fp.num 16777216 ∧
      ((customRegistry 0 16 (fun _ => 16777213) [{ virtualPin := 1, name := "t" }]).readPinValue
        x86Platform 0 []).1.value = Fp.num 16777216 ∧
      ((customRegistry 0 16 (fun _ => 16777213) [{ virtualPin := 1, name := "t" }]).readPinValue
        x86Platform 0 []).1.mA ≠
        Fp.num (((customProvider 0 16 (fun _ => 16777213)).convert_mA x86Platform
          ((customProvider 0 16 (fun _ => 16777213)).readPin 0 []).1 : Int) : ℚ) := by
  have hconv : (customProvider 0 16 (fun _ => 16777213)).convert_mA x86Platform 16777213
      = 16777217 := by
    rw [convert_mA_of_small x86Platform _ _ (by simp [customProvider, wrapInt32])
      (by simp [customProvider, wrapInt32])]
    norm_num [customProvider, wrapInt32, truncToInt]
  have hread : ((customProvider 0 16 (fun _ => 16777213)).readPin 0 []).1 = 16777213 := rfl
  have hmA : ((customRegistry 0 16 (fun _ => 16777213)
      [{ virtualPin := 1, name := "t" }]).readPinValue x86Platform 0 []).1.mA
      = Fp.num 16777216 := by
    rw [(customRegistry_reading x86Platform 0 16 _ _).2.1, hconv]
    exact round32_16777217.1
  have hval := value_without_record x86Platform
    (customRegistry 0 16 (fun _ => 16777213) [{ virtualPin := 1, name := "t" }]) 0 []
    _ (customRegistry_find 0 16 _ _) (Or.inr ⟨_, rfl, by simp⟩)
  refine ⟨customRegistry_find 0 16 _ _, by rw [hread, hconv], hmA, hval.trans hmA, ?_⟩
  rw [hmA, hread, hconv]
  intro h
  have := Fp.num.inj h
  norm_num at this

/-- C6, amended: for a claimed pin, when no config array is set or no record of it has
`virtualPin == pin`, the `value` of `readPinValue` equals its `mA`, which is the `float`
nearest to the `int` that `convert_mA` of the first provider claiming the pin returns for the
code that provider read; it is that `int` itself when the `int` has at most 24 bits. -/
theorem readPinValue_without_record (pf : Platform) (reg : Sensor_4_20mA σ) (pin : Int)
    (s : σ) (p : SensorVirtualPinBase σ)
    (hp : reg.virtualPins.find? (fun p => p.isInRange pin) = some p)
    (hcfg : reg.config = none ∨
      ∃ records, reg.config = some records ∧ ∀ c ∈ records, c.virtualPin ≠ pin) :
    (reg.readPinValue pf pin s).1.value = (reg.readPinValue pf pin s).1.mA ∧
      (reg.readPinValue pf pin s).1.mA = intToFloat (p.convert_mA pf (p.readPin pin s).1) ∧
      (|p.convert_mA pf (p.readPin pin s).1| ≤ 16777216 →
        (reg.readPinValue pf pin s).1.mA =
          Fp.num ((p.convert_mA pf (p.readPin pin s).1 : Int) : ℚ)) := by
  have hm := (readPinValue_reading pf reg pin s p hp).2.1
  exact ⟨value_without_record pf reg pin s p hp hcfg, hm,
    fun hsmall => hm.trans (intToFloat_small _ hsmall)⟩

/-- C6, amended, on the native provider reading 1480 on pin 0, with a config array that has a
record for pin 1 only: value and mA are both 12. -/
theorem readPinValue_without_record_witness :
    ((nativeRegistry (fun _ => 1480)
        [{ virtualPin := 1, name := "t", valueLow := 0, value20mA := 100 }]).readPinValue
        zeroPlatform 0 []).1.value = 12 ∧
      ((nativeRegistry (fun _ => 1480)
        [{ virtualPin := 1, name := "t", valueLow := 0, value20mA := 100 }]).readPinValue
        zeroPlatform 0 []).1.mA = 12 := by
  have h := readPinValue_without_record zeroPlatform
    (nativeRegistry (fun _ => 1480)
      [{ virtualPin := 1, name := "t", valueLow := 0, value20mA := 100 }]) 0 []
    (SensorVirtualPinNative (loggedRead fun _ => 1480))
    (by simp [nativeRegistry, Sensor_4_20mA.withConfig, Sensor_4_20mA.withNativeADC,
      Sensor_4_20mA.new, List.find?_cons, SensorVirtualPinBase.isInRange,
      SensorVirtualPinNative])
    (Or.inr ⟨_, rfl, by simp⟩)
  have hm := (nativeRegistry_mA zeroPlatform
    [{ virtualPin := 1, name := "t", valueLow := 0, value20mA := 100 }]).2.2.1
  exact ⟨h.1.trans hm, hm⟩

/-- C7: for a claimed pin whose first config record keeps the default scaling members
(`valueLow = 4`, `value20mA = 20`, `valueLowIs4mA = true`, `offset = 0`, `multiplier = 1`),
the `value` of `readPinValue` equals its `mA`, whatever is read. -/
theorem readPinValue_default_record (pf : Platform) (reg : Sensor_4_20mA σ) (pin : Int)
    (s : σ) (records : List SensorConfig) (c : SensorConfig)
    (hpin : ∃ p ∈ reg.virtualPins, p.isInRange pin = true)
    (hcfg : reg.config = some records)
    (hc : records.find? (fun c => c.virtualPin == pin) = some c)
    (hlow : c.valueLow = 4) (hhigh : c.value20mA = 20) (hflag : c.valueLowIs4mA = true)
    (hoff : c.offset = 0) (hmul : c.multiplier = 1) :
    (reg.readPinValue pf pin s).1.value = (reg.readPinValue pf pin s).1.mA := by
  obtain ⟨p, hp⟩ := exists_find_of_claimed pin reg.virtualPins hpin
  have hm := (readPinValue_reading pf reg pin s p hp).2.1
  obtain ⟨h1, h2⟩ := convert_mA_range pf p (p.readPin pin s).1
  obtain ⟨m, hround, _, hm1, hm2, _⟩ := intToFloat_spec _ h1 h2
  have hmA : (reg.readPinValue pf pin s).1.mA = Fp.num m := hm.trans hround
  have hrep : binary32.Rep (m : ℚ) := binary32.rep_of_round binary32_prec hround
  rw [value_of_matching_record pf reg pin s records c hpin hcfg hc, hmA, hflag, hlow, hhigh,
    hoff, hmul, if_pos rfl, scale_default m hrep hm1 hm2, offset_zero_multiplier_one hrep]

/-- C7 on the registry of `more-examples/1-ADS1015` with the record `{ 100, "sen1" }`, channel
0 reading 700: value and mA coincide. -/
theorem readPinValue_default_record_witness :
    ((ads1015Registry (fun _ => 700) [{ virtualPin := 100, name := "sen1" }]).readPinValue
        zeroPlatform 100 []).1.value =
      ((ads1015Registry (fun _ => 700) [{ virtualPin := 100, name := "sen1" }]).readPinValue
        zeroPlatform 100 []).1.mA :=
  readPinValue_default_record zeroPlatform
    (ads1015Registry (fun _ => 700) [{ virtualPin := 100, name := "sen1" }]) 100 []
    [{ virtualPin := 100, name := "sen1" }] { virtualPin := 100, name := "sen1" }
    ⟨SensorVirtualPinADS1015 (loggedADS1015 fun _ => 700) 100, by
      simp [ads1015Registry, Sensor_4_20mA.withConfig, Sensor_4_20mA.withADS1015,
        Sensor_4_20mA.new], by decide⟩
    rfl rfl rfl rfl rfl rfl rfl

/-- C8 fails for fields whose `float` difference is rounded: on the native provider reading
2469 on pin 0 (20 mA) with the record `{ 0, "t", -1, 1.6f }` (1.6f is 13421773 / 2 ^ 23),
`value20mA - valueLow` is rounded down to 5452595 / 2 ^ 21 and the value is
3355443 / 2 ^ 21 = 1.5999999046..., not `value20mA`. -/
theorem readPinValue_low_is_4mA_counterexample :
    binary32.Rep (13421773 / 8388608) ∧
      ((nativeRegistry (fun _ => 2469)
        [{ virtualPin := 0, name := "t", valueLow := Fp.num (-1),
            value20mA := Fp.num (13421773 / 8388608) }]).readPinValue x86Platform 0 []).1.mA
        = 20 ∧
      ((nativeRegistry (fun _ => 2469)
        [{ virtualPin := 0, name := "t", valueLow := Fp.num (-1),
            value20mA := Fp.num (13421773 / 8388608) }]).readPinValue x86Platform 0 []).1.value
        = Fp.num (3355443 / 2097152) ∧
      Fp.num (3355443 / 2097152) ≠ Fp.num (13421773 / 8388608) := by
  have hm := (nativeRegistry_mA x86Platform
    [{ virtualPin := 0, name := "t", valueLow := Fp.num (-1),
        value20mA := Fp.num (13421773 / 8388608) }]).2.1
  have hv := value_of_matching_record x86Platform
    (nativeRegistry (fun _ => 2469)
      [{ virtualPin := 0, name := "t", valueLow := Fp.num (-1),
          value20mA := Fp.num (13421773 / 8388608) }]) 0 []
    [{ virtualPin := 0, name := "t", valueLow := Fp.num (-1),
        value20mA := Fp.num (13421773 / 8388608) }]
    { virtualPin := 0, name := "t", valueLow := Fp.num (-1),
      value20mA := Fp.num (13421773 / 8388608) }
    (nativeRegistry_claims _ _) rfl rfl
  have hsub : binary32.round (13421773 / 8388608 - -1) = Fp.num (5452595 / 2097152) := by
    have h := (binary32.round_eval (q := 21810381 / 8388608) 1 (by norm_num) (by norm_num)
      (by decide) (r := 5452595 / 2097152) (by norm_num [binary32, roundHalfEven])
      (by norm_num [binary32])).1
    norm_num at h ⊢
    exact h
  have hsum : binary64.Rep (5452595 / 2097152 + -1) :=
    ⟨3355443, -21, by norm_num, by norm_num [binary64], by simp [binary64],
      by norm_num [binary64, abs_of_pos]⟩
  have hres : binary32.Rep (3355443 / 2097152) :=
    ⟨3355443, -21, by norm_num, by norm_num [binary32], by simp [binary32],
      by norm_num [binary32, abs_of_pos]⟩
  have hscale := scale_4mA_at_20 hsub hsum
  have e : (5452595 / 2097152 + -1 : ℚ) = 3355443 / 2097152 := by norm_num
  rw [e, round32_rep hres] at hscale
  refine ⟨⟨13421773, -23, by norm_num, by norm_num [binary32], by simp [binary32],
    by norm_num [binary32, abs_of_pos]⟩, hm, ?_, ?_⟩
  · rw [hv, hm, if_pos rfl, hscale]
    exact offset_zero_multiplier_one hres
  · intro h
    have := Fp.num.inj h
    norm_num at this

/-- C8, amended: for a claimed pin whose first config record has `valueLowIs4mA = true`,
`offset = 0` and `multiplier = 1`, and whose `valueLow` and `value20mA` are finite floats,
`readPinValue` yields `value = valueLow` when its `mA` is 4 and the `float` difference
`value20mA - valueLow` is finite, and `value = value20mA` when its `mA` is 20 and that `float`
difference is exact. -/
theorem readPinValue_low_is_4mA (pf : Platform) (reg : Sensor_4_20mA σ) (pin : Int) (s : σ)
    (records : List SensorConfig) (c : SensorConfig) (lo hi : ℚ)
    (hpin : ∃ p ∈ reg.virtualPins, p.isInRange pin = true)
    (hcfg : reg.config = some records)
    (hc : records.find? (fun c => c.virtualPin == pin) = some c)
    (hflag : c.valueLowIs4mA = true) (hoff : c.offset = 0) (hmul : c.multiplier = 1)
    (hlow : c.valueLow = Fp.num lo) (hhigh : c.value20mA = Fp.num hi)
    (hlo : binary32.Rep lo) (hhi : binary32.Rep hi) :
    ((reg.readPinValue pf pin s).1.mA = 4 →
        (∃ d : ℚ, Fp.subF c.value20mA c.valueLow = Fp.num d) →
        (reg.readPinValue pf pin s).1.value = c.valueLow) ∧
      ((reg.readPinValue pf pin s).1.mA = 20 → binary32.Rep (hi - lo) →
        (reg.readPinValue pf pin s).1.value = c.value20mA) :=
  ⟨fun hm hfin => value_4mA_at_4 pf reg pin s records c lo hi hpin hcfg hc hflag hoff hmul
      hlow hhigh hlo hm hfin,
    fun hm hd => (value_4mA_ends pf reg pin s records c lo hi hpin hcfg hc hflag hoff hmul
      hlow hhigh hlo hhi hd).2 hm⟩

/-- C8, amended, on the native provider with the record `{ 0, "t", 0, 100 }`: the code 491
(4 mA) gives the value 0 and the code 2469 (20 mA) gives the value 100. -/
theorem readPinValue_low_is_4mA_witness :
    ((nativeRegistry (fun _ => 491)
        [{ virtualPin := 0, name := "t", valueLow := 0, value20mA := 100 }]).readPinValue
        zeroPlatform 0 []).1.value = 0 ∧
      ((nativeRegistry (fun _ => 2469)
        [{ virtualPin := 0, name := "t", valueLow := 0, value20mA := 100 }]).readPinValue
        zeroPlatform 0 []).1.value = 100 := by
  have hd : binary32.Rep ((100 : ℚ) - 0) := by simpa using rep32_lit.2.2.1
  have h4 := (readPinValue_low_is_4mA zeroPlatform
    (nativeRegistry (fun _ => 491)
      [{ virtualPin := 0, name := "t", valueLow := 0, value20mA := 100 }]) 0 []
    [{ virtualPin := 0, name := "t", valueLow := 0, value20mA := 100 }]
    { virtualPin := 0, name := "t", valueLow := 0, value20mA := 100 } 0 100
    (nativeRegistry_claims _ _) rfl rfl rfl rfl rfl rfl rfl rep32_zero rep32_lit.2.2.1).1
  have h20 := (readPinValue_low_is_4mA zeroPlatform
    (nativeRegistry (fun _ => 2469)
      [{ virtualPin := 0, name := "t", valueLow := 0, value20mA := 100 }]) 0 []
    [{ virtualPin := 0, name := "t", valueLow := 0, value20mA := 100 }]
    { virtualPin := 0, name := "t", valueLow := 0, value20mA := 100 } 0 100
    (nativeRegistry_claims _ _) rfl rfl rfl rfl rfl rfl rfl rep32_zero rep32_lit.2.2.1).2
  exact ⟨h4 (nativeRegistry_mA zeroPlatform _).1
      ⟨100 - 0, (Fp.subF_num 100 0).trans (round32_rep hd)⟩,
    h20 (nativeRegistry_mA zeroPlatform _).2.1 hd⟩

/-- C9 fails for a `value20mA` whose `float` product with 20 is rounded: on the native
provider reading 2469 on pin 0 (20 mA) with the record `{ 0, "t", 0, 0.12f, false }` (0.12f is
16106127 / 2 ^ 27), the `float` product `mA * (value20mA - valueLow)` is 10066329 / 2 ^ 22 and
the value is 8053063 / 2 ^ 26 = 0.1199999898..., not `value20mA`. -/
theorem readPinValue_low_is_0mA_zero_counterexample :
    binary32.Rep (16106127 / 134217728) ∧
      ((nativeRegistry (fun _ => 2469)
        [{ virtualPin := 0, name := "t", valueLow := 0,
            value20mA := Fp.num (16106127 / 134217728),
            valueLowIs4mA := false }]).readPinValue x86Platform 0 []).1.mA = 20 ∧
      ((nativeRegistry (fun _ => 2469)
        [{ virtualPin := 0, name := "t", valueLow := 0,
            value20mA := Fp.num (16106127 / 134217728),
            valueLowIs4mA := false }]).readPinValue x86Platform 0 []).1.value
        = Fp.num (8053063 / 67108864) ∧
      Fp.num (8053063 / 67108864) ≠ Fp.num (16106127 / 134217728) := by
  have hm := (nativeRegistry_mA x86Platform
    [{ virtualPin := 0, name := "t", valueLow := 0,
        value20mA := Fp.num (16106127 / 134217728), valueLowIs4mA := false }]).2.1
  have hv := value_of_matching_record x86Platform
    (nativeRegistry (fun _ => 2469)
      [{ virtualPin := 0, name := "t", valueLow := 0,
          value20mA := Fp.num (16106127 / 134217728), valueLowIs4mA := false }]) 0 []
    [{ virtualPin := 0, name := "t", valueLow := 0,
        value20mA := Fp.num (16106127 / 134217728), valueLowIs4mA := false }]
    { virtualPin := 0, name := "t", valueLow := 0,
      value20mA := Fp.num (16106127 / 134217728), valueLowIs4mA := false }
    (nativeRegistry_claims _ _) rfl rfl
  have hhi : binary32.Rep (16106127 / 134217728) :=
    ⟨16106127, -27, by norm_num, by norm_num [binary32], by simp [binary32],
      by norm_num [binary32, abs_of_pos]⟩
  have hsub : binary32.round (16106127 / 134217728 - 0) = Fp.num (16106127 / 134217728) := by
    rw [sub_zero]
    exact round32_rep hhi
  have hmul : binary32.round (20 * (16106127 / 134217728)) = Fp.num (10066329 / 4194304) := by
    have h := (binary32.round_eval (q := 20 * (16106127 / 134217728)) 1 (by norm_num)
      (by norm_num) (by decide) (r := 10066329 / 4194304)
      (by norm_num [binary32, roundHalfEven]) (by norm_num [binary32])).1
    exact h
  have hdiv : binary64.round (10066329 / 4194304 / 20) =
      Fp.num (8646910769155277 / 72057594037927936) :=
    (binary64.round_eval (q := 10066329 / 4194304 / 20) (-4) (by norm_num) (by norm_num)
      (by decide) (r := 8646910769155277 / 72057594037927936)
      (by norm_num [binary64, roundHalfEven]) (by norm_num [binary64])).1
  have hflt : binary32.round (8646910769155277 / 72057594037927936) =
      Fp.num (8053063 / 67108864) :=
    (binary32.round_eval (q := 8646910769155277 / 72057594037927936) (-4) (by norm_num)
      (by norm_num) (by decide) (r := 8053063 / 67108864)
      (by norm_num [binary32, roundHalfEven]) (by norm_num [binary32])).1
  have hres : binary32.Rep (8053063 / 67108864) := binary32.rep_of_round binary32_prec hflt
  have hscale := scale_0mA_at_20 hsub hmul
  rw [hdiv, Fp.toFloat_num, hflt] at hscale
  refine ⟨hhi, hm, ?_, ?_⟩
  · rw [hv, hm, if_neg (by decide)]
    simp only [Fp.ofNat_eq, Nat.cast_ofNat, Nat.cast_zero, Nat.cast_one] at hscale ⊢
    rw [hscale]
    have := offset_zero_multiplier_one hres
    simpa only [Fp.ofNat_eq, Nat.cast_ofNat, Nat.cast_zero, Nat.cast_one] using this
  · intro h
    have := Fp.num.inj h
    norm_num at this

/-- C9, amended: for a claimed pin whose first config record has `valueLowIs4mA = false`,
`valueLow = 0`, `offset = 0` and `multiplier = 1` and a finite float `value20mA`,
`readPinValue` yields `value = 0` when its `mA` is 0, and `value = value20mA` when its `mA`
is 20 and the product `20 * value20mA` is a float, so that the `float` multiplication of the
code is exact. -/
theorem readPinValue_low_is_0mA_zero (pf : Platform) (reg : Sensor_4_20mA σ) (pin : Int)
    (s : σ) (records : List SensorConfig) (c : SensorConfig) (hi : ℚ)
    (hpin : ∃ p ∈ reg.virtualPins, p.isInRange pin = true)
    (hcfg : reg.config = some records)
    (hc : records.find? (fun c => c.virtualPin == pin) = some c)
    (hflag : c.valueLowIs4mA = false) (hlow : c.valueLow = 0) (hoff : c.offset = 0)
    (hmul : c.multiplier = 1) (hhigh : c.value20mA = Fp.num hi) (hhi : binary32.Rep hi) :
    ((reg.readPinValue pf pin s).1.mA = 0 → (reg.readPinValue pf pin s).1.value = 0) ∧
      ((reg.readPinValue pf pin s).1.mA = 20 → binary32.Rep (20 * hi) →
        (reg.readPinValue pf pin s).1.value = c.value20mA) := by
  have h := value_0mA_ends pf reg pin s records c 0 hi hpin hcfg hc hflag hoff hmul
    (by rw [hlow]; rfl) hhigh (by simpa using hhi)
  refine ⟨h.1, fun hm hrep => ?_⟩
  rw [h.2 hm (by simpa using hrep), hhigh, sub_zero]

/-- C9, amended, on the native provider with the record `{ 0, "t", 0, 100, false }`: the code
0 (0 mA) gives the value 0 and the code 2469 (20 mA) gives the value 100. -/
theorem readPinValue_low_is_0mA_zero_witness :
    ((nativeRegistry (fun _ => 0)
        [{ virtualPin := 0, name := "t", valueLow := 0, value20mA := 100,
            valueLowIs4mA := false }]).readPinValue zeroPlatform 0 []).1.value = 0 ∧
      ((nativeRegistry (fun _ => 2469)
        [{ virtualPin := 0, name := "t", valueLow := 0, value20mA := 100,
            valueLowIs4mA := false }]).readPinValue zeroPlatform 0 []).1.value = 100 := by
  have h0 := (readPinValue_low_is_0mA_zero zeroPlatform
    (nativeRegistry (fun _ => 0)
      [{ virtualPin := 0, name := "t", valueLow := 0, value20mA := 100,
          valueLowIs4mA := false }]) 0 []
    [{ virtualPin := 0, name := "t", valueLow := 0, value20mA := 100, valueLowIs4mA := false }]
    { virtualPin := 0, name := "t", valueLow := 0, value20mA := 100, valueLowIs4mA := false }
    100 (nativeRegistry_claims _ _) rfl rfl rfl rfl rfl rfl rfl rep32_lit.2.2.1).1
  have h20 := (readPinValue_low_is_0mA_zero zeroPlatform
    (nativeRegistry (fun _ => 2469)
      [{ virtualPin := 0, name := "t", valueLow := 0, value20mA := 100,
          valueLowIs4mA := false }]) 0 []
    [{ virtualPin := 0, name := "t", valueLow := 0, value20mA := 100, valueLowIs4mA := false }]
    { virtualPin := 0, name := "t", valueLow := 0, value20mA := 100, valueLowIs4mA := false }
    100 (nativeRegistry_claims _ _) rfl rfl rfl rfl rfl rfl rfl rep32_lit.2.2.1).2
  exact ⟨h0 (nativeRegistry_mA zeroPlatform _).2.2.2,
    h20 (nativeRegistry_mA zeroPlatform _).2.1 (by norm_num; exact rep32_lit.2.2.2.2)⟩

/-- C10: with `valueLowIs4mA = false` and a `valueLow` other than 0, `valueLow` is not the
value reported at 0 mA and `value20mA` is not the value reported at 20 mA. On the native
provider with the record `{ 0, "t", 10, 110, false }`, the code 0 gives `mA = 0` and
`value = 0`, not 10, and the code 2469 gives `mA = 20` and `value = 100`, not 110. -/
theorem readPinValue_low_is_0mA_drops_valueLow :
    ((nativeRegistry (fun _ => 0)
        [{ virtualPin := 0, name := "t", valueLow := 10, value20mA := 110,
            valueLowIs4mA := false }]).readPinValue zeroPlatform 0 []).1.mA = 0 ∧
      ((nativeRegistry (fun _ => 0)
        [{ virtualPin := 0, name := "t", valueLow := 10, value20mA := 110,
            valueLowIs4mA := false }]).readPinValue zeroPlatform 0 []).1.value = 0 ∧
      ((nativeRegistry (fun _ => 2469)
        [{ virtualPin := 0, name := "t", valueLow := 10, value20mA := 110,
            valueLowIs4mA := false }]).readPinValue zeroPlatform 0 []).1.mA = 20 ∧
      ((nativeRegistry (fun _ => 2469)
        [{ virtualPin := 0, name := "t", valueLow := 10, value20mA := 110,
            valueLowIs4mA := false }]).readPinValue zeroPlatform 0 []).1.value = 100 := by
  have hd : binary32.Rep ((110 : ℚ) - 10) := by norm_num; exact rep32_lit.2.2.1
  have h0 := (value_0mA_ends zeroPlatform
    (nativeRegistry (fun _ => 0)
      [{ virtualPin := 0, name := "t", valueLow := 10, value20mA := 110,
          valueLowIs4mA := false }]) 0 []
    [{ virtualPin := 0, name := "t", valueLow := 10, value20mA := 110, valueLowIs4mA := false }]
    { virtualPin := 0, name := "t", valueLow := 10, value20mA := 110, valueLowIs4mA := false }
    10 110 (nativeRegistry_claims _ _) rfl rfl rfl rfl rfl rfl rfl hd).1
  have h20 := (value_0mA_ends zeroPlatform
    (nativeRegistry (fun _ => 2469)
      [{ virtualPin := 0, name := "t", valueLow := 10, value20mA := 110,
          valueLowIs4mA := false }]) 0 []
    [{ virtualPin := 0, name := "t", valueLow := 10, value20mA := 110, valueLowIs4mA := false }]
    { virtualPin := 0, name := "t", valueLow := 10, value20mA := 110, valueLowIs4mA := false }
    10 110 (nativeRegistry_claims _ _) rfl rfl rfl rfl rfl rfl rfl hd).2
  have hm0 := (nativeRegistry_mA zeroPlatform
    [{ virtualPin := 0, name := "t", valueLow := 10, value20mA := 110,
        valueLowIs4mA := false }]).2.2.2
  have hm20 := (nativeRegistry_mA zeroPlatform
    [{ virtualPin := 0, name := "t", valueLow := 10, value20mA := 110,
        valueLowIs4mA := false }]).2.1
  refine ⟨hm0, h0 hm0, hm20, ?_⟩
  rw [h20 hm20 (by norm_num; exact rep32_lit.2.2.2.2)]
  simp only [Fp.ofNat_eq, Nat.cast_ofNat]
  norm_num

/-! Lemmas on the record scan and the order of records -/

/-- The scan stops at the first record for the pin: what follows it in the array is never
looked at. -/
theorem applyConfig_stops_at_first (pin : Int) (result : SensorValue)
    (pre post post2 : List SensorConfig) (c : SensorConfig)
    (hpre : ∀ d ∈ pre, d.virtualPin ≠ pin) (hc : c.virtualPin = pin) :
    applyConfig pin result (pre ++ c :: post) = applyConfig pin result (pre ++ c :: post2) := by
  induction pre with
  | nil => simp [applyConfig, hc]
  | cons d rest ih =>
    have hd : d.virtualPin ≠ pin := hpre d (List.mem_cons_self _ _)
    have hrest : ∀ e ∈ rest, e.virtualPin ≠ pin :=
      fun e he => hpre e (List.mem_cons_of_mem _ he)
    simp [applyConfig, hd, ih hrest]

/-- Two config arrays that scale every reading of the pin alike give the same
`readPinValue`. -/
theorem readPinValueLoop_congr (pf : Platform) (pin : Int) (records records2 : List SensorConfig)
    (h : ∀ result, applyConfig pin result records = applyConfig pin result records2)
    (ps : List (SensorVirtualPinBase σ)) (s : σ) :
    readPinValueLoop pf (some records) pin ps s = readPinValueLoop pf (some records2) pin ps s := by
  induction ps with
  | nil => rfl
  | cons q rest ih =>
    by_cases hq : q.isInRange pin = true
    · simp [readPinValueLoop, hq, h]
    · have hq2 : q.isInRange pin = false := by simpa using hq
      simp [readPinValueLoop, hq2, ih]

/-- C11: with several records for the same pin, `readPinValue` scales with the first of them
in array order only: the records after it can be replaced, added or removed at will (here
the whole rest `post` of the array becomes any `post2`) without changing the result or the
device state. -/
theorem readPinValue_first_record_wins (pf : Platform) (ps : List (SensorVirtualPinBase σ))
    (pin : Int) (s : σ) (pre post post2 : List SensorConfig) (c : SensorConfig)
    (hpre : ∀ d ∈ pre, d.virtualPin ≠ pin) (hc : c.virtualPin = pin) :
    Sensor_4_20mA.readPinValue pf { virtualPins := ps, config := some (pre ++ c :: post) } pin s =
      Sensor_4_20mA.readPinValue pf { virtualPins := ps, config := some (pre ++ c :: post2) }
        pin s :=
  readPinValueLoop_congr pf pin _ _
    (fun result => applyConfig_stops_at_first pin result pre post post2 c hpre hc) ps s

/-- C11 on the native provider reading 2469 on pin 0: the records
`{ 0, "a", 0, 100 }`, `{ 0, "b", 0, 50 }` give the same result as `{ 0, "a", 0, 100 }` alone,
with the value 100 of the first record. -/
theorem readPinValue_first_record_wins_witness :
    Sensor_4_20mA.readPinValue zeroPlatform
        { virtualPins := [SensorVirtualPinNative (loggedRead fun _ => 2469)],
          config := some [{ virtualPin := 0, name := "a", valueLow := 0, value20mA := 100 },
            { virtualPin := 0, name := "b", valueLow := 0, value20mA := 50 }] } 0 [] =
      Sensor_4_20mA.readPinValue zeroPlatform
        { virtualPins := [SensorVirtualPinNative (loggedRead fun _ => 2469)],
          config := some [{ virtualPin := 0, name := "a", valueLow := 0, value20mA := 100 }] }
        0 [] ∧
      (Sensor_4_20mA.readPinValue zeroPlatform
        { virtualPins := [SensorVirtualPinNative (loggedRead fun _ => 2469)],
          config := some [{ virtualPin := 0, name := "a", valueLow := 0, value20mA := 100 },
            { virtualPin := 0, name := "b", valueLow := 0, value20mA := 50 }] } 0 []).1.value
        = 100 := by
  have h := readPinValue_first_record_wins zeroPlatform
    [SensorVirtualPinNative (loggedRead fun _ => 2469)] 0 [] []
    [{ virtualPin := 0, name := "b", valueLow := 0, value20mA := 50 }] []
    { virtualPin := 0, name := "a", valueLow := 0, value20mA := 100 }
    (by simp) rfl
  refine ⟨h, ?_⟩
  have hv := (value_4mA_ends zeroPlatform
    (nativeRegistry (fun _ => 2469)
      [{ virtualPin := 0, name := "a", valueLow := 0, value20mA := 100 }]) 0 []
    [{ virtualPin := 0, name := "a", valueLow := 0, value20mA := 100 }]
    { virtualPin := 0, name := "a", valueLow := 0, value20mA := 100 } 0 100
    (nativeRegistry_claims _ _) rfl rfl rfl rfl rfl rfl rfl rep32_zero rep32_lit.2.2.1
    (by simpa using rep32_lit.2.2.1)).2 (nativeRegistry_mA zeroPlatform _).2.1
  have hreg : nativeRegistry (fun _ => 2469)
      [{ virtualPin := 0, name := "a", valueLow := 0, value20mA := 100 }] =
      { virtualPins := [SensorVirtualPinNative (loggedRead fun _ => 2469)],
        config := some [{ virtualPin := 0, name := "a", valueLow := 0, value20mA := 100 }] } :=
    rfl
  rw [hreg] at hv
  simp only [List.nil_append] at h
  rw [h, hv]

/-! Lemmas on the loop of `init` -/

theorem initLoop_cons (q : SensorVirtualPinBase σ) (rest : List (SensorVirtualPinBase σ))
    (s : σ) :
    initLoop (q :: rest) s =
      if (q.init s).1 = true then initLoop rest (q.init s).2 else (false, (q.init s).2) := by
  cases h : (q.init s).1 <;> simp [initLoop, h]

theorem initCalledOn_cons (q : SensorVirtualPinBase σ) (rest : List (SensorVirtualPinBase σ))
    (s : σ) : initCalledOn (q :: rest) s = initCalledOn rest (q.init s).2 := rfl

theorem initCalledOn_append (ps qs : List (SensorVirtualPinBase σ)) (s : σ) :
    initCalledOn (ps ++ qs) s = initCalledOn qs (initCalledOn ps s) := by
  simp [initCalledOn, List.foldl_append]

/-- The loop returns true exactly when each provider's `init`, called after those before it,
returns true. -/
theorem initLoop_true_iff (ps : List (SensorVirtualPinBase σ)) (s : σ) :
    (initLoop ps s).1 = true ↔
      ∀ pre p post, ps = pre ++ p :: post → (p.init (initCalledOn pre s)).1 = true := by
  induction ps generalizing s with
  | nil =>
    constructor
    · intro _ pre p post h
      simp at h
    · intro _
      rfl
  | cons q rest ih =>
    rw [initLoop_cons]
    constructor
    · intro h pre p post hdec
      by_cases hq : (q.init s).1 = true
      · rw [if_pos hq] at h
        cases pre with
        | nil =>
          simp only [List.nil_append, List.cons.injEq] at hdec
          rw [← hdec.1]
          exact hq
        | cons a pre2 =>
          simp only [List.cons_append, List.cons.injEq] at hdec
          rw [← hdec.1, initCalledOn_cons]
          exact (ih (q.init s).2).mp h pre2 p post hdec.2
      · rw [if_neg hq] at h
        simp at h
    · intro h
      have hq : (q.init s).1 = true := h [] q rest rfl
      rw [if_pos hq]
      refine (ih (q.init s).2).mpr ?_
      intro pre p post hdec
      have := h (q :: pre) p post (by rw [hdec]; rfl)
      rwa [initCalledOn_cons] at this

/-- When the loop returns true, `init` has been called on every provider. -/
theorem initLoop_true_state (ps : List (SensorVirtualPinBase σ)) (s : σ)
    (h : (initLoop ps s).1 = true) : (initLoop ps s).2 = initCalledOn ps s := by
  induction ps generalizing s with
  | nil => rfl
  | cons q rest ih =>
    rw [initLoop_cons] at h ⊢
    by_cases hq : (q.init s).1 = true
    · rw [if_pos hq] at h ⊢
      rw [initCalledOn_cons]
      exact ih _ h
    · rw [if_neg hq] at h
      simp at h

/-- When a provider fails after all those before it succeeded, the loop ends there. -/
theorem initLoop_first_failure (pre post : List (SensorVirtualPinBase σ))
    (p : SensorVirtualPinBase σ) (s : σ)
    (hpre : (initLoop pre s).1 = true)
    (hp : (p.init (initCalledOn pre s)).1 = false) :
    initLoop (pre ++ p :: post) s = (false, initCalledOn (pre ++ [p]) s) := by
  induction pre generalizing s with
  | nil =>
    simp only [List.nil_append, initLoop_cons]
    have hp2 : (p.init s).1 = false := hp
    simp [hp2, initCalledOn]
  | cons q rest ih =>
    rw [initLoop_cons] at hpre
    by_cases hq : (q.init s).1 = true
    · rw [if_pos hq] at hpre
      rw [List.cons_append, initLoop_cons, if_pos hq, List.cons_append, initCalledOn_cons]
      exact ih _ hpre (by rwa [initCalledOn_cons] at hp)
    · rw [if_neg hq] at hpre
      simp at hpre

/-- C12: `Sensor_4_20mA::init` returns true if and only if the `init` of every provider,
called in insertion order, returns true (so it returns true for no provider at all, touching
nothing); when it returns true `init` has been called on all providers in order; and when
the provider `p` is the first to fail, the result is false and `init` has been called
exactly on the providers before `p` and on `p`, in order, and on none after it. -/
theorem init_all_or_first_failure (reg : Sensor_4_20mA σ) (s : σ) :
    ((reg.init s).1 = true ↔
        ∀ pre p post, reg.virtualPins = pre ++ p :: post →
          (p.init (initCalledOn pre s)).1 = true) ∧
      (reg.virtualPins = [] → reg.init s = (true, s)) ∧
      ((reg.init s).1 = true → (reg.init s).2 = initCalledOn reg.virtualPins s) ∧
      (∀ pre p post, reg.virtualPins = pre ++ p :: post →
        (∀ pre1 q post1, pre = pre1 ++ q :: post1 →
          (q.init (initCalledOn pre1 s)).1 = true) →
        (p.init (initCalledOn pre s)).1 = false →
        reg.init s = (false, initCalledOn (pre ++ [p]) s)) := by
  refine ⟨initLoop_true_iff reg.virtualPins s, ?_, initLoop_true_state reg.virtualPins s, ?_⟩
  · intro h
    simp [Sensor_4_20mA.init, h, initLoop]
  · intro pre p post hdec hpre hp
    unfold Sensor_4_20mA.init
    rw [hdec]
    exact initLoop_first_failure pre post p s ((initLoop_true_iff pre s).mpr hpre) hp

/-- C12 on three external converters at pins 100, 104 and 108 whose start-up logs the
addresses 72, 73 and 74, the second failing: `init` returns false and the log holds 72 and
73 only. -/
theorem init_all_or_first_failure_witness :
    Sensor_4_20mA.init
        { virtualPins := [SensorVirtualPinADS1015 (probedADS1015 72 true) 100,
            SensorVirtualPinADS1015 (probedADS1015 73 false) 104,
            SensorVirtualPinADS1015 (probedADS1015 74 true) 108],
          config := none } [] = (false, [72, 73]) :=
  (init_all_or_first_failure
      { virtualPins := [SensorVirtualPinADS1015 (probedADS1015 72 true) 100,
          SensorVirtualPinADS1015 (probedADS1015 73 false) 104,
          SensorVirtualPinADS1015 (probedADS1015 74 true) 108],
        config := none } []).2.2.2
    [SensorVirtualPinADS1015 (probedADS1015 72 true) 100]
    (SensorVirtualPinADS1015 (probedADS1015 73 false) 104)
    [SensorVirtualPinADS1015 (probedADS1015 74 true) 108] rfl
    (by
      intro pre1 q post1 h
      cases pre1 with
      | nil =>
        simp only [List.nil_append, List.cons.injEq] at h
        rw [← h.1]
        rfl
      | cons a l =>
        simp at h)
    rfl

/-! Lemmas on the loop of `writeJSON` -/

/-- The loop appends to the writer the pair of every record whose value is a number, in
order, and reads the pin of every record. -/
theorem writeJSONLoop_eq (pf : Platform) (reg : Sensor_4_20mA σ) (records : List SensorConfig)
    (s : σ) (writer : List (String × Fp)) :
    writeJSONLoop pf reg records s writer =
      (readCalledOn pf reg records s, writer ++ namedValues pf reg records s) := by
  induction records generalizing s writer with
  | nil => simp [writeJSONLoop, readCalledOn, namedValues]
  | cons c rest ih =>
    by_cases h : isnan (reg.readPinValue pf c.virtualPin s).1.value = true
    · simp [writeJSONLoop, h, ih, readCalledOn, namedValues]
    · simp [writeJSONLoop, h, ih, readCalledOn, namedValues]

theorem readCalledOn_append (pf : Platform) (reg : Sensor_4_20mA σ)
    (pre post : List SensorConfig) (s : σ) :
    readCalledOn pf reg (pre ++ post) s = readCalledOn pf reg post (readCalledOn pf reg pre s) := by
  simp [readCalledOn, List.foldl_append]

/-- The pairs of an array are the pairs of its first part followed by the pairs of the rest,
read on the device that the reads of the first part leave. -/
theorem namedValues_append (pf : Platform) (reg : Sensor_4_20mA σ)
    (pre post : List SensorConfig) (s : σ) :
    namedValues pf reg (pre ++ post) s =
      namedValues pf reg pre s ++ namedValues pf reg post (readCalledOn pf reg pre s) := by
  induction pre generalizing s with
  | nil => simp [namedValues, readCalledOn]
  | cons d rest ih =>
    rw [List.cons_append]
    simp only [namedValues, List.append_assoc]
    rw [ih]
    rfl

/-- The names written are names of the array, in array order. -/
theorem namedValues_names_sublist (pf : Platform) (reg : Sensor_4_20mA σ)
    (records : List SensorConfig) (s : σ) :
    List.Sublist ((namedValues pf reg records s).map Prod.fst)
      (records.map (fun c => c.name)) := by
  induction records generalizing s with
  | nil => simp [namedValues]
  | cons c rest ih =>
    by_cases h : isnan (reg.readPinValue pf c.virtualPin s).1.value = true
    · simp only [namedValues, h, if_true, List.nil_append, List.map_cons]
      exact List.Sublist.cons _ (ih _)
    · simp only [namedValues, h, Bool.false_eq_true, if_false, List.singleton_append,
        List.map_cons]
      exact List.Sublist.cons₂ _ (ih _)

/-- When every value read is a number, the names written are the names of the array. -/
theorem namedValues_names_of_numbers (pf : Platform) (reg : Sensor_4_20mA σ)
    (records : List SensorConfig) (s : σ)
    (h : ∀ pre c post, records = pre ++ c :: post →
      isnan (reg.readPinValue pf c.virtualPin (readCalledOn pf reg pre s)).1.value = false) :
    (namedValues pf reg records s).map Prod.fst = records.map (fun c => c.name) := by
  induction records generalizing s with
  | nil => simp [namedValues]
  | cons c rest ih =>
    have h0 : isnan (reg.readPinValue pf c.virtualPin s).1.value = false := h [] c rest rfl
    have hrest := ih (reg.readPinValue pf c.virtualPin s).2
      (fun pre d post hd => h (c :: pre) d post (by rw [hd]; rfl))
    simp only [namedValues, h0, Bool.false_eq_true, if_false, List.singleton_append,
      List.map_cons, hrest]

/-- The pairs of an array that starts with the record `c`. -/
theorem namedValues_cons (pf : Platform) (reg : Sensor_4_20mA σ) (c : SensorConfig)
    (rest : List SensorConfig) (s : σ) :
    namedValues pf reg (c :: rest) s =
      (if isnan (reg.readPinValue pf c.virtualPin s).1.value then []
        else [(c.name, (reg.readPinValue pf c.virtualPin s).1.value)]) ++
        namedValues pf reg rest (reg.readPinValue pf c.virtualPin s).2 := rfl

theorem readCalledOn_cons (pf : Platform) (reg : Sensor_4_20mA σ) (c : SensorConfig)
    (rest : List SensorConfig) (s : σ) :
    readCalledOn pf reg (c :: rest) s =
      readCalledOn pf reg rest (reg.readPinValue pf c.virtualPin s).2 := rfl

/-- The value of a record of the 4 mA kind from the smallest to the largest finite `float`,
at 4 mA, is not a number: the `float` difference of the two fields is infinite, and its
product with the zero of `mA - 4.0` is not a number. -/
theorem scale_overflow_nan :
    Fp.mulF (Fp.addF (Fp.toFloat (Fp.addD (Fp.divD (Fp.mulD (Fp.subD 4 4)
      (Fp.subF (Fp.num 340282346638528859811704183484516925440)
        (Fp.num (-340282346638528859811704183484516925440)))) 16)
      (Fp.num (-340282346638528859811704183484516925440)))) 0) 1 = Fp.nan := by
  have z44 : Fp.subD 4 4 = Fp.num 0 := by
    have := round64_rep (rep64_int 0 (by norm_num))
    simp only [Fp.ofNat_eq, Fp.subD_num]
    norm_num at this ⊢
    exact this
  have hq : (340282346638528859811704183484516925440 -
      -340282346638528859811704183484516925440 : ℚ) =
      ((16777215 : ℤ) : ℚ) * (2 : ℚ) ^ (105 : ℤ) := by norm_num
  have hmag := binary32.roundMag_exact 16777215 105 (by norm_num) (by norm_num [binary32])
    (by simp [binary32])
  have hsub : Fp.subF (Fp.num 340282346638528859811704183484516925440)
      (Fp.num (-340282346638528859811704183484516925440)) = Fp.posInf := by
    have hraw : binary32.roundRaw (((16777215 : ℤ) : ℚ) * (2 : ℚ) ^ (105 : ℤ)) =
        ((16777215 : ℤ) : ℚ) * (2 : ℚ) ^ (105 : ℤ) := by
      unfold Format.roundRaw
      rw [if_neg (by norm_num), hmag]
    rw [Fp.subF_num, hq]
    unfold Format.round
    rw [hraw, if_pos (by norm_num [binary32, abs_of_pos]), if_pos (by norm_num)]
  rw [z44, hsub]
  simp [Fp.mulD, Fp.mul, Fp.divD, Fp.div, Fp.addD, Fp.addF, Fp.add, Fp.toFloat, Fp.mulF,
    Fp.ofNat_eq]

/-- On the example registry, the `mA` of a reading of a pin from 0 to 99 and the log after
it, from any log. -/
theorem nativeRegistry_mA_at (pf : Platform) (table : Int → Int)
    (config : List SensorConfig) (pin : Int) (log : List Int) (h0 : 0 ≤ pin) (h1 : pin < 100) :
    ((nativeRegistry table config).readPinValue pf pin log).1.mA =
        intToFloat ((SensorVirtualPinNative (loggedRead table)).convert_mA pf (table pin)) ∧
      ((nativeRegistry table config).readPinValue pf pin log).2 = log ++ [pin] := by
  rw [nativeRegistry_read_at pf table config pin log h0 h1]
  exact ⟨(applyConfig_keeps _ _ _).2, rfl⟩

/-- The native provider claims every pin from 0 to 99 on the example registry. -/
theorem nativeRegistry_claims_at (table : Int → Int) (config : List SensorConfig) (pin : Int)
    (h0 : 0 ≤ pin) (h1 : pin < 100) :
    ∃ p ∈ (nativeRegistry table config).virtualPins, p.isInRange pin = true :=
  ⟨SensorVirtualPinNative (loggedRead table), by
    simp [nativeRegistry, Sensor_4_20mA.withConfig, Sensor_4_20mA.withNativeADC,
      Sensor_4_20mA.new], by
    simp [SensorVirtualPinBase.isInRange, SensorVirtualPinNative, h0, h1]⟩

/-- C13: after `withConfig(config, n)`, `writeJSON` reads the pin of every config record in
array order and appends to the writer exactly the pairs `namedValues` and nothing else: for
each record, in array order, the pair of the record's name and the `value` of `readPinValue`
for the record's pin if that value is a number, and nothing if it is not a number (second
conjunct, with the array cut at any record). The names written are names of the array in
array order, and they are all the names of the array when every value is a number. A pin
that occurs in several records is read once per record. -/
theorem writeJSON_emits_in_order (pf : Platform) (reg : Sensor_4_20mA σ)
    (records : List SensorConfig) (s : σ) (writer : List (String × Fp)) :
    (reg.withConfig records).writeJSON pf s writer =
        (readCalledOn pf (reg.withConfig records) records s,
          writer ++ namedValues pf (reg.withConfig records) records s) ∧
      (∀ pre c post, records = pre ++ c :: post →
        namedValues pf (reg.withConfig records) records s =
          namedValues pf (reg.withConfig records) pre s ++
            (if isnan ((reg.withConfig records).readPinValue pf c.virtualPin
                (readCalledOn pf (reg.withConfig records) pre s)).1.value then []
              else [(c.name, ((reg.withConfig records).readPinValue pf c.virtualPin
                (readCalledOn pf (reg.withConfig records) pre s)).1.value)]) ++
            namedValues pf (reg.withConfig records) post
              (readCalledOn pf (reg.withConfig records) (pre ++ [c]) s)) ∧
      List.Sublist ((namedValues pf (reg.withConfig records) records s).map Prod.fst)
        (records.map (fun c => c.name)) ∧
      ((∀ pre c post, records = pre ++ c :: post →
          isnan ((reg.withConfig records).readPinValue pf c.virtualPin
            (readCalledOn pf (reg.withConfig records) pre s)).1.value = false) →
        (namedValues pf (reg.withConfig records) records s).map Prod.fst =
          records.map (fun c => c.name)) := by
  refine ⟨?_, ?_, namedValues_names_sublist pf _ records s,
    namedValues_names_of_numbers pf _ records s⟩
  · simp [Sensor_4_20mA.writeJSON, Sensor_4_20mA.withConfig, writeJSONLoop_eq]
  · intro pre c post h
    rw [h, namedValues_append, readCalledOn_append, List.append_assoc]
    rfl

/-- C13 on the native provider reading 491 (4 mA), with the records `{ 0, "a" }`,
`{ 1, "n", -FLT_MAX, FLT_MAX }` and `{ 0, "b", 0, 100 }`: the pins 0, 1, 0 are sampled in this
order; the pairs `("a", 4)` and `("b", 4)` are written in this order, both with the value that
`readPinValue(0)` scales with the first record for pin 0; the value of `"n"` is not a number
and no pair is written for it. -/
theorem writeJSON_emits_in_order_witness :
    (nativeRegistry (fun _ => 491)
        [{ virtualPin := 0, name := "a" },
          { virtualPin := 1, name := "n",
            valueLow := Fp.num (-340282346638528859811704183484516925440),
            value20mA := Fp.num 340282346638528859811704183484516925440 },
          { virtualPin := 0, name := "b", valueLow := 0, value20mA := 100 }]).writeJSON
        zeroPlatform [] [] = ([0, 1, 0], [("a", 4), ("b", 4)]) := by
  set recs : List SensorConfig :=
    [{ virtualPin := 0, name := "a" },
      { virtualPin := 1, name := "n",
        valueLow := Fp.num (-340282346638528859811704183484516925440),
        value20mA := Fp.num 340282346638528859811704183484516925440 },
      { virtualPin := 0, name := "b", valueLow := 0, value20mA := 100 }] with hrecs
  have h := (writeJSON_emits_in_order zeroPlatform
    (Sensor_4_20mA.new.withNativeADC (loggedRead fun _ => 491)) recs [] []).1
  have hreg : (Sensor_4_20mA.new.withNativeADC (loggedRead fun _ => 491)).withConfig recs =
      nativeRegistry (fun _ => 491) recs := rfl
  rw [hreg] at h
  have hmA : ∀ (pin : Int) (log : List Int), 0 ≤ pin → pin < 100 →
      ((nativeRegistry (fun _ => 491) recs).readPinValue zeroPlatform pin log).1.mA = 4 := by
    intro pin log h0 h1
    rw [(nativeRegistry_mA_at zeroPlatform _ _ pin log h0 h1).1,
      (native_conversions zeroPlatform _).1, intToFloat_lit.2.1]
  have hlog : ∀ (pin : Int) (log : List Int), 0 ≤ pin → pin < 100 →
      ((nativeRegistry (fun _ => 491) recs).readPinValue zeroPlatform pin log).2 =
        log ++ [pin] :=
    fun pin log h0 h1 => (nativeRegistry_mA_at zeroPlatform _ _ pin log h0 h1).2
  have hrep4 : binary32.Rep 4 := by simpa using rep32_int 4 (by norm_num)
  have hrep20 : binary32.Rep 20 := by simpa using rep32_int 20 (by norm_num)
  have hrep16 : binary32.Rep (20 - 4) := by
    have := rep32_int 16 (by norm_num)
    norm_num at this ⊢
    exact this
  have hv0 : ∀ log : List Int,
      ((nativeRegistry (fun _ => 491) recs).readPinValue zeroPlatform 0 log).1.value = 4 :=
    fun log => (value_4mA_ends zeroPlatform (nativeRegistry (fun _ => 491) recs) 0 log recs
      { virtualPin := 0, name := "a" } 4 20 (nativeRegistry_claims _ _) rfl rfl rfl rfl rfl
      rfl rfl hrep4 hrep20 hrep16).1 (hmA 0 log (by decide) (by decide))
  have hv1 : ∀ log : List Int,
      ((nativeRegistry (fun _ => 491) recs).readPinValue zeroPlatform 1 log).1.value =
        Fp.nan := by
    intro log
    rw [value_of_matching_record zeroPlatform (nativeRegistry (fun _ => 491) recs) 1 log recs
      { virtualPin := 1, name := "n",
        valueLow := Fp.num (-340282346638528859811704183484516925440),
        value20mA := Fp.num 340282346638528859811704183484516925440 }
      (nativeRegistry_claims_at _ _ 1 (by decide) (by decide)) rfl rfl,
      hmA 1 log (by decide) (by decide), if_pos rfl]
    exact scale_overflow_nan
  have hnum : isnan (4 : Fp) = false := rfl
  have hnan : isnan Fp.nan = true := rfl
  rw [h, hrecs, List.nil_append, namedValues_cons, namedValues_cons, namedValues_cons,
    readCalledOn_cons, readCalledOn_cons, readCalledOn_cons, ← hrecs]
  rw [hv0 [], hlog 0 [] (le_refl 0) (by decide), hv1, hlog 1 _ (by decide) (by decide), hv0,
    hlog 0 _ (le_refl 0) (by decide), hnum, hnan]
  rfl

/-! Lemmas on the order of conversions -/

/-- The `float` nearest to a number from 1 on exceeds it by at most one part in 2 ^ 24. -/
theorem roundRaw32_le_rel {q : ℚ} (hq : 1 ≤ q) :
    binary32.roundRaw q ≤ q * (1 + 1 / 16777216) := by
  have hpos : 0 < q := by linarith
  have herr := (abs_le.mp (binary32.roundMag_err q)).2
  have hlog : 0 ≤ Int.log 2 q :=
    (Int.zpow_le_iff_le_log (b := 2) (by norm_num) hpos).mp (by simpa using hq)
  have hmax : max (Int.log 2 q) binary32.emin = Int.log 2 q :=
    max_eq_left (le_trans (by decide) hlog)
  have hle : ((2 : ℕ) : ℚ) ^ Int.log 2 q ≤ q := Int.zpow_log_le_self (b := 2) (by norm_num) hpos
  have hulp : binary32.ulp q ≤ q / 8388608 := by
    unfold Format.ulp
    rw [hmax]
    have h23 : ((binary32.prec : ℤ) - 1) = 23 := by decide
    rw [h23, zpow_sub₀ (by norm_num : (2 : ℚ) ≠ 0)]
    have h2 : (2 : ℚ) ^ (23 : ℤ) = 8388608 := by norm_num
    rw [h2]
    have hle' : (2 : ℚ) ^ Int.log 2 q ≤ q := by simpa using hle
    exact div_le_div_of_nonneg_right hle' (by norm_num)
  unfold Format.roundRaw
  rw [if_neg (by linarith)]
  linarith

/-- The `float` nearest to an integer exceeds it in magnitude by at most one part in
2 ^ 24. -/
theorem roundRaw32_abs_le (n : ℤ) :
    |binary32.roundRaw (n : ℚ)| ≤ |(n : ℚ)| * (1 + 1 / 16777216) := by
  rcases lt_trichotomy n 0 with hneg | hzero | hpos
  · have h1 : (1 : ℚ) ≤ -(n : ℚ) := by
      have : (1 : ℤ) ≤ -n := by omega
      exact_mod_cast this
    have hrel := roundRaw32_le_rel h1
    have hmag : binary32.roundRaw (-(n : ℚ)) = binary32.roundMag (-(n : ℚ)) := by
      unfold Format.roundRaw
      rw [if_neg (by linarith)]
    have hraw : binary32.roundRaw (n : ℚ) = -binary32.roundMag (-(n : ℚ)) := by
      unfold Format.roundRaw
      rw [if_pos (by linarith)]
    have hnn := binary32.roundMag_nonneg (q := -(n : ℚ)) (by linarith)
    rw [hraw, abs_neg, abs_of_nonneg hnn, abs_of_neg (by linarith), ← hmag]
    exact hrel
  · rw [hzero]
    simp [binary32.roundRaw_exact rep32_zero]
  · have h1 : (1 : ℚ) ≤ (n : ℚ) := by exact_mod_cast (by omega : (1 : ℤ) ≤ n)
    have hrel := roundRaw32_le_rel h1
    have hnn : 0 ≤ binary32.roundRaw (n : ℚ) := by
      have h := binary32.roundRaw_mono binary32_prec (q := (0 : ℚ)) (r := (n : ℚ)) (by linarith)
      rwa [binary32.roundRaw_exact rep32_zero] at h
    rw [abs_of_nonneg hnn, abs_of_pos (by linarith)]
    exact hrel

/-- The value of `convert_mA` when the exact linear value has magnitude at most 2147483000:
the `double` fits an `int`, and the result is its whole part. -/
theorem convert_mA_fit (pf : Platform) (p : SensorVirtualPinBase σ) (raw : Int)
    (hd : wrapInt32 (p.adcValue20mA - p.adcValue4mA) ≠ 0)
    (hfit : 16 * |wrapInt32 (raw - p.adcValue4mA)| ≤
      2147483000 * |wrapInt32 (p.adcValue20mA - p.adcValue4mA)|) :
    p.convert_mA pf raw =
      truncToInt (binary32.roundRaw ((wrapInt32 (raw - p.adcValue4mA) : ℤ) : ℚ) * 16 /
        (wrapInt32 (p.adcValue20mA - p.adcValue4mA) : ℤ) + 4) := by
  obtain ⟨m, _, hraw, _, _, _, hconv⟩ := convert_mA_eq pf p raw hd
  have hb := roundRaw32_abs_le (wrapInt32 (raw - p.adcValue4mA))
  rw [hconv, hraw]
  rw [hraw] at hb
  generalize wrapInt32 (p.adcValue20mA - p.adcValue4mA) = d at hd hfit
  generalize wrapInt32 (raw - p.adcValue4mA) = x at hfit hb
  have hfitq : 16 * |(x : ℚ)| ≤ 2147483000 * |(d : ℚ)| := by exact_mod_cast hfit
  have hd1 : (1 : ℚ) ≤ |(d : ℚ)| := by
    have : (1 : ℤ) ≤ |d| := Int.one_le_abs hd
    exact_mod_cast this
  have hquot : |(m : ℚ) * 16 / d| ≤ 2147483200 := by
    rw [abs_div, abs_mul, div_le_iff₀ (by linarith)]
    have : |(16 : ℚ)| = 16 := abs_of_pos (by norm_num)
    rw [this]
    nlinarith [abs_nonneg (m : ℚ), abs_nonneg (x : ℚ)]
  have hq := abs_le.mp hquot
  have h1 : (-2147483196 : ℚ) ≤ (m : ℚ) * 16 / d + 4 := by linarith
  have h2 : (m : ℚ) * 16 / d + 4 ≤ 2147483204 := by linarith
  have ht1 : truncToInt ((-2147483196 : ℤ) : ℚ) ≤ truncToInt ((m : ℚ) * 16 / d + 4) :=
    truncToInt_mono (by push_cast; exact h1)
  have ht2 : truncToInt ((m : ℚ) * 16 / d + 4) ≤ truncToInt ((2147483204 : ℤ) : ℚ) :=
    truncToInt_mono (by push_cast; exact h2)
  rw [truncToInt_intCast] at ht1 ht2
  exact Fp.toInt_of_range pf (by omega) (by omega)

/-- C14 fails where the `double` does not fit the `int` that `convert_mA` returns: a provider
with the codes 0 and 1 converts the raw code 0 to 4 and the larger raw code 1073741824, whose
`double` is 17179869188, to the smallest `int` on a target that converts as x86 does. -/
theorem convert_mA_monotonic_counterexample :
    (customProvider 0 1 (fun _ => 0)).adcValue20mA > (customProvider 0 1 (fun _ => 0)).adcValue4mA ∧
      (0 : Int) ≤ 1073741824 ∧
      (customProvider 0 1 (fun _ => 0)).convert_mA x86Platform 0 = 4 ∧
      (customProvider 0 1 (fun _ => 0)).convert_mA x86Platform 1073741824 = -2147483648 ∧
      ¬ ((customProvider 0 1 (fun _ => 0)).convert_mA x86Platform 0 ≤
        (customProvider 0 1 (fun _ => 0)).convert_mA x86Platform 1073741824) := by
  have hd : wrapInt32 ((customProvider 0 1 (fun _ => 0)).adcValue20mA -
      (customProvider 0 1 (fun _ => 0)).adcValue4mA) ≠ 0 := by
    simp [customProvider, wrapInt32]
  have h0 : (customProvider 0 1 (fun _ => 0)).convert_mA x86Platform 0 = 4 := by
    rw [convert_mA_of_small x86Platform _ _ hd (by simp [customProvider, wrapInt32])]
    norm_num [customProvider, wrapInt32, truncToInt]
  have hbig : (customProvider 0 1 (fun _ => 0)).convert_mA x86Platform 1073741824
      = -2147483648 := by
    obtain ⟨m, hm, _, _, _, _, hconv⟩ :=
      convert_mA_eq x86Platform (customProvider 0 1 (fun _ => 0)) 1073741824 hd
    have hx : wrapInt32 (1073741824 - (customProvider 0 1 (fun _ => 0)).adcValue4mA)
        = 1073741824 := by simp [customProvider, wrapInt32]
    have hdv : wrapInt32 ((customProvider 0 1 (fun _ => 0)).adcValue20mA -
        (customProvider 0 1 (fun _ => 0)).adcValue4mA) = 1 := by
      simp [customProvider, wrapInt32]
    rw [hx] at hm
    rw [hconv, hdv]
    have hrep : binary32.Rep ((1073741824 : ℤ) : ℚ) :=
      ⟨1, 30, by norm_num, by norm_num [binary32], by simp [binary32],
        by norm_num [binary32, abs_of_pos]⟩
    have hm2 : intToFloat 1073741824 = Fp.num ((1073741824 : ℤ) : ℚ) := round32_rep hrep
    have hmv : (m : ℚ) = ((1073741824 : ℤ) : ℚ) := Fp.num.inj (hm.symm.trans hm2)
    rw [hmv]
    norm_num [Fp.toInt, truncToInt, x86Platform, wrapInt32]
  refine ⟨by decide, by decide, h0, hbig, ?_⟩
  rw [h0, hbig]
  decide

/-- C14, amended: for calibration codes and raw codes whose differences to the 4 mA code do
not overflow an `int`, and raw codes whose exact linear value has magnitude at most
2147483000 (written without the division: `16 * |raw - adcValue4mA| <= 2147483000 *
|adcValue20mA - adcValue4mA|`), so that the `double` fits the `int` that is returned,
`convert_mA` is monotonic in the raw code: for `raw1 <= raw2` it is non-decreasing when
`adcValue20mA > adcValue4mA` and non-increasing when `adcValue20mA < adcValue4mA`. -/
theorem convert_mA_monotonic (pf : Platform) (p : SensorVirtualPinBase σ) (raw1 raw2 : Int)
    (hx1 : |raw1 - p.adcValue4mA| ≤ 2147483647) (hx2 : |raw2 - p.adcValue4mA| ≤ 2147483647)
    (hcodes : |p.adcValue20mA - p.adcValue4mA| ≤ 2147483647)
    (hfit1 : 16 * |raw1 - p.adcValue4mA| ≤ 2147483000 * |p.adcValue20mA - p.adcValue4mA|)
    (hfit2 : 16 * |raw2 - p.adcValue4mA| ≤ 2147483000 * |p.adcValue20mA - p.adcValue4mA|)
    (h : raw1 ≤ raw2) :
    (p.adcValue20mA > p.adcValue4mA → p.convert_mA pf raw1 ≤ p.convert_mA pf raw2) ∧
      (p.adcValue20mA < p.adcValue4mA → p.convert_mA pf raw1 ≥ p.convert_mA pf raw2) := by
  obtain ⟨ha1, ha2⟩ := abs_le.mp hx1
  obtain ⟨hb1, hb2⟩ := abs_le.mp hx2
  obtain ⟨hc1, hc2⟩ := abs_le.mp hcodes
  have hw1 : wrapInt32 (raw1 - p.adcValue4mA) = raw1 - p.adcValue4mA :=
    wrapInt32_of_range (by omega) (by omega)
  have hw2 : wrapInt32 (raw2 - p.adcValue4mA) = raw2 - p.adcValue4mA :=
    wrapInt32_of_range (by omega) (by omega)
  have hwd : wrapInt32 (p.adcValue20mA - p.adcValue4mA) = p.adcValue20mA - p.adcValue4mA :=
    wrapInt32_of_range (by omega) (by omega)
  have hmono : binary32.roundRaw (((raw1 - p.adcValue4mA : ℤ)) : ℚ) ≤
      binary32.roundRaw (((raw2 - p.adcValue4mA : ℤ)) : ℚ) :=
    binary32.roundRaw_mono binary32_prec (by exact_mod_cast (by omega :
      raw1 - p.adcValue4mA ≤ raw2 - p.adcValue4mA))
  constructor
  · intro hlt
    have hd : wrapInt32 (p.adcValue20mA - p.adcValue4mA) ≠ 0 := by rw [hwd]; omega
    rw [convert_mA_fit pf p raw1 hd (by rw [hw1, hwd]; exact hfit1),
      convert_mA_fit pf p raw2 hd (by rw [hw2, hwd]; exact hfit2), hw1, hw2, hwd]
    have hpos : (0 : ℚ) < ((p.adcValue20mA - p.adcValue4mA : ℤ) : ℚ) := by
      exact_mod_cast (by omega : 0 < p.adcValue20mA - p.adcValue4mA)
    apply truncToInt_mono
    have := div_le_div_of_nonneg_right
      (mul_le_mul_of_nonneg_right hmono (by norm_num : (0 : ℚ) ≤ 16)) (le_of_lt hpos)
    linarith
  · intro hlt
    have hd : wrapInt32 (p.adcValue20mA - p.adcValue4mA) ≠ 0 := by rw [hwd]; omega
    rw [convert_mA_fit pf p raw1 hd (by rw [hw1, hwd]; exact hfit1),
      convert_mA_fit pf p raw2 hd (by rw [hw2, hwd]; exact hfit2), hw1, hw2, hwd]
    have hneg : ((p.adcValue20mA - p.adcValue4mA : ℤ) : ℚ) < 0 := by
      exact_mod_cast (by omega : p.adcValue20mA - p.adcValue4mA < 0)
    apply truncToInt_mono
    have := div_le_div_of_nonpos_of_le (le_of_lt hneg)
      (mul_le_mul_of_nonneg_right hmono (by norm_num : (0 : ℚ) ≤ 16))
    linarith

/-- C14, amended, on the native provider, codes 491 < 2469, at the raw codes 491 and 2469:
4 and 20. -/
theorem convert_mA_monotonic_witness :
    (491 : Int) ≤ 2469 ∧
      (SensorVirtualPinNative (loggedRead fun _ => 0)).convert_mA zeroPlatform 491 ≤
        (SensorVirtualPinNative (loggedRead fun _ => 0)).convert_mA zeroPlatform 2469 :=
  ⟨by decide,
    (convert_mA_monotonic zeroPlatform (SensorVirtualPinNative (loggedRead fun _ => 0))
      491 2469 (by simp [SensorVirtualPinNative]) (by simp [SensorVirtualPinNative])
      (by simp [SensorVirtualPinNative]) (by simp [SensorVirtualPinNative])
      (by simp [SensorVirtualPinNative]) (by decide)).1 (by decide)⟩

/-- C16: `isInRange(p)` is true if and only if `virtualPinStart <= p` and
`p < virtualPinStart + numVirtualPins`; so the native provider claims exactly the pins 0 to
99, an external converter started at `start` claims exactly the pins `start` to `start + 3`,
and a provider with `numVirtualPins <= 0` claims no pin. -/
theorem isInRange_iff (p : SensorVirtualPinBase σ) (pin : Int)
    (analogRead : Int → σ → Int × σ) (adc : ADS1015 σ) (start : Int) :
    (p.isInRange pin = true ↔
        p.virtualPinStart ≤ pin ∧ pin < p.virtualPinStart + p.numVirtualPins) ∧
      ((SensorVirtualPinNative analogRead).isInRange pin = true ↔ 0 ≤ pin ∧ pin ≤ 99) ∧
      ((SensorVirtualPinADS1015 adc start).isInRange pin = true ↔
        start ≤ pin ∧ pin ≤ start + 3) ∧
      (p.numVirtualPins ≤ 0 → p.isInRange pin = false) := by
  have hiff : ∀ q : SensorVirtualPinBase σ, q.isInRange pin = true ↔
      q.virtualPinStart ≤ pin ∧ pin < q.virtualPinStart + q.numVirtualPins := by
    intro q
    simp [SensorVirtualPinBase.isInRange]
  refine ⟨hiff p, ?_, ?_, ?_⟩
  · rw [hiff]
    simp only [SensorVirtualPinNative]
    constructor <;> intro h <;> constructor <;> omega
  · rw [hiff]
    simp only [SensorVirtualPinADS1015]
    constructor <;> intro h <;> constructor <;> omega
  · intro hn
    cases hr : p.isInRange pin with
    | false => rfl
    | true =>
      have := (hiff p).mp hr
      omega

/-- A provider appended to providers that do not claim the pin is the first to claim it. -/
theorem find_append_of_unclaimed (pin : Int) (ps : List (SensorVirtualPinBase σ))
    (p : SensorVirtualPinBase σ) (hfree : ∀ q ∈ ps, q.isInRange pin = false)
    (hp : p.isInRange pin = true) :
    (ps ++ [p]).find? (fun q => q.isInRange pin) = some p := by
  induction ps with
  | nil => simp [List.find?_cons, hp]
  | cons q rest ih =>
    have hq : q.isInRange pin = false := hfree q (List.mem_cons_self _ _)
    have hrest : ∀ r ∈ rest, r.isInRange pin = false :=
      fun r hr => hfree r (List.mem_cons_of_mem _ hr)
    rw [List.cons_append, List.find?_cons, hq]
    exact ih hrest

/-- C15: the provider that `withNativeADC()` registers has the calibration codes 491 and
2469, and when it is the provider of a pin (a pin from 0 to 99 that no provider registered
before claims), `readPinValue` reports `mA = 4` when the hardware reads 491, `mA = 20` when it
reads 2469 and `mA = 12` when it reads 1480. -/
theorem withNativeADC_end_to_end (pf : Platform) (reg : Sensor_4_20mA σ)
    (analogRead : Int → σ → Int × σ) (pin : Int) (s : σ)
    (hfree : ∀ q ∈ reg.virtualPins, q.isInRange pin = false)
    (h0 : 0 ≤ pin) (h1 : pin < 100) :
    (∃ p, (reg.withNativeADC analogRead).virtualPins = reg.virtualPins ++ [p] ∧
        p.adcValue4mA = 491 ∧ p.adcValue20mA = 2469) ∧
      ((analogRead pin s).1 = 491 →
        ((reg.withNativeADC analogRead).readPinValue pf pin s).1.mA = 4) ∧
      ((analogRead pin s).1 = 2469 →
        ((reg.withNativeADC analogRead).readPinValue pf pin s).1.mA = 20) ∧
      ((analogRead pin s).1 = 1480 →
        ((reg.withNativeADC analogRead).readPinValue pf pin s).1.mA = 12) := by
  have hin : (SensorVirtualPinNative analogRead).isInRange pin = true := by
    simp [SensorVirtualPinBase.isInRange, SensorVirtualPinNative, h0, h1]
  have hf : (reg.withNativeADC analogRead).virtualPins.find? (fun q => q.isInRange pin) =
      some (SensorVirtualPinNative analogRead) :=
    find_append_of_unclaimed pin reg.virtualPins _ hfree hin
  have hm := (readPinValue_reading pf (reg.withNativeADC analogRead) pin s _ hf).2.1
  have hread : ((SensorVirtualPinNative analogRead).readPin pin s).1 = (analogRead pin s).1 :=
    rfl
  rw [hread] at hm
  refine ⟨⟨SensorVirtualPinNative analogRead, rfl, rfl, rfl⟩, ?_, ?_, ?_⟩
  · intro h
    rw [hm, h, (native_conversions pf analogRead).1, intToFloat_lit.2.1]
  · intro h
    rw [hm, h, (native_conversions pf analogRead).2.1, intToFloat_lit.2.2.2]
  · intro h
    rw [hm, h, (native_conversions pf analogRead).2.2.1, intToFloat_lit.2.2.1]

/-- C15 on the registry of `examples/1-simple`, pin 0, with the hardware reading 1480:
`mA = 12`. -/
theorem withNativeADC_end_to_end_witness :
    (((Sensor_4_20mA.new : Sensor_4_20mA (List Int)).withNativeADC
        (loggedRead fun _ => 1480)).readPinValue zeroPlatform 0 []).1.mA = 12 :=
  (withNativeADC_end_to_end zeroPlatform (Sensor_4_20mA.new : Sensor_4_20mA (List Int))
    (loggedRead fun _ => 1480) 0 [] (by simp [Sensor_4_20mA.new]) (by decide)
    (by decide)).2.2.2 rfl

/-! Lemmas on equal calibration codes -/

/-- Discarding the fractional part moves a number toward zero by less than 1. -/
theorem truncToInt_toward_zero (q : ℚ) :
    |((truncToInt q : Int) : ℚ)| ≤ |q| ∧ |q - (truncToInt q : Int)| < 1 := by
  unfold truncToInt
  by_cases hq : 0 ≤ q
  · rw [if_pos hq]
    have h1 : ((⌊q⌋ : Int) : ℚ) ≤ q := Int.floor_le q
    have h2 : q < (⌊q⌋ : Int) + 1 := Int.lt_floor_add_one q
    have h3 : (0 : ℚ) ≤ (⌊q⌋ : Int) := by exact_mod_cast Int.floor_nonneg.mpr hq
    constructor
    · rw [abs_of_nonneg h3, abs_of_nonneg hq]
      exact h1
    · rw [abs_lt]
      constructor <;> linarith
  · rw [if_neg hq]
    have hq2 : q < 0 := not_le.mp hq
    have h1 : q ≤ (⌈q⌉ : Int) := Int.le_ceil q
    have h2 : ((⌈q⌉ : Int) : ℚ) < q + 1 := Int.ceil_lt_add_one q
    have h3 : ((⌈q⌉ : Int) : ℚ) ≤ 0 := by
      have : ⌈q⌉ ≤ 0 := Int.ceil_le.mpr (by push_cast; exact le_of_lt hq2)
      exact_mod_cast this
    constructor
    · rw [abs_of_nonpos h3, abs_of_neg hq2]
      linarith
    · rw [abs_lt]
      constructor <;> linarith

/-- The `mA` of every `readPinValue` result is a whole number. -/
theorem readPinValueLoop_mA_whole (pf : Platform) (config : Option (List SensorConfig))
    (pin : Int) (ps : List (SensorVirtualPinBase σ)) (s : σ) :
    ∃ n : Int, (readPinValueLoop pf config pin ps s).1.mA = Fp.num n := by
  cases hf : ps.find? (fun p => p.isInRange pin) with
  | none =>
    have hall : ∀ p ∈ ps, p.isInRange pin = false := by
      intro p hp
      have := List.find?_eq_none.mp hf p hp
      simpa using this
    rw [readPinValueLoop_of_unclaimed pf config pin ps s hall]
    exact ⟨0, by simp [Fp.ofNat_eq]⟩
  | some p =>
    obtain ⟨h1, h2⟩ := convert_mA_range pf p (p.readPin pin s).1
    obtain ⟨m, hm, _⟩ := intToFloat_spec _ h1 h2
    have hm' : intToFloat (p.convert_mA pf (p.readPin pin s).1) = Fp.num m := hm
    rw [readPinValueLoop_of_find pf config pin ps s p hf]
    cases config with
    | none => exact ⟨m, hm'⟩
    | some records => exact ⟨m, (applyConfig_keeps _ _ _).2.trans hm'⟩

/-! Lemmas on the 4 to 20 band -/

/-- Between the two calibration codes, in increasing order and with a difference that does
not overflow an `int`, the conversion stays between 4 and 20. -/
theorem convert_mA_in_band (pf : Platform) (p : SensorVirtualPinBase σ) (raw : Int)
    (hlt : p.adcValue4mA < p.adcValue20mA)
    (hcodes : p.adcValue20mA - p.adcValue4mA ≤ 2147483647) (hlo : p.adcValue4mA ≤ raw)
    (hhi : raw ≤ p.adcValue20mA) :
    4 ≤ p.convert_mA pf raw ∧ p.convert_mA pf raw ≤ 20 := by
  have hwx : wrapInt32 (raw - p.adcValue4mA) = raw - p.adcValue4mA :=
    wrapInt32_of_range (by omega) (by omega)
  have hwd : wrapInt32 (p.adcValue20mA - p.adcValue4mA) = p.adcValue20mA - p.adcValue4mA :=
    wrapInt32_of_range (by omega) (by omega)
  have hd : wrapInt32 (p.adcValue20mA - p.adcValue4mA) ≠ 0 := by rw [hwd]; omega
  obtain ⟨m, _, hraw, _, _, hsmall, hconv⟩ := convert_mA_eq pf p raw hd
  rw [hwx] at hraw hsmall
  rw [hwd] at hconv
  have hx0 : 0 ≤ raw - p.adcValue4mA := by omega
  have hxD : raw - p.adcValue4mA ≤ p.adcValue20mA - p.adcValue4mA := by omega
  have hDpos : (0 : ℚ) < ((p.adcValue20mA - p.adcValue4mA : ℤ) : ℚ) := by
    exact_mod_cast (by omega : 0 < p.adcValue20mA - p.adcValue4mA)
  generalize p.adcValue20mA - p.adcValue4mA = D at *
  generalize raw - p.adcValue4mA = x at *
  have hxDq : (x : ℚ) ≤ D := by exact_mod_cast hxD
  have hm0 : (0 : ℚ) ≤ m := by
    have h := binary32.roundRaw_mono binary32_prec (q := (0 : ℚ)) (r := (x : ℚ))
      (by exact_mod_cast hx0)
    rw [binary32.roundRaw_exact rep32_zero, hraw] at h
    exact h
  have hmD : (m : ℚ) * 16 < 17 * D := by
    rcases eq_or_lt_of_le hx0 with h0 | hpos
    · have : m = x := hsmall (by rw [← h0]; norm_num)
      rw [this, ← h0]
      push_cast
      linarith
    · have h1 : (1 : ℚ) ≤ x := by exact_mod_cast (by omega : (1 : ℤ) ≤ x)
      have h := roundRaw32_le_rel h1
      rw [hraw] at h
      nlinarith
  have hq4 : (4 : ℚ) ≤ (m : ℚ) * 16 / D + 4 := by
    have : 0 ≤ (m : ℚ) * 16 / D := div_nonneg (by linarith) (le_of_lt hDpos)
    linarith
  have hq21 : (m : ℚ) * 16 / D + 4 < 21 := by
    have : (m : ℚ) * 16 / D < 17 := by
      rw [div_lt_iff₀ hDpos]
      exact hmD
    linarith
  have ht4 : 4 ≤ truncToInt ((m : ℚ) * 16 / D + 4) := by
    have := truncToInt_mono (q := ((4 : ℤ) : ℚ)) (r := (m : ℚ) * 16 / D + 4)
      (by push_cast; exact hq4)
    rwa [truncToInt_intCast] at this
  have ht20 : truncToInt ((m : ℚ) * 16 / D + 4) ≤ 20 := by
    unfold truncToInt
    rw [if_pos (by linarith)]
    have : ⌊(m : ℚ) * 16 / D + 4⌋ < 21 := Int.floor_lt.mpr (by exact_mod_cast hq21)
    omega
  rw [hconv, Fp.toInt_of_range pf (by omega) (by omega)]
  exact ⟨ht4, ht20⟩

/-- C18 fails where the difference to the 4 mA code has more than 24 bits, because
`(float)adcValue` is rounded: a provider with the codes 0 and 16 converts the raw code
16777217 to 16777220, not to the exact value 16777221; and where the `int` result has more
than 24 bits, because it is stored in the `float` member `mA`: for a reading of 16777213 the
exact value is 16777217 and `mA` is 16777216, exactly 1 away. -/
theorem convert_mA_truncates_counterexample :
    (customProvider 0 16 (fun _ => 16777213)).adcValue20mA ≠
        (customProvider 0 16 (fun _ => 16777213)).adcValue4mA ∧
      (customProvider 0 16 (fun _ => 16777213)).convert_mA x86Platform 16777217 = 16777220 ∧
      truncToInt (((16777217 : ℚ) - 0) * 16 / (16 - 0) + 4) = 16777221 ∧
      ((customRegistry 0 16 (fun _ => 16777213) []).readPinValue x86Platform 0 []).1.mA =
        Fp.num 16777216 ∧
      ((16777213 : ℚ) - 0) * 16 / (16 - 0) + 4 - 16777216 = 1 := by
  have hd : wrapInt32 ((customProvider 0 16 (fun _ => 16777213)).adcValue20mA -
      (customProvider 0 16 (fun _ => 16777213)).adcValue4mA) ≠ 0 := by
    simp [customProvider, wrapInt32]
  have hbig : (customProvider 0 16 (fun _ => 16777213)).convert_mA x86Platform 16777217
      = 16777220 := by
    obtain ⟨m, _, hraw, _, _, _, hconv⟩ :=
      convert_mA_eq x86Platform (customProvider 0 16 (fun _ => 16777213)) 16777217 hd
    have hx : wrapInt32 (16777217 - (customProvider 0 16 (fun _ => 16777213)).adcValue4mA)
        = 16777217 := by simp [customProvider, wrapInt32]
    have hdv : wrapInt32 ((customProvider 0 16 (fun _ => 16777213)).adcValue20mA -
        (customProvider 0 16 (fun _ => 16777213)).adcValue4mA) = 16 := by
      simp [customProvider, wrapInt32]
    rw [hx] at hraw
    have h17 := round32_16777217.2
    have hmv : (m : ℚ) = 16777216 := by
      rw [← hraw]
      exact_mod_cast h17
    rw [hconv, hdv, hmv]
    norm_num [Fp.toInt, truncToInt]
  have hconv : (customProvider 0 16 (fun _ => 16777213)).convert_mA x86Platform 16777213
      = 16777217 := by
    rw [convert_mA_of_small x86Platform _ _ hd (by simp [customProvider, wrapInt32])]
    norm_num [customProvider, wrapInt32, truncToInt]
  refine ⟨by decide, hbig, by norm_num [truncToInt], ?_, by norm_num⟩
  rw [(customRegistry_reading x86Platform 0 16 _ _).2.1, hconv]
  exact round32_16777217.1

/-- C18, amended: with distinct calibration codes whose difference does not overflow an
`int`, and a raw code whose difference to the 4 mA code has at most 24 bits, `convert_mA(raw)`
is the exact linear value `(raw - adcValue4mA) * 16 / (adcValue20mA - adcValue4mA) + 4` with
its fractional part discarded toward zero: it is no larger in absolute value and differs from
it by less than 1. The `mA` of every `readPinValue` result is a whole number, and for a pin
whose first claiming provider is `p` and a code read of that kind whose `convert_mA` has at
most 24 bits, it is `convert_mA` of the code read, less than 1 away from the exact linear
value of that code. -/
theorem convert_mA_truncates (pf : Platform) (p : SensorVirtualPinBase σ) (raw : Int)
    (h : p.adcValue20mA ≠ p.adcValue4mA)
    (hcodes : |p.adcValue20mA - p.adcValue4mA| ≤ 2147483647)
    (hx : |raw - p.adcValue4mA| ≤ 16777216) :
    p.convert_mA pf raw =
        truncToInt (((raw : ℚ) - p.adcValue4mA) * 16 / (p.adcValue20mA - p.adcValue4mA) + 4) ∧
      |((p.convert_mA pf raw : Int) : ℚ)| ≤
        |((raw : ℚ) - p.adcValue4mA) * 16 / (p.adcValue20mA - p.adcValue4mA) + 4| ∧
      |(((raw : ℚ) - p.adcValue4mA) * 16 / (p.adcValue20mA - p.adcValue4mA) + 4) -
        (p.convert_mA pf raw : Int)| < 1 ∧
      (∀ (reg : Sensor_4_20mA σ) (pin : Int) (s : σ),
        ∃ n : Int, (reg.readPinValue pf pin s).1.mA = Fp.num n) ∧
      (∀ (reg : Sensor_4_20mA σ) (pin : Int) (s : σ),
        reg.virtualPins.find? (fun q => q.isInRange pin) = some p →
        |(p.readPin pin s).1 - p.adcValue4mA| ≤ 16777216 →
        |p.convert_mA pf (p.readPin pin s).1| ≤ 16777216 →
        (reg.readPinValue pf pin s).1.mA =
            Fp.num ((p.convert_mA pf (p.readPin pin s).1 : Int) : ℚ) ∧
          |((((p.readPin pin s).1 : Int) : ℚ) - p.adcValue4mA) * 16 /
              (p.adcValue20mA - p.adcValue4mA) + 4 -
            (p.convert_mA pf (p.readPin pin s).1 : Int)| < 1) := by
  obtain ⟨hc1, hc2⟩ := abs_le.mp hcodes
  have hwd : wrapInt32 (p.adcValue20mA - p.adcValue4mA) = p.adcValue20mA - p.adcValue4mA :=
    wrapInt32_of_range (by omega) (by omega)
  have hd : wrapInt32 (p.adcValue20mA - p.adcValue4mA) ≠ 0 := by
    rw [hwd]
    omega
  have key : ∀ r : Int, |r - p.adcValue4mA| ≤ 16777216 →
      p.convert_mA pf r =
        truncToInt (((r : ℚ) - p.adcValue4mA) * 16 / (p.adcValue20mA - p.adcValue4mA) + 4) := by
    intro r hr
    obtain ⟨hr1, hr2⟩ := abs_le.mp hr
    have hwx : wrapInt32 (r - p.adcValue4mA) = r - p.adcValue4mA :=
      wrapInt32_of_range (by omega) (by omega)
    rw [convert_mA_of_small pf p r hd (by rw [hwx]; exact hr), hwx, hwd]
    push_cast
    rfl
  refine ⟨key raw hx, ?_, ?_, ?_, ?_⟩
  · rw [key raw hx]
    exact (truncToInt_toward_zero _).1
  · rw [key raw hx]
    exact (truncToInt_toward_zero _).2
  · intro reg pin s
    exact readPinValueLoop_mA_whole pf reg.config pin reg.virtualPins s
  · intro reg pin s hf hread hsmall
    have hm := (readPinValue_reading pf reg pin s p hf).2.1
    refine ⟨hm.trans (intToFloat_small _ hsmall), ?_⟩
    rw [key _ hread]
    exact (truncToInt_toward_zero _).2

/-- C18, amended, on the native provider: the raw code 492 gives 4 and the raw code 0
gives 0. -/
theorem convert_mA_truncates_witness :
    (SensorVirtualPinNative (loggedRead fun _ => 0)).convert_mA zeroPlatform 492 = 4 ∧
      (SensorVirtualPinNative (loggedRead fun _ => 0)).convert_mA zeroPlatform 0 = 0 := by
  constructor
  · rw [(convert_mA_truncates zeroPlatform (SensorVirtualPinNative (loggedRead fun _ => 0)) 492
      (by decide) (by simp [SensorVirtualPinNative]) (by simp [SensorVirtualPinNative])).1]
    norm_num [SensorVirtualPinNative, truncToInt]
  · rw [(convert_mA_truncates zeroPlatform (SensorVirtualPinNative (loggedRead fun _ => 0)) 0
      (by decide) (by simp [SensorVirtualPinNative]) (by simp [SensorVirtualPinNative])).1]
    norm_num [SensorVirtualPinNative, truncToInt]

/-- C19 fails for fields whose `float` difference is rounded: on the native provider reading
2469 on pin 0 (the 20 mA code, so `mA` is 20) with the record `{ 0, "t", -1, 0.1f }` (0.1f is
13421773 / 2 ^ 27, above -1), `value20mA - valueLow` is rounded up to 9227469 / 2 ^ 23 and the
value is 838861 / 2 ^ 23 = 0.1000000238..., above `value20mA`. -/
theorem readPinValue_in_band_counterexample :
    binary32.Rep (13421773 / 134217728) ∧ (-1 : ℚ) ≤ 13421773 / 134217728 ∧
      ((nativeRegistry (fun _ => 2469)
        [{ virtualPin := 0, name := "t", valueLow := Fp.num (-1),
            value20mA := Fp.num (13421773 / 134217728) }]).readPinValue x86Platform 0 []).1.mA
        = 20 ∧
      ((nativeRegistry (fun _ => 2469)
        [{ virtualPin := 0, name := "t", valueLow := Fp.num (-1),
            value20mA := Fp.num (13421773 / 134217728) }]).readPinValue x86Platform 0 []).1.value
        = Fp.num (838861 / 8388608) ∧
      (13421773 / 134217728 : ℚ) < 838861 / 8388608 := by
  have hm := (nativeRegistry_mA x86Platform
    [{ virtualPin := 0, name := "t", valueLow := Fp.num (-1),
        value20mA := Fp.num (13421773 / 134217728) }]).2.1
  have hv := value_of_matching_record x86Platform
    (nativeRegistry (fun _ => 2469)
      [{ virtualPin := 0, name := "t", valueLow := Fp.num (-1),
          value20mA := Fp.num (13421773 / 134217728) }]) 0 []
    [{ virtualPin := 0, name := "t", valueLow := Fp.num (-1),
        value20mA := Fp.num (13421773 / 134217728) }]
    { virtualPin := 0, name := "t", valueLow := Fp.num (-1),
      value20mA := Fp.num (13421773 / 134217728) }
    (nativeRegistry_claims _ _) rfl rfl
  have hsub : binary32.round (13421773 / 134217728 - -1) = Fp.num (9227469 / 8388608) := by
    have h := (binary32.round_eval (q := 147639501 / 134217728) 0 (by norm_num) (by norm_num)
      (by decide) (r := 9227469 / 8388608) (by norm_num [binary32, roundHalfEven])
      (by norm_num [binary32])).1
    norm_num at h ⊢
    exact h
  have hsum : binary64.Rep (9227469 / 8388608 + -1) :=
    ⟨838861, -23, by norm_num, by norm_num [binary64], by simp [binary64],
      by norm_num [binary64, abs_of_pos]⟩
  have hres : binary32.Rep (838861 / 8388608) :=
    ⟨838861, -23, by norm_num, by norm_num [binary32], by simp [binary32],
      by norm_num [binary32, abs_of_pos]⟩
  have hscale := scale_4mA_at_20 hsub hsum
  have e : (9227469 / 8388608 + -1 : ℚ) = 838861 / 8388608 := by norm_num
  rw [e, round32_rep hres] at hscale
  refine ⟨rep32_tenth, by norm_num, hm, ?_, by norm_num⟩
  rw [hv, hm, if_pos rfl, hscale]
  exact offset_zero_multiplier_one hres

/-- C19, amended: for a pin whose first claiming provider `p` has `adcValue4mA <
adcValue20mA`, with a difference that does not overflow an `int`, and reads a code between
the two, the `mA` of `readPinValue` is a whole number between 4 and 20, the one that
`convert_mA` returns; and if the first config record for the pin has `valueLowIs4mA = true`,
`offset = 0`, `multiplier = 1` and finite float fields `valueLow <= value20mA` whose `float`
difference `value20mA - valueLow` is exact, the `value` is a number between `valueLow` and
`value20mA`. -/
theorem readPinValue_in_band (pf : Platform) (reg : Sensor_4_20mA σ) (pin : Int) (s : σ)
    (p : SensorVirtualPinBase σ)
    (hp : reg.virtualPins.find? (fun q => q.isInRange pin) = some p)
    (hlt : p.adcValue4mA < p.adcValue20mA)
    (hcodes : p.adcValue20mA - p.adcValue4mA ≤ 2147483647)
    (hlo : p.adcValue4mA ≤ (p.readPin pin s).1) (hhi : (p.readPin pin s).1 ≤ p.adcValue20mA) :
    ((reg.readPinValue pf pin s).1.mA =
          Fp.num ((p.convert_mA pf (p.readPin pin s).1 : Int) : ℚ) ∧
        4 ≤ p.convert_mA pf (p.readPin pin s).1 ∧ p.convert_mA pf (p.readPin pin s).1 ≤ 20) ∧
      ∀ (records : List SensorConfig) (c : SensorConfig) (lo hi : ℚ),
        reg.config = some records →
        records.find? (fun c => c.virtualPin == pin) = some c →
        c.valueLowIs4mA = true → c.offset = 0 → c.multiplier = 1 →
        c.valueLow = Fp.num lo → c.value20mA = Fp.num hi →
        binary32.Rep lo → binary32.Rep hi → binary32.Rep (hi - lo) → lo ≤ hi →
        ∃ w : ℚ, (reg.readPinValue pf pin s).1.value = Fp.num w ∧ lo ≤ w ∧ w ≤ hi := by
  have hm := (readPinValue_reading pf reg pin s p hp).2.1
  have hb := convert_mA_in_band pf p (p.readPin pin s).1 hlt hcodes hlo hhi
  have hmA : (reg.readPinValue pf pin s).1.mA =
      Fp.num ((p.convert_mA pf (p.readPin pin s).1 : Int) : ℚ) :=
    hm.trans (intToFloat_small _ (by rw [abs_le]; constructor <;> omega))
  refine ⟨⟨hmA, hb.1, hb.2⟩, ?_⟩
  intro records c lo hi hcfg hc hflag hoff hmul hlow hhigh hrlo hrhi hrd hle
  have hclaimed : ∃ q ∈ reg.virtualPins, q.isInRange pin = true :=
    ⟨p, List.mem_of_find?_eq_some hp, by simpa using List.find?_some hp⟩
  have hv := value_of_matching_record pf reg pin s records c hclaimed hcfg hc
  rw [hflag, hoff, hmul, hlow, hhigh, hmA, if_pos rfl] at hv
  obtain ⟨w, hw, hwrep, hw1, hw2⟩ := scale_4mA_band hrlo hrhi hrd hle _ hb.1 hb.2
  rw [hw, offset_zero_multiplier_one hwrep] at hv
  exact ⟨w, hv, hw1, hw2⟩

/-- C19, amended, on the native provider reading 1480 on pin 0 with the record
`{ 0, "t", 0, 100 }`: `mA` is a whole number between 4 and 20 and `value` a number between 0
and 100. -/
theorem readPinValue_in_band_witness :
    (∃ m : Int, ((nativeRegistry (fun _ => 1480)
          [{ virtualPin := 0, name := "t", valueLow := 0, value20mA := 100 }]).readPinValue
          zeroPlatform 0 []).1.mA = Fp.num m ∧ 4 ≤ m ∧ m ≤ 20) ∧
      (∃ w : ℚ, ((nativeRegistry (fun _ => 1480)
          [{ virtualPin := 0, name := "t", valueLow := 0, value20mA := 100 }]).readPinValue
          zeroPlatform 0 []).1.value = Fp.num w ∧ 0 ≤ w ∧ w ≤ 100) := by
  have h := readPinValue_in_band zeroPlatform
    (nativeRegistry (fun _ => 1480)
      [{ virtualPin := 0, name := "t", valueLow := 0, value20mA := 100 }]) 0 []
    (SensorVirtualPinNative (loggedRead fun _ => 1480))
    (by simp [nativeRegistry, Sensor_4_20mA.withConfig, Sensor_4_20mA.withNativeADC,
      Sensor_4_20mA.new, List.find?_cons, SensorVirtualPinBase.isInRange,
      SensorVirtualPinNative])
    (by decide) (by decide) (by decide) (by decide)
  exact ⟨⟨_, h.1.1, h.1.2.1, h.1.2.2⟩,
    h.2 [{ virtualPin := 0, name := "t", valueLow := 0, value20mA := 100 }]
      { virtualPin := 0, name := "t", valueLow := 0, value20mA := 100 } 0 100 rfl rfl rfl rfl
      rfl rfl rfl rep32_zero rep32_lit.2.2.1 (by simpa using rep32_lit.2.2.1) (by norm_num)⟩

/-- C20: when the first provider that claims the pin is an external converter registered at
`start`, `readPin` and `readPinValue` make one call `getSingleEnded(pin - start)`, and the
channel `pin - start` is one of 0, 1, 2, 3. -/
theorem ads1015_channel_in_range (pf : Platform) (reg : Sensor_4_20mA σ) (pin : Int) (s : σ)
    (adc : ADS1015 σ) (start : Int)
    (hp : reg.virtualPins.find? (fun q => q.isInRange pin) =
      some (SensorVirtualPinADS1015 adc start)) :
    reg.readPin pin s = adc.getSingleEnded (pin - start) s ∧
      (reg.readPinValue pf pin s).1.adcValue = (adc.getSingleEnded (pin - start) s).1 ∧
      (reg.readPinValue pf pin s).2 = (adc.getSingleEnded (pin - start) s).2 ∧
      0 ≤ pin - start ∧ pin - start ≤ 3 := by
  have hin : (SensorVirtualPinADS1015 adc start).isInRange pin = true := by
    simpa using List.find?_some hp
  have hr := readPinValue_reading pf reg pin s _ hp
  have hread : reg.readPin pin s = adc.getSingleEnded (pin - start) s := by
    unfold Sensor_4_20mA.readPin
    generalize reg.virtualPins = ps at hp
    induction ps with
    | nil => simp at hp
    | cons q rest ih =>
      by_cases hq : q.isInRange pin = true
      · rw [List.find?_cons, hq] at hp
        have hqp : q = SensorVirtualPinADS1015 adc start := Option.some.inj hp
        subst hqp
        simp only [readPinLoop, hq, if_true]
        rfl
      · have hq2 : q.isInRange pin = false := by simpa using hq
        rw [List.find?_cons, hq2] at hp
        simp [readPinLoop, hq2, ih hp]
  simp only [SensorVirtualPinBase.isInRange, SensorVirtualPinADS1015, Bool.and_eq_true,
    decide_eq_true_eq] at hin
  refine ⟨hread, hr.1, hr.2.2, ?_, ?_⟩ <;> omega

/-- C20 on the registry of `more-examples/1-ADS1015`, converter registered at pin 100: reading
pin 102 samples channel 2, once. -/
theorem ads1015_channel_in_range_witness :
    (ads1015Registry (fun ch => 200 + ch) []).readPin 102 [] = (202, [2]) ∧
      ((ads1015Registry (fun ch => 200 + ch) []).readPinValue zeroPlatform 102 []).2 = [2] := by
  have h := ads1015_channel_in_range zeroPlatform (ads1015Registry (fun ch => 200 + ch) [])
    102 [] (loggedADS1015 fun ch => 200 + ch) 100
    (by simp [ads1015Registry, Sensor_4_20mA.withConfig, Sensor_4_20mA.withADS1015,
      Sensor_4_20mA.new, List.find?_cons, SensorVirtualPinBase.isInRange,
      SensorVirtualPinADS1015])
  exact ⟨h.1, h.2.2.1⟩

end Sensor_4_20mA_RK
